import Mathlib

/-! # nvidia-smi Prometheus exporter: value normalisation and metric emission

A shallow embedding of `src/src/app.go`.  Go strings are Lean `String`s; the
regular expressions used by the program are run by a small backtracking
matcher with Go's leftmost-first semantics; `strconv.ParseFloat(_, 32)` and
`fmt.Sprintf("%g", _)` are modelled on exact integer arithmetic (a float is a
mantissa and a binary exponent).  `generateMetricsResponse` returns the list
of strings it passes to `io.WriteString`.
-/

namespace NvidiaSmi

/-! ## Regular expressions (package `regexp`) -/

/-- The fragment of RE2 syntax used by the program. Capturing groups carry
their index (the position of their opening parenthesis, starting at 1). -/
inductive Regex where
  | cls (p : Char → Bool)
  | seq (r₁ r₂ : Regex)
  | opt (r : Regex)
  | star (r : Regex)
  | plus (r : Regex)
  | group (i : Nat) (r : Regex)

/-- Capture groups recorded so far, most recent first. -/
abbrev Caps := List (Nat × List Char)

/-- Text of capture group `i` (empty when the group did not take part). -/
def capture (c : Caps) (i : Nat) : List Char :=
  match c.find? (fun e => e.1 == i) with
  | some e => e.2
  | none => []

/-- Greedy iteration of `step`: one more round first, then the continuation.
A round that consumes nothing is not repeated. -/
def starK {R : Type} (step : List Char → Caps → (List Char → Caps → Option R) → Option R) :
    Nat → List Char → Caps → (List Char → Caps → Option R) → Option R
  | 0, s, c, k => k s c
  | n + 1, s, c, k =>
    match step s c (fun s' c' => if s'.length < s.length then starK step n s' c' k else none) with
    | some r => some r
    | none => k s c

/-- Backtracking matcher in continuation-passing style: `matchK r s c k` tries
the ways `r` can match a prefix of `s` in priority order (greedy operators
prefer the longer alternative) and returns the first for which the
continuation `k` succeeds on the rest. -/
def matchK {R : Type} : Regex → List Char → Caps → (List Char → Caps → Option R) → Option R
  | .cls p, s, c, k =>
    match s with
    | [] => none
    | x :: xs => if p x then k xs c else none
  | .seq r₁ r₂, s, c, k => matchK r₁ s c (fun s' c' => matchK r₂ s' c' k)
  | .opt r, s, c, k =>
    match matchK r s c k with
    | some a => some a
    | none => k s c
  | .star r, s, c, k => starK (matchK r) s.length s c k
  | .plus r, s, c, k => matchK r s c (fun s' c' => starK (matchK r) s'.length s' c' k)
  | .group i r, s, c, k =>
    matchK r s c (fun s' c' => k s' ((i, s.take (s.length - s'.length)) :: c'))

/-- Unanchored search as in `FindStringSubmatch`: the leftmost start position
at which the expression matches wins. `none` is Go's empty result slice. -/
def findSubmatch (r : Regex) : List Char → Option Caps
  | [] => matchK r [] [] (fun _ c => some c)
  | x :: xs =>
    match matchK r (x :: xs) [] (fun _ c => some c) with
    | some c => some c
    | none => findSubmatch r xs

/-- Successive non-overlapping matches replaced by `repl`, as in
`ReplaceAllString` with a replacement free of `$`. `afterMatch` says that a
non-empty match ended at the current position (an empty match there is not
replaced). -/
def replaceAllAux (r : Regex) (repl : List Char) : Nat → Bool → List Char → List Char
  | 0, _, s => s
  | n + 1, afterMatch, s =>
    match matchK r s [] (fun rest _ => some rest) with
    | some rest =>
      if rest.length < s.length then repl ++ replaceAllAux r repl n true rest
      else
        (if afterMatch then [] else repl) ++
          (match s with
           | [] => []
           | x :: xs => x :: replaceAllAux r repl n false xs)
    | none =>
      match s with
      | [] => []
      | x :: xs => x :: replaceAllAux r repl n false xs

/-- Go's `ReplaceAllString(src, repl)`. -/
def replaceAll (r : Regex) (repl : List Char) (s : List Char) : List Char :=
  replaceAllAux r repl (s.length + 1) false s

/-- The class `\d` (ASCII digits only in RE2). -/
def isDigit (c : Char) : Bool := c.isDigit

/-- The class `[\d\.]`, also written `[0-9.]`. -/
def isNumChar (c : Char) : Bool := isDigit c || c == '.'

/-- The class `.`: any character but a newline. -/
def isAnyChar (c : Char) : Bool := c != '\n'

/-- The class `[KMGT]`. -/
def isPowerChar (c : Char) : Bool := c == 'K' || c == 'M' || c == 'G' || c == 'T'

/-- A single literal character. -/
def Regex.lit (a : Char) : Regex := .cls (fun c => c == a)

/-- The expression of `formatVersion`: `(?P<version>\d+\.\d+).*`. -/
def versionRegex : Regex :=
  .seq (.group 1 (.seq (.plus (.cls isDigit)) (.seq (.lit '.') (.plus (.cls isDigit)))))
    (.star (.cls isAnyChar))

/-- The expression of `filterUnit`:
`(?P<value>[\d\.]+) (?P<power>[KMGT]?[i]?)(?P<unit>.*)`. -/
def unitRegex : Regex :=
  .seq (.group 1 (.plus (.cls isNumChar)))
    (.seq (.lit ' ')
      (.seq (.group 2 (.seq (.opt (.cls isPowerChar)) (.opt (.lit 'i'))))
        (.group 3 (.star (.cls isAnyChar)))))

/-- The expression of `filterNumber`: `[^0-9.]`. -/
def nonNumRegex : Regex := .cls (fun c => !isNumChar c)

/-! ## Floating point (packages `strconv` and `fmt`) -/

/-- A finite non-negative binary float: the number `mant * 2 ^ exp`. -/
structure FloatVal where
  mant : Nat
  exp : Int
deriving DecidableEq, Repr

/-- Value of a run of decimal digits. -/
def digitsToNat (ds : List Char) : Nat :=
  ds.foldl (fun acc c => acc * 10 + (c.toNat - 48)) 0

/-- The decimal syntax `ParseFloat` accepts among strings over `[0-9.]`:
digits with at most one point and at least one digit. The result `(d, f)`
stands for `d / 10 ^ f`. -/
def parseDecimal (s : List Char) : Option (Nat × Nat) :=
  let ip := s.takeWhile isDigit
  let rest := s.dropWhile isDigit
  match rest with
  | [] => if ip.isEmpty then none else some (digitsToNat ip, 0)
  | c :: fp =>
    if c == '.' && fp.all isDigit && !(ip.isEmpty && fp.isEmpty) then
      some (digitsToNat (ip ++ fp), fp.length)
    else none

/-- Number of halvings that bring `n` below 2 (`fuel` bounds their number). -/
def log2Fuel : Nat → Nat → Nat
  | 0, _ => 0
  | fuel + 1, n => if n < 2 then 0 else log2Fuel fuel (n / 2) + 1

/-- The integer `e` with `2 ^ e ≤ n < 2 ^ (e + 1)`, for positive `n`. -/
def floorLog2 (n : Nat) : Nat := log2Fuel n n

/-- The integer `e` with `2 ^ e ≤ num / den < 2 ^ (e + 1)`, for positive `num`, `den`. -/
def floorLog2Ratio (num den : Nat) : Int :=
  let e0 : Int := (floorLog2 num : Int) - (floorLog2 den : Int)
  if den * 2 ^ e0.toNat ≤ num * 2 ^ (-e0).toNat then e0 else e0 - 1

/-- Nearest integer to `n / d`, ties to the even one. -/
def roundHalfEven (n d : Nat) : Nat :=
  let q := n / d
  let r := n % d
  if 2 * r < d then q
  else if d < 2 * r then q + 1
  else if q % 2 = 0 then q else q + 1

/-- IEEE 754 round-to-nearest-even of `num / den` to a binary format with
`p` bits of precision and least normal exponent `emin` (no upper bound on the
exponent: overflow is the caller's test). -/
def roundFloat (p : Nat) (emin : Int) (num den : Nat) : FloatVal :=
  if num = 0 then ⟨0, emin - ((p : Int) - 1)⟩
  else
    let e := max (floorLog2Ratio num den) emin
    let s := e - ((p : Int) - 1)
    let m := roundHalfEven (num * 2 ^ (-s).toNat) (den * 2 ^ s.toNat)
    if m = 2 ^ p then ⟨2 ^ (p - 1), s + 1⟩ else ⟨m, s⟩

/-- Go's `strconv.ParseFloat(s, 32)` on a string over `[0-9.]`: the nearest
single-precision number, or `none` for the errors `ErrSyntax` and `ErrRange`
(the latter when the rounded value is beyond the largest float32). -/
def parseFloat32 (s : List Char) : Option FloatVal :=
  match parseDecimal s with
  | none => none
  | some (d, f) =>
    let v := roundFloat 24 (-126) d (10 ^ f)
    if 104 < v.exp then none else some v

/-- The float64 product `value * c` for an integer constant `c`. -/
def mulFloat64 (v : FloatVal) (c : Nat) : FloatVal :=
  roundFloat 53 (-1022) (v.mant * c * 2 ^ v.exp.toNat) (2 ^ (-v.exp).toNat)

/-- Decimal digits of `n`, most significant first (`fuel` bounds their number). -/
def natDigits : Nat → Nat → List Char → List Char
  | 0, _, acc => acc
  | fuel + 1, n, acc =>
    let acc' := Char.ofNat (48 + n % 10) :: acc
    if n / 10 = 0 then acc' else natDigits fuel (n / 10) acc'

/-- The least `k ≥ k0` with `num < den * 10 ^ (k + 1)`. -/
def log10Up (num den : Nat) : Nat → Nat → Nat
  | 0, k => k
  | fuel + 1, k => if num < den * 10 ^ (k + 1) then k else log10Up num den fuel (k + 1)

/-- The least `j ≥ j0` with `den ≤ num * 10 ^ j`. -/
def log10Down (num den : Nat) : Nat → Nat → Nat
  | 0, j => j
  | fuel + 1, j => if den ≤ num * 10 ^ j then j else log10Down num den fuel (j + 1)

/-- The integer `e` with `10 ^ e ≤ num / den < 10 ^ (e + 1)`, for positive `num`, `den`. -/
def floorLog10Ratio (num den : Nat) : Int :=
  if den ≤ num then (log10Up num den (floorLog2 num + 1) 0 : Nat)
  else -((log10Down num den (floorLog2 den + 1) 1 : Nat) : Int)

/-- Search for the shortest decimal `c * 10 ^ k` inside the rounding interval
`[L / den, H / den]` of `X / den` (end points allowed when `incl`), trying
`nd, nd + 1, ...` significant digits; among the two `nd`-digit neighbours of
`X / den` the nearer one is taken, the even one on a tie. -/
def shortestAux (X L H den : Nat) (incl : Bool) (dexp : Int) : Nat → Nat → Nat × Int
  | 0, nd => (X / den, dexp - (nd : Int) + 1)
  | fuel + 1, nd =>
    let k : Int := dexp - (nd : Int) + 1
    let P := 10 ^ k.toNat * den
    let Q := 10 ^ (-k).toNat
    let lo := X * Q / P
    let hi := lo + 1
    let ok : Nat → Bool := fun c =>
      if incl then decide (L * Q ≤ c * P) && decide (c * P ≤ H * Q)
      else decide (L * Q < c * P) && decide (c * P < H * Q)
    if ok lo && ok hi then
      let dlo := X * Q - lo * P
      let dhi := hi * P - X * Q
      if dlo < dhi then (lo, k)
      else if dhi < dlo then (hi, k)
      else if lo % 2 = 0 then (lo, k) else (hi, k)
    else if ok lo then (lo, k)
    else if ok hi then (hi, k)
    else shortestAux X L H den incl dexp fuel (nd + 1)

/-- Remove the trailing zeros of a digit string. -/
def trimZeros (ds : List Char) : List Char :=
  (ds.reverse.dropWhile (fun c => c == '0')).reverse

/-- Shortest decimal digits that round-trip the float64 `v` (`strconv` with
precision `-1`): the digit string `d` and the position `dp` of the decimal
point, the value printed being `0.d * 10 ^ dp`. Zero has no digit. -/
def shortestDigits (v : FloatVal) : List Char × Int :=
  if v.mant = 0 then ([], 0)
  else
    let t : Int := v.exp - 2
    let up := 2 ^ t.toNat
    let den := 2 ^ (-t).toNat
    let X := 4 * v.mant * up
    let H := (4 * v.mant + 2) * up
    let L := (if v.mant = 2 ^ 52 ∧ -1074 < v.exp then 4 * v.mant - 1 else 4 * v.mant - 2) * up
    let dexp := floorLog10Ratio X den
    let (c, k) := shortestAux X L H den (v.mant % 2 == 0) dexp 17 1
    let ds := natDigits 40 c []
    (trimZeros ds, k + (ds.length : Int))

/-- The `%e` layout of `strconv`: `d.ddde±xx` with `prec` digits after the point. -/
def fmtE (d : List Char) (dp : Int) (prec : Nat) : List Char :=
  let first := match d with
    | [] => '0'
    | ch :: _ => ch
  let more :=
    if 0 < prec then
      let m := min d.length (prec + 1)
      '.' :: ((d.take m).drop 1 ++ List.replicate (prec + 1 - max m 1) '0')
    else []
  let exp : Int := if d.isEmpty then 0 else dp - 1
  let sign := if exp < 0 then '-' else '+'
  let e := exp.natAbs
  let edigits :=
    if e < 10 then ['0', Char.ofNat (48 + e)]
    else if e < 100 then [Char.ofNat (48 + e / 10), Char.ofNat (48 + e % 10)]
    else [Char.ofNat (48 + e / 100), Char.ofNat (48 + e / 10 % 10), Char.ofNat (48 + e % 10)]
  first :: more ++ 'e' :: sign :: edigits

/-- The `%f` layout of `strconv`: integer part padded with zeros, then `prec`
digits after the point. -/
def fmtF (d : List Char) (dp : Int) (prec : Nat) : List Char :=
  let ip :=
    if 0 < dp then
      let m := min d.length dp.toNat
      d.take m ++ List.replicate (dp.toNat - m) '0'
    else ['0']
  let fp :=
    if 0 < prec then
      '.' :: (List.range prec).map (fun i =>
        let j : Int := dp + (i : Int)
        if 0 ≤ j ∧ j < (d.length : Int) then d.getD j.toNat '0' else '0')
    else []
  ip ++ fp

/-- Go's `fmt.Sprintf("%g", v)` for a finite non-negative float64: shortest
round-trip digits, in `%e` layout when the decimal exponent is below `-4` or
at least `6`, in `%f` layout otherwise. -/
def fmtG (v : FloatVal) : List Char :=
  let (d, dp) := shortestDigits v
  let exp := dp - 1
  if exp < -4 ∨ 6 ≤ exp then fmtE d dp (d.length - 1)
  else fmtF d dp ((d.length : Int) - dp).toNat

/-! ## The program (`src/src/app.go`) -/

/-- Go's `formatValue`. -/
def formatValue (key : String) (meta : String) (value : String) : String :=
  let result := key
  let result := if meta ≠ "" then result ++ ("\x7b" ++ meta ++ "\x7d") else result
  result ++ " " ++ value ++ "\n"

/-- Go's `formatVersion`. -/
def formatVersion (key : String) (meta : String) (value : String) : String :=
  let version :=
    match findSubmatch versionRegex value.data with
    | some m => String.mk (capture m 1)
    | none => "0"
  formatValue key meta version

/-- The multiplier selected by the `switch power` of `filterUnit`. -/
def powerMultiplier (power : List Char) : Nat :=
  if power = ['K'] then 1000
  else if power = ['M'] then 1000 * 1000
  else if power = ['G'] then 1000 * 1000 * 1000
  else if power = ['T'] then 1000 * 1000 * 1000 * 1000
  else if power = ['K', 'i'] then 1024
  else if power = ['M', 'i'] then 1024 * 1024
  else if power = ['G', 'i'] then 1024 * 1024 * 1024
  else if power = ['T', 'i'] then 1024 * 1024 * 1024 * 1024
  else 1

/-- Go's `filterUnit`. -/
def filterUnit (s : String) : String :=
  if s = "N/A" then "0"
  else
    match findSubmatch unitRegex s.data with
    | none => "0"
    | some m =>
      let power := capture m 2
      match parseFloat32 (capture m 1) with
      | some value => String.mk (fmtG (mulFloat64 value (powerMultiplier power)))
      | none => "0"

/-- Go's `filterNumber`. -/
def filterNumber (value : String) : String :=
  if value = "N/A" then "0"
  else String.mk (replaceAll nonNumRegex [] value.data)

/-! ### The decoded document (`NvidiaSmiLog`)

Every field is a Go `string`; its zero value is the empty string. -/

structure DriverModel where
  CurrentDM : String := ""
  PendingDM : String := ""

structure InfoRomVersion where
  ImgVersion : String := ""
  OemObject : String := ""
  EccObject : String := ""
  PwrObject : String := ""

structure GPUOperationMode where
  Current : String := ""
  Pending : String := ""

structure GPUVirtualizationMode where
  VirtualizationMode : String := ""
  HostVGPUMode : String := ""

structure IBMNPU where
  RelaxedOrderingMode : String := ""

structure PCIeGen where
  Max : String := ""
  Current : String := ""

structure LinkWidth where
  Max : String := ""
  Current : String := ""

structure GPULinkInfo where
  PCIeGen : PCIeGen := {}
  LinkWidth : LinkWidth := {}

structure BridgeChip where
  «Type» : String := ""
  Fw : String := ""

structure PCI where
  Bus : String := ""
  Device : String := ""
  Domain : String := ""
  DeviceId : String := ""
  BusId : String := ""
  SubSystemId : String := ""
  GPULinkInfo : GPULinkInfo := {}
  BridgeChip : BridgeChip := {}
  ReplayCounter : String := ""
  ReplayRolloverCounter : String := ""
  TxUtil : String := ""
  RxUtil : String := ""

structure FbMemoryUsage where
  Total : String := ""
  Used : String := ""
  Free : String := ""

structure Bar1MemoryUsage where
  Total : String := ""
  Used : String := ""
  Free : String := ""

structure Utilization where
  GPUUtil : String := ""
  MemoryUtil : String := ""
  EncoderUtil : String := ""
  DecoderUtil : String := ""

structure EncoderStats where
  SessionCount : String := ""
  AverageFPS : String := ""
  AverageLatency : String := ""

structure FBCStats where
  SessionCount : String := ""
  AverageFPS : String := ""
  AverageLatency : String := ""

structure Temperature where
  GPUTemp : String := ""
  GPUTempMaxThreshold : String := ""
  GPUTempSlowThreshold : String := ""
  GPUTempMaxGpuThreshold : String := ""
  MemoryTemp : String := ""
  GPUTempMaxMemThreshold : String := ""

structure PowerReadings where
  PowerState : String := ""
  PowerDraw : String := ""
  PowerLimit : String := ""
  DefaultPowerLimit : String := ""
  EnforcedPowerLimit : String := ""
  MinPowerLimit : String := ""
  MaxPowerLimit : String := ""

structure Clocks where
  GraphicsClock : String := ""
  SmClock : String := ""
  MemClock : String := ""
  VideoClock : String := ""

structure MaxClocks where
  GraphicsClock : String := ""
  SmClock : String := ""
  MemClock : String := ""
  VideoClock : String := ""

structure ClockPolicy where
  AutoBoost : String := ""
  AutoBoostDefault : String := ""

structure ProcessInfo where
  Pid : String := ""
  «Type» : String := ""
  ProcessName : String := ""
  UsedMemory : String := ""

structure Processes where
  ProcessInfo : List ProcessInfo := []

structure GPU where
  Id : String := ""
  ProductName : String := ""
  ProductBrand : String := ""
  DisplayMode : String := ""
  DisplayActive : String := ""
  PersistenceMode : String := ""
  AccountingMode : String := ""
  AccountingModeBufferSize : String := ""
  DriverModel : DriverModel := {}
  Serial : String := ""
  UUID : String := ""
  MinorNumber : String := ""
  VbiosVersion : String := ""
  MultiGPUBoard : String := ""
  BoardId : String := ""
  GPUPartNumber : String := ""
  InfoRomVersion : InfoRomVersion := {}
  GPUOperationMode : GPUOperationMode := {}
  GPUVirtualizationMode : GPUVirtualizationMode := {}
  IBMNPU : IBMNPU := {}
  PCI : PCI := {}
  FanSpeed : String := ""
  PerformanceState : String := ""
  FbMemoryUsage : FbMemoryUsage := {}
  Bar1MemoryUsage : Bar1MemoryUsage := {}
  ComputeMode : String := ""
  Utilization : Utilization := {}
  EncoderStats : EncoderStats := {}
  FBCStats : FBCStats := {}
  Temperature : Temperature := {}
  PowerReadings : PowerReadings := {}
  Clocks : Clocks := {}
  MaxClocks : MaxClocks := {}
  ClockPolicy : ClockPolicy := {}
  Processes : Processes := {}

structure NvidiaSmiLog where
  DriverVersion : String := ""
  CudaVersion : String := ""
  AttachedGPUs : String := ""
  GPU : List GPU := []

/-! ### The emitter -/

/-- The label set `id_info` built once per device. -/
def idInfo (GPU : GPU) : String :=
  "id=\"" ++ GPU.Id ++ "\",uuid=\"" ++ GPU.UUID ++ "\",name=\"" ++ GPU.ProductName ++ "\""

/-- The strings written for one process of a device (inner loop body of
`generateMetricsResponse`). -/
def processLine (id_info : String) (Process : ProcessInfo) : String :=
  formatValue "nvidia_smi_process_used_memory_bytes"
    (id_info ++ ",process_pid=\"" ++ Process.Pid ++ "\",process_type=\"" ++ Process.«Type» ++ "\"")
    (filterUnit Process.UsedMemory)

/-- The strings written before the process loop for one device, in source
order (outer loop body of `generateMetricsResponse`). -/
def deviceFixedLines (xmlData : NvidiaSmiLog) (GPU : GPU) : List String :=
  let id_info := idInfo GPU
  [ formatVersion "nvidia_smi_driver_version" id_info xmlData.DriverVersion,
    formatVersion "nvidia_smi_cuda_version" id_info xmlData.CudaVersion,
    formatValue "nvidia_smi_attached_gpus" id_info xmlData.AttachedGPUs,
    formatValue "nvidia_smi_pci_pcie_gen_max" id_info GPU.PCI.GPULinkInfo.PCIeGen.Max,
    formatValue "nvidia_smi_pci_pcie_gen_current" id_info GPU.PCI.GPULinkInfo.PCIeGen.Current,
    formatValue "nvidia_smi_pci_link_width_max_multiplicator" id_info (filterNumber GPU.PCI.GPULinkInfo.LinkWidth.Max),
    formatValue "nvidia_smi_pci_link_width_current_multiplicator" id_info (filterNumber GPU.PCI.GPULinkInfo.LinkWidth.Current),
    formatValue "nvidia_smi_pci_replay_counter" id_info GPU.PCI.ReplayRolloverCounter,
    formatValue "nvidia_smi_pci_replay_rollover_counter" id_info GPU.PCI.ReplayRolloverCounter,
    formatValue "nvidia_smi_pci_tx_util_bytes_per_second" id_info (filterUnit GPU.PCI.TxUtil),
    formatValue "nvidia_smi_pci_rx_util_bytes_per_second" id_info (filterUnit GPU.PCI.RxUtil),
    formatValue "nvidia_smi_fan_speed_percent" id_info (filterUnit GPU.FanSpeed),
    formatValue "nvidia_smi_performance_state_int" id_info (filterNumber GPU.PerformanceState),
    formatValue "nvidia_smi_fb_memory_usage_total_bytes" id_info (filterUnit GPU.FbMemoryUsage.Total),
    formatValue "nvidia_smi_fb_memory_usage_used_bytes" id_info (filterUnit GPU.FbMemoryUsage.Used),
    formatValue "nvidia_smi_fb_memory_usage_free_bytes" id_info (filterUnit GPU.FbMemoryUsage.Free),
    formatValue "nvidia_smi_bar1_memory_usage_total_bytes" id_info (filterUnit GPU.Bar1MemoryUsage.Total),
    formatValue "nvidia_smi_bar1_memory_usage_used_bytes" id_info (filterUnit GPU.Bar1MemoryUsage.Used),
    formatValue "nvidia_smi_bar1_memory_usage_free_bytes" id_info (filterUnit GPU.Bar1MemoryUsage.Free),
    formatValue "nvidia_smi_utilization_gpu_percent" id_info (filterUnit GPU.Utilization.GPUUtil),
    formatValue "nvidia_smi_utilization_memory_percent" id_info (filterUnit GPU.Utilization.MemoryUtil),
    formatValue "nvidia_smi_utilization_encoder_percent" id_info (filterUnit GPU.Utilization.EncoderUtil),
    formatValue "nvidia_smi_utilization_decoder_percent" id_info (filterUnit GPU.Utilization.DecoderUtil),
    formatValue "nvidia_smi_encoder_session_count" id_info GPU.EncoderStats.SessionCount,
    formatValue "nvidia_smi_encoder_average_fps" id_info GPU.EncoderStats.AverageFPS,
    formatValue "nvidia_smi_encoder_average_latency" id_info GPU.EncoderStats.AverageLatency,
    formatValue "nvidia_smi_fbc_session_count" id_info GPU.FBCStats.SessionCount,
    formatValue "nvidia_smi_fbc_average_fps" id_info GPU.FBCStats.AverageFPS,
    formatValue "nvidia_smi_fbc_average_latency" id_info GPU.FBCStats.AverageLatency,
    formatValue "nvidia_smi_gpu_temp_celsius" id_info (filterUnit GPU.Temperature.GPUTemp),
    formatValue "nvidia_smi_gpu_temp_max_threshold_celsius" id_info (filterUnit GPU.Temperature.GPUTempMaxThreshold),
    formatValue "nvidia_smi_gpu_temp_slow_threshold_celsius" id_info (filterUnit GPU.Temperature.GPUTempSlowThreshold),
    formatValue "nvidia_smi_gpu_temp_max_gpu_threshold_celsius" id_info (filterUnit GPU.Temperature.GPUTempMaxGpuThreshold),
    formatValue "nvidia_smi_memory_temp_celsius" id_info (filterUnit GPU.Temperature.MemoryTemp),
    formatValue "nvidia_smi_gpu_temp_max_mem_threshold_celsius" id_info (filterUnit GPU.Temperature.GPUTempMaxMemThreshold),
    formatValue "nvidia_smi_power_state_int" id_info (filterNumber GPU.PowerReadings.PowerState),
    formatValue "nvidia_smi_power_draw_watts" id_info (filterUnit GPU.PowerReadings.PowerDraw),
    formatValue "nvidia_smi_power_limit_watts" id_info (filterUnit GPU.PowerReadings.PowerLimit),
    formatValue "nvidia_smi_default_power_limit_watts" id_info (filterUnit GPU.PowerReadings.DefaultPowerLimit),
    formatValue "nvidia_smi_enforced_power_limit_watts" id_info (filterUnit GPU.PowerReadings.EnforcedPowerLimit),
    formatValue "nvidia_smi_min_power_limit_watts" id_info (filterUnit GPU.PowerReadings.MinPowerLimit),
    formatValue "nvidia_smi_max_power_limit_watts" id_info (filterUnit GPU.PowerReadings.MaxPowerLimit),
    formatValue "nvidia_smi_clock_graphics_hertz" id_info (filterUnit GPU.Clocks.GraphicsClock),
    formatValue "nvidia_smi_clock_graphics_max_hertz" id_info (filterUnit GPU.MaxClocks.GraphicsClock),
    formatValue "nvidia_smi_clock_sm_hertz" id_info (filterUnit GPU.Clocks.SmClock),
    formatValue "nvidia_smi_clock_sm_max_hertz" id_info (filterUnit GPU.MaxClocks.SmClock),
    formatValue "nvidia_smi_clock_mem_hertz" id_info (filterUnit GPU.Clocks.MemClock),
    formatValue "nvidia_smi_clock_mem_max_hertz" id_info (filterUnit GPU.MaxClocks.MemClock),
    formatValue "nvidia_smi_clock_video_hertz" id_info (filterUnit GPU.Clocks.VideoClock),
    formatValue "nvidia_smi_clock_video_max_hertz" id_info (filterUnit GPU.MaxClocks.VideoClock),
    formatValue "nvidia_smi_clock_policy_auto_boost" id_info (filterUnit GPU.ClockPolicy.AutoBoost),
    formatValue "nvidia_smi_clock_policy_auto_boost_default" id_info (filterUnit GPU.ClockPolicy.AutoBoostDefault) ]

/-- One iteration of the device loop: the fixed lines, then one line per process. -/
def deviceLines (xmlData : NvidiaSmiLog) (GPU : GPU) : List String :=
  deviceFixedLines xmlData GPU ++ GPU.Processes.ProcessInfo.map (processLine (idInfo GPU))

/-- Go's `generateMetricsResponse`: the strings passed to `io.WriteString`, in
order. The response body is their concatenation. -/
def generateMetricsResponse (xmlData : NvidiaSmiLog) : List String :=
  (xmlData.GPU.map (deviceLines xmlData)).flatten

/-! ## The specification's vocabulary -/

/-- The multiplier table of the specification: powers of 1000 for `K`, `M`,
`G`, `T`, powers of 1024 for `Ki`, `Mi`, `Gi`, `Ti`, and 1 without a prefix. -/
def specMultiplier (p : String) : Nat :=
  if p = "K" then 10 ^ 3
  else if p = "M" then 10 ^ 6
  else if p = "G" then 10 ^ 9
  else if p = "T" then 10 ^ 12
  else if p = "Ki" then 2 ^ 10
  else if p = "Mi" then 2 ^ 20
  else if p = "Gi" then 2 ^ 30
  else if p = "Ti" then 2 ^ 40
  else 1

/-- The `%g` numeral of the number `num / den`: the rendering of the float64
nearest to it. -/
def numeral (num den : Nat) : String :=
  String.mk (fmtG (roundFloat 53 (-1022) num den))

/-- The specification's "begins with a dotted numeric prefix": one or more
digits, a point, one or more digits at the start of the string. -/
def beginsWithDottedPrefix (s : String) : Bool :=
  match s.data.dropWhile Char.isDigit with
  | '.' :: d :: _ => !(s.data.takeWhile Char.isDigit).isEmpty && d.isDigit
  | _ => false

/-- The specification's shape `<number><space>...`: a non-empty run of digits
and points at the start of the string, then a space. -/
def startsWithNumberSpace (s : String) : Bool :=
  match s.data.dropWhile isNumChar with
  | ' ' :: _ => !(s.data.takeWhile isNumChar).isEmpty
  | _ => false

/-! ## Sample documents -/

/-- A device with the two fields read by the repository's test, and one process. -/
def sampleGPU : GPU :=
  { Id := "00000000:01:00.0",
    ProductName := "GeForce GTX 1070",
    UUID := "GPU-0",
    Utilization := { MemoryUtil := "1 %" },
    Clocks := { GraphicsClock := "961 MHz" },
    Processes := { ProcessInfo := [{ Pid := "1234", «Type» := "G", UsedMemory := "1005 MiB" }] } }

/-- A document with the driver version of the repository's test and one device. -/
def sampleLog : NvidiaSmiLog :=
  { DriverVersion := "440.95.01", CudaVersion := "10.2", AttachedGPUs := "1", GPU := [sampleGPU] }

/-- A document with the same top-level fields and no device. -/
def emptyLog : NvidiaSmiLog :=
  { DriverVersion := "440.95.01", CudaVersion := "10.2", AttachedGPUs := "0", GPU := [] }

/-! ## The fixed lines as a table -/

/-- How `generateMetricsResponse` turns a field into the value of a line:
through `formatVersion`, as it is, through `filterNumber` or through
`filterUnit`. -/
inductive Conversion where
  | version
  | verbatim
  | number
  | unit
deriving DecidableEq, Repr

/-- The value `formatVersion` hands to `formatValue`. -/
def versionValue (value : String) : String :=
  match findSubmatch versionRegex value.data with
  | some m => String.mk (capture m 1)
  | none => "0"

/-- The value written for a field under a conversion. -/
def Conversion.apply : Conversion → String → String
  | .version, value => versionValue value
  | .verbatim, value => value
  | .number, value => filterNumber value
  | .unit, value => filterUnit value

/-- One fixed line: its metric name, its conversion and the field it reads. -/
structure LineSpec where
  name : String
  conv : Conversion
  field : NvidiaSmiLog → GPU → String

/-- The fixed lines of `generateMetricsResponse` (source lines 247 to 298), one
entry per `io.WriteString`, in source order. -/
def fixedLineTable : List LineSpec :=
  [ ⟨"nvidia_smi_driver_version", .version, fun xmlData _ => xmlData.DriverVersion⟩,
    ⟨"nvidia_smi_cuda_version", .version, fun xmlData _ => xmlData.CudaVersion⟩,
    ⟨"nvidia_smi_attached_gpus", .verbatim, fun xmlData _ => xmlData.AttachedGPUs⟩,
    ⟨"nvidia_smi_pci_pcie_gen_max", .verbatim, fun _ GPU => GPU.PCI.GPULinkInfo.PCIeGen.Max⟩,
    ⟨"nvidia_smi_pci_pcie_gen_current", .verbatim, fun _ GPU => GPU.PCI.GPULinkInfo.PCIeGen.Current⟩,
    ⟨"nvidia_smi_pci_link_width_max_multiplicator", .number, fun _ GPU => GPU.PCI.GPULinkInfo.LinkWidth.Max⟩,
    ⟨"nvidia_smi_pci_link_width_current_multiplicator", .number, fun _ GPU => GPU.PCI.GPULinkInfo.LinkWidth.Current⟩,
    ⟨"nvidia_smi_pci_replay_counter", .verbatim, fun _ GPU => GPU.PCI.ReplayRolloverCounter⟩,
    ⟨"nvidia_smi_pci_replay_rollover_counter", .verbatim, fun _ GPU => GPU.PCI.ReplayRolloverCounter⟩,
    ⟨"nvidia_smi_pci_tx_util_bytes_per_second", .unit, fun _ GPU => GPU.PCI.TxUtil⟩,
    ⟨"nvidia_smi_pci_rx_util_bytes_per_second", .unit, fun _ GPU => GPU.PCI.RxUtil⟩,
    ⟨"nvidia_smi_fan_speed_percent", .unit, fun _ GPU => GPU.FanSpeed⟩,
    ⟨"nvidia_smi_performance_state_int", .number, fun _ GPU => GPU.PerformanceState⟩,
    ⟨"nvidia_smi_fb_memory_usage_total_bytes", .unit, fun _ GPU => GPU.FbMemoryUsage.Total⟩,
    ⟨"nvidia_smi_fb_memory_usage_used_bytes", .unit, fun _ GPU => GPU.FbMemoryUsage.Used⟩,
    ⟨"nvidia_smi_fb_memory_usage_free_bytes", .unit, fun _ GPU => GPU.FbMemoryUsage.Free⟩,
    ⟨"nvidia_smi_bar1_memory_usage_total_bytes", .unit, fun _ GPU => GPU.Bar1MemoryUsage.Total⟩,
    ⟨"nvidia_smi_bar1_memory_usage_used_bytes", .unit, fun _ GPU => GPU.Bar1MemoryUsage.Used⟩,
    ⟨"nvidia_smi_bar1_memory_usage_free_bytes", .unit, fun _ GPU => GPU.Bar1MemoryUsage.Free⟩,
    ⟨"nvidia_smi_utilization_gpu_percent", .unit, fun _ GPU => GPU.Utilization.GPUUtil⟩,
    ⟨"nvidia_smi_utilization_memory_percent", .unit, fun _ GPU => GPU.Utilization.MemoryUtil⟩,
    ⟨"nvidia_smi_utilization_encoder_percent", .unit, fun _ GPU => GPU.Utilization.EncoderUtil⟩,
    ⟨"nvidia_smi_utilization_decoder_percent", .unit, fun _ GPU => GPU.Utilization.DecoderUtil⟩,
    ⟨"nvidia_smi_encoder_session_count", .verbatim, fun _ GPU => GPU.EncoderStats.SessionCount⟩,
    ⟨"nvidia_smi_encoder_average_fps", .verbatim, fun _ GPU => GPU.EncoderStats.AverageFPS⟩,
    ⟨"nvidia_smi_encoder_average_latency", .verbatim, fun _ GPU => GPU.EncoderStats.AverageLatency⟩,
    ⟨"nvidia_smi_fbc_session_count", .verbatim, fun _ GPU => GPU.FBCStats.SessionCount⟩,
    ⟨"nvidia_smi_fbc_average_fps", .verbatim, fun _ GPU => GPU.FBCStats.AverageFPS⟩,
    ⟨"nvidia_smi_fbc_average_latency", .verbatim, fun _ GPU => GPU.FBCStats.AverageLatency⟩,
    ⟨"nvidia_smi_gpu_temp_celsius", .unit, fun _ GPU => GPU.Temperature.GPUTemp⟩,
    ⟨"nvidia_smi_gpu_temp_max_threshold_celsius", .unit, fun _ GPU => GPU.Temperature.GPUTempMaxThreshold⟩,
    ⟨"nvidia_smi_gpu_temp_slow_threshold_celsius", .unit, fun _ GPU => GPU.Temperature.GPUTempSlowThreshold⟩,
    ⟨"nvidia_smi_gpu_temp_max_gpu_threshold_celsius", .unit, fun _ GPU => GPU.Temperature.GPUTempMaxGpuThreshold⟩,
    ⟨"nvidia_smi_memory_temp_celsius", .unit, fun _ GPU => GPU.Temperature.MemoryTemp⟩,
    ⟨"nvidia_smi_gpu_temp_max_mem_threshold_celsius", .unit, fun _ GPU => GPU.Temperature.GPUTempMaxMemThreshold⟩,
    ⟨"nvidia_smi_power_state_int", .number, fun _ GPU => GPU.PowerReadings.PowerState⟩,
    ⟨"nvidia_smi_power_draw_watts", .unit, fun _ GPU => GPU.PowerReadings.PowerDraw⟩,
    ⟨"nvidia_smi_power_limit_watts", .unit, fun _ GPU => GPU.PowerReadings.PowerLimit⟩,
    ⟨"nvidia_smi_default_power_limit_watts", .unit, fun _ GPU => GPU.PowerReadings.DefaultPowerLimit⟩,
    ⟨"nvidia_smi_enforced_power_limit_watts", .unit, fun _ GPU => GPU.PowerReadings.EnforcedPowerLimit⟩,
    ⟨"nvidia_smi_min_power_limit_watts", .unit, fun _ GPU => GPU.PowerReadings.MinPowerLimit⟩,
    ⟨"nvidia_smi_max_power_limit_watts", .unit, fun _ GPU => GPU.PowerReadings.MaxPowerLimit⟩,
    ⟨"nvidia_smi_clock_graphics_hertz", .unit, fun _ GPU => GPU.Clocks.GraphicsClock⟩,
    ⟨"nvidia_smi_clock_graphics_max_hertz", .unit, fun _ GPU => GPU.MaxClocks.GraphicsClock⟩,
    ⟨"nvidia_smi_clock_sm_hertz", .unit, fun _ GPU => GPU.Clocks.SmClock⟩,
    ⟨"nvidia_smi_clock_sm_max_hertz", .unit, fun _ GPU => GPU.MaxClocks.SmClock⟩,
    ⟨"nvidia_smi_clock_mem_hertz", .unit, fun _ GPU => GPU.Clocks.MemClock⟩,
    ⟨"nvidia_smi_clock_mem_max_hertz", .unit, fun _ GPU => GPU.MaxClocks.MemClock⟩,
    ⟨"nvidia_smi_clock_video_hertz", .unit, fun _ GPU => GPU.Clocks.VideoClock⟩,
    ⟨"nvidia_smi_clock_video_max_hertz", .unit, fun _ GPU => GPU.MaxClocks.VideoClock⟩,
    ⟨"nvidia_smi_clock_policy_auto_boost", .unit, fun _ GPU => GPU.ClockPolicy.AutoBoost⟩,
    ⟨"nvidia_smi_clock_policy_auto_boost_default", .unit, fun _ GPU => GPU.ClockPolicy.AutoBoostDefault⟩ ]

/-- The line written for an entry of the table. -/
def LineSpec.render (l : LineSpec) (xmlData : NvidiaSmiLog) (GPU : GPU) : String :=
  formatValue l.name (idInfo GPU) (l.conv.apply (l.field xmlData GPU))

/-- The metric names of the fixed lines, in order. -/
def fixedMetricNames : List String := fixedLineTable.map (fun l => l.name)

/-! ## The legacy program (`src/app.go`) -/

namespace Legacy

/-- Go's `filterNumber` of the legacy program (no sentinel test). -/
def filterNumber (value : String) : String :=
  String.mk (replaceAll nonNumRegex [] value.data)

/-- Go's `formatValue` of the legacy program: the value is filtered again. -/
def formatValue (key : String) (meta : String) (value : String) : String :=
  let result := key
  let result := if meta ≠ "" then result ++ ("\x7b" ++ meta ++ "\x7d") else result
  let result := result ++ " "
  let result := result ++ filterNumber value
  let result := result ++ "\n"
  result

end Legacy

/-! ## More of the specification's vocabulary -/

/-- The specification's "canonical numeric string": exactly "0", or digits
with at most one decimal point and at least one digit. -/
def isCanonicalNumeric (s : String) : Bool :=
  s == "0" ||
    (s.data.all isNumChar && s.data.any Char.isDigit && decide (s.data.count '.' ≤ 1))

/-- The multiplier read off the first one or two characters of the text after
the space: a first character among `K M G T` selects a power of 1000, or a
power of 1024 when the second character is `i`; anything else selects 1. -/
def leadingMultiplier (u : List Char) : Nat :=
  match u with
  | [] => 1
  | c :: rest =>
    let binary : Bool :=
      match rest with
      | d :: _ => d == 'i'
      | [] => false
    if c = 'K' then (if binary then 2 ^ 10 else 10 ^ 3)
    else if c = 'M' then (if binary then 2 ^ 20 else 10 ^ 6)
    else if c = 'G' then (if binary then 2 ^ 30 else 10 ^ 9)
    else if c = 'T' then (if binary then 2 ^ 40 else 10 ^ 12)
    else 1

/-! ## More sample documents -/

/-- A document whose device count carries stray characters. -/
def strayLog : NvidiaSmiLog :=
  { DriverVersion := "440.95.01", CudaVersion := "10.2", AttachedGPUs := "2 GPUs",
    GPU := [sampleGPU] }

/-- A device whose two replay counters differ. -/
def replayGPU : GPU :=
  { Id := "00000000:01:00.0", ProductName := "GeForce GTX 1070", UUID := "GPU-0",
    PCI := { ReplayCounter := "7", ReplayRolloverCounter := "0" } }

/-- A document with the device whose replay counters differ. -/
def replayLog : NvidiaSmiLog :=
  { DriverVersion := "440.95.01", CudaVersion := "10.2", AttachedGPUs := "1", GPU := [replayGPU] }

/-- A device all of whose telemetry fields are the sentinel. -/
def naGPU : GPU :=
  { Id := "00000000:01:00.0", ProductName := "GeForce GTX 1070", UUID := "GPU-0",
    PCI :=
      { GPULinkInfo :=
          { PCIeGen := { Max := "N/A", Current := "N/A" },
            LinkWidth := { Max := "N/A", Current := "N/A" } },
        ReplayCounter := "N/A", ReplayRolloverCounter := "N/A",
        TxUtil := "N/A", RxUtil := "N/A" },
    FanSpeed := "N/A",
    PerformanceState := "N/A",
    FbMemoryUsage := { Total := "N/A", Used := "N/A", Free := "N/A" },
    Bar1MemoryUsage := { Total := "N/A", Used := "N/A", Free := "N/A" },
    Utilization :=
      { GPUUtil := "N/A", MemoryUtil := "N/A", EncoderUtil := "N/A", DecoderUtil := "N/A" },
    EncoderStats := { SessionCount := "N/A", AverageFPS := "N/A", AverageLatency := "N/A" },
    FBCStats := { SessionCount := "N/A", AverageFPS := "N/A", AverageLatency := "N/A" },
    Temperature :=
      { GPUTemp := "N/A", GPUTempMaxThreshold := "N/A", GPUTempSlowThreshold := "N/A",
        GPUTempMaxGpuThreshold := "N/A", MemoryTemp := "N/A", GPUTempMaxMemThreshold := "N/A" },
    PowerReadings :=
      { PowerState := "N/A", PowerDraw := "N/A", PowerLimit := "N/A",
        DefaultPowerLimit := "N/A", EnforcedPowerLimit := "N/A", MinPowerLimit := "N/A",
        MaxPowerLimit := "N/A" },
    Clocks :=
      { GraphicsClock := "N/A", SmClock := "N/A", MemClock := "N/A", VideoClock := "N/A" },
    MaxClocks :=
      { GraphicsClock := "N/A", SmClock := "N/A", MemClock := "N/A", VideoClock := "N/A" },
    ClockPolicy := { AutoBoost := "N/A", AutoBoostDefault := "N/A" } }

/-- A document with the device without telemetry. -/
def naLog : NvidiaSmiLog :=
  { DriverVersion := "N/A", CudaVersion := "N/A", AttachedGPUs := "N/A", GPU := [naGPU] }

/-! ## Vocabulary of the rounding proofs -/

/-- The number a float stands for. -/
def FloatVal.toRat (v : FloatVal) : ℚ := (v.mant : ℚ) * (2 : ℚ) ^ v.exp

/-- A positive float64 in normal form: 53 significant bits, or fewer at the
least exponent. -/
def IsFloat64 (v : FloatVal) : Prop :=
  (2 ^ 52 ≤ v.mant ∧ v.mant < 2 ^ 53 ∧ -1074 ≤ v.exp) ∨
    (0 < v.mant ∧ v.mant < 2 ^ 52 ∧ v.exp = -1074)

instance (v : FloatVal) : Decidable (IsFloat64 v) := by
  unfold IsFloat64
  infer_instance

/-- Lower end of the rounding interval of a float64: half-way to its
predecessor, which is twice as near below a power of two. -/
def FloatVal.lowerEnd (v : FloatVal) : ℚ :=
  (if v.mant = 2 ^ 52 ∧ -1074 < v.exp then (v.mant : ℚ) - 1 / 4 else (v.mant : ℚ) - 1 / 2) *
    (2 : ℚ) ^ v.exp

/-- Upper end of the rounding interval of a float64: half-way to its successor. -/
def FloatVal.upperEnd (v : FloatVal) : ℚ := ((v.mant : ℚ) + 1 / 2) * (2 : ℚ) ^ v.exp

/-- The number `q` lies in the rounding interval of `v`; the ends belong to
it when the mantissa is even. -/
def RoundsTo (v : FloatVal) (q : ℚ) : Prop :=
  if v.mant % 2 = 0 then v.lowerEnd ≤ q ∧ q ≤ v.upperEnd
  else v.lowerEnd < q ∧ q < v.upperEnd

instance (v : FloatVal) (q : ℚ) : Decidable (RoundsTo v q) := by
  unfold RoundsTo
  infer_instance

/-- The test of `shortestAux` on the candidate `c * 10 ^ k`: it lies in the
interval `[L / den, H / den]`, ends included when `incl`. -/
def inInterval (L H den : Nat) (incl : Bool) (k : Int) (c : Nat) : Bool :=
  if incl then
    decide (L * 10 ^ (-k).toNat ≤ c * (10 ^ k.toNat * den)) &&
      decide (c * (10 ^ k.toNat * den) ≤ H * 10 ^ (-k).toNat)
  else
    decide (L * 10 ^ (-k).toNat < c * (10 ^ k.toNat * den)) &&
      decide (c * (10 ^ k.toNat * den) < H * 10 ^ (-k).toNat)

/-- The candidate of `shortestAux` at scale `10 ^ k` that is not above
`X / den`. -/
def floorCand (X den : Nat) (k : Int) : Nat := X * 10 ^ (-k).toNat / (10 ^ k.toNat * den)

/-- Numerator of the number written with the digits `d` and the decimal point
at `dp`, that is of `0.d * 10 ^ dp`. -/
def decimalNum (d : List Char) (dp : Int) : Nat :=
  digitsToNat d * 10 ^ (dp - (d.length : Int)).toNat

/-- Denominator of the number written with the digits `d` and the decimal
point at `dp`. -/
def decimalDen (d : List Char) (dp : Int) : Nat :=
  10 ^ (-(dp - (d.length : Int))).toNat

/-- Denominator of the scaled integers of `shortestDigits`. -/
def scaleDen (v : FloatVal) : Nat := 2 ^ (-(v.exp - 2)).toNat

/-- The integer `X` of `shortestDigits`: the float, in quarters of its unit. -/
def scaleMid (v : FloatVal) : Nat := 4 * v.mant * 2 ^ (v.exp - 2).toNat

/-- The integer `H` of `shortestDigits`: the upper end of the rounding interval. -/
def scaleHigh (v : FloatVal) : Nat := (4 * v.mant + 2) * 2 ^ (v.exp - 2).toNat

/-- The integer `L` of `shortestDigits`: the lower end of the rounding interval. -/
def scaleLow (v : FloatVal) : Nat :=
  (if v.mant = 2 ^ 52 ∧ -1074 < v.exp then 4 * v.mant - 1 else 4 * v.mant - 2) *
    2 ^ (v.exp - 2).toNat

/-- The number a decimal or scientific numeral denotes: digits with at most
one point, then possibly `e`, a sign and the digits of a decimal exponent. -/
def numeralValue (s : List Char) : Option ℚ :=
  match parseDecimal (s.takeWhile (fun c => c != 'e')) with
  | none => none
  | some (D, f) =>
    match s.dropWhile (fun c => c != 'e') with
    | [] => some ((D : ℚ) * (10 : ℚ) ^ (-(f : Int)))
    | _ :: '+' :: ds =>
      if ds.isEmpty || !ds.all isDigit then none
      else some ((D : ℚ) * (10 : ℚ) ^ ((digitsToNat ds : Int) - (f : Int)))
    | _ :: '-' :: ds =>
      if ds.isEmpty || !ds.all isDigit then none
      else some ((D : ℚ) * (10 : ℚ) ^ (-(digitsToNat ds : Int) - (f : Int)))
    | _ => none

/-- The significant figures of a decimal or scientific numeral: the digits of
its mantissa without the zeros in front; the zeros at the end of a mantissa
that has no point only give the magnitude and are left out as well. -/
def significantFigures (s : List Char) : List Char :=
  let m := s.takeWhile (fun c => c != 'e')
  let digits := (m.filter (fun c => c != '.')).dropWhile (fun c => c == '0')
  if m.contains '.' then digits else trimZeros digits

end NvidiaSmi

namespace NvidiaSmi

/-! ## The matcher on character classes -/

theorem matchK_cls_cons {R : Type} (p : Char → Bool) (x : Char) (xs : List Char) (c : Caps)
    (k : List Char → Caps → Option R) :
    matchK (.cls p) (x :: xs) c k = if p x then k xs c else none := by
  simp [matchK]

theorem matchK_cls_nil {R : Type} (p : Char → Bool) (c : Caps)
    (k : List Char → Caps → Option R) :
    matchK (.cls p) [] c k = none := by
  simp [matchK]

theorem matchK_seq {R : Type} (r₁ r₂ : Regex) (s : List Char) (c : Caps)
    (k : List Char → Caps → Option R) :
    matchK (.seq r₁ r₂) s c k = matchK r₁ s c (fun s' c' => matchK r₂ s' c' k) := by
  rw [matchK]

theorem matchK_opt {R : Type} (r : Regex) (s : List Char) (c : Caps)
    (k : List Char → Caps → Option R) :
    matchK (.opt r) s c k =
      (match matchK r s c k with
       | some a => some a
       | none => k s c) := by
  rw [matchK]

theorem matchK_star {R : Type} (r : Regex) (s : List Char) (c : Caps)
    (k : List Char → Caps → Option R) :
    matchK (.star r) s c k = starK (matchK r) s.length s c k := by
  rw [matchK]

theorem matchK_plus {R : Type} (r : Regex) (s : List Char) (c : Caps)
    (k : List Char → Caps → Option R) :
    matchK (.plus r) s c k =
      matchK r s c (fun s' c' => starK (matchK r) s'.length s' c' k) := by
  rw [matchK]

theorem matchK_group {R : Type} (i : Nat) (r : Regex) (s : List Char) (c : Caps)
    (k : List Char → Caps → Option R) :
    matchK (.group i r) s c k =
      matchK r s c (fun s' c' => k s' ((i, s.take (s.length - s'.length)) :: c')) := by
  rw [matchK]

/-- A greedy class iteration over a maximal run `ds` hands the rest to the
continuation when the continuation accepts it. -/
theorem starK_cls_run {R : Type} (p : Char → Bool) (P : R → Prop)
    (k : List Char → Caps → Option R) (c : Caps) (rest : List Char)
    (hrest : ∀ x xs, rest = x :: xs → p x = false)
    (hk : ∃ a, k rest c = some a ∧ P a) :
    ∀ (ds : List Char) (n : Nat), (∀ x ∈ ds, p x = true) → ds.length ≤ n →
      ∃ a, starK (matchK (.cls p)) n (ds ++ rest) c k = some a ∧ P a := by
  intro ds
  induction ds with
  | nil =>
    intro n _ _
    cases n with
    | zero => simpa [starK] using hk
    | succ n =>
      cases rest with
      | nil => simpa [starK, matchK_cls_cons, matchK_cls_nil] using hk
      | cons x xs =>
        have hx := hrest x xs rfl
        simpa [starK, matchK_cls_cons, matchK_cls_nil, hx] using hk
  | cons d ds ih =>
    intro n hall hlen
    cases n with
    | zero => simp at hlen
    | succ n =>
      have hd : p d = true := hall d (by simp)
      obtain ⟨a, ha, hP⟩ := ih n (fun x hx => hall x (by simp [hx])) (by simpa using hlen)
      refine ⟨a, ?_, hP⟩
      simp [starK, matchK_cls_cons, matchK_cls_nil, hd, ha]

theorem matchK_plus_cls_run {R : Type} (p : Char → Bool) (P : R → Prop)
    (k : List Char → Caps → Option R) (c : Caps) (rest : List Char)
    (hrest : ∀ x xs, rest = x :: xs → p x = false)
    (hk : ∃ a, k rest c = some a ∧ P a)
    (ds : List Char) (hne : ds ≠ []) (hall : ∀ x ∈ ds, p x = true) :
    ∃ a, matchK (.plus (.cls p)) (ds ++ rest) c k = some a ∧ P a := by
  cases ds with
  | nil => exact absurd rfl hne
  | cons d ds =>
    have hd : p d = true := hall d (by simp)
    obtain ⟨a, ha, hP⟩ := starK_cls_run p P k c rest hrest hk ds (ds ++ rest).length
      (fun x hx => hall x (by simp [hx])) (by simp)
    refine ⟨a, ?_, hP⟩
    simpa [matchK_plus, matchK_cls_cons, hd] using ha

/-- A class iteration in front of a continuation that accepts any rest succeeds. -/
theorem starK_cls_always {R : Type} (p : Char → Bool) (P : R → Prop)
    (k : List Char → Caps → Option R) (c : Caps)
    (hk : ∀ s, ∃ a, k s c = some a ∧ P a) :
    ∀ (n : Nat) (s : List Char), ∃ a, starK (matchK (.cls p)) n s c k = some a ∧ P a := by
  intro n
  induction n with
  | zero => intro s; simpa [starK] using hk s
  | succ n ih =>
    intro s
    cases s with
    | nil => simpa [starK, matchK_cls_cons, matchK_cls_nil] using hk []
    | cons x xs =>
      by_cases hx : p x = true
      · obtain ⟨a, ha, hP⟩ := ih xs
        exact ⟨a, by simp [starK, matchK_cls_cons, matchK_cls_nil, hx, ha], hP⟩
      · simpa [starK, matchK_cls_cons, matchK_cls_nil, hx] using hk (x :: xs)

/-- Whatever a class iteration returns comes from the continuation run after
a run of class characters. -/
theorem starK_cls_sound {R : Type} (p : Char → Bool) (k : List Char → Caps → Option R)
    (c : Caps) (a : R) :
    ∀ (n : Nat) (s : List Char), starK (matchK (.cls p)) n s c k = some a →
      ∃ ds rest, s = ds ++ rest ∧ (∀ x ∈ ds, p x = true) ∧ k rest c = some a := by
  intro n
  induction n with
  | zero =>
    intro s h
    exact ⟨[], s, rfl, by simp, by simpa [starK] using h⟩
  | succ n ih =>
    intro s h
    cases s with
    | nil => exact ⟨[], [], rfl, by simp, by simpa [starK, matchK_cls_cons, matchK_cls_nil] using h⟩
    | cons x xs =>
      by_cases hx : p x = true
      · cases hr : starK (matchK (.cls p)) n xs c k with
        | none =>
          refine ⟨[], x :: xs, rfl, by simp, ?_⟩
          simpa [starK, matchK_cls_cons, matchK_cls_nil, hx, hr] using h
        | some r =>
          have hra : r = a := by simpa [starK, matchK_cls_cons, matchK_cls_nil, hx, hr] using h
          obtain ⟨ds, rest, hs, hall, hk⟩ := ih xs (hra ▸ hr)
          refine ⟨x :: ds, rest, by simp [hs], ?_, hk⟩
          intro y hy
          rcases List.mem_cons.1 hy with rfl | hy
          · exact hx
          · exact hall y hy
      · refine ⟨[], x :: xs, rfl, by simp, ?_⟩
        simpa [starK, matchK_cls_cons, matchK_cls_nil, hx] using h

theorem matchK_plus_cls_sound {R : Type} (p : Char → Bool) (k : List Char → Caps → Option R)
    (c : Caps) (a : R) (s : List Char) (h : matchK (.plus (.cls p)) s c k = some a) :
    ∃ ds rest, ds ≠ [] ∧ s = ds ++ rest ∧ (∀ x ∈ ds, p x = true) ∧ k rest c = some a := by
  cases s with
  | nil => simp [matchK_plus, matchK_cls_nil] at h
  | cons x xs =>
    by_cases hx : p x = true
    · have h' : starK (matchK (.cls p)) xs.length xs c k = some a := by
        simpa [matchK_plus, matchK_cls_cons, hx] using h
      obtain ⟨ds, rest, hs, hall, hk⟩ := starK_cls_sound p k c a _ _ h'
      refine ⟨x :: ds, rest, by simp, by simp [hs], ?_, hk⟩
      intro y hy
      rcases List.mem_cons.1 hy with rfl | hy
      · exact hx
      · exact hall y hy
    · simp [matchK_plus, matchK_cls_cons, hx] at h

theorem findSubmatch_of_matchK (r : Regex) (s : List Char) (a : Caps)
    (h : matchK r s [] (fun _ c => some c) = some a) : findSubmatch r s = some a := by
  cases s with
  | nil => simpa [findSubmatch] using h
  | cons x xs => simp [findSubmatch, h]

theorem findSubmatch_sound (r : Regex) (a : Caps) :
    ∀ s : List Char, findSubmatch r s = some a →
      ∃ pre t, s = pre ++ t ∧ matchK r t [] (fun _ c => some c) = some a := by
  intro s
  induction s with
  | nil => intro h; exact ⟨[], [], rfl, by simpa [findSubmatch] using h⟩
  | cons x xs ih =>
    intro h
    cases hm : matchK r (x :: xs) [] (fun _ c => some c) with
    | some b =>
      have hb : b = a := by simpa [findSubmatch, hm] using h
      exact ⟨[], x :: xs, rfl, hb ▸ hm⟩
    | none =>
      have h' : findSubmatch r xs = some a := by simpa [findSubmatch, hm] using h
      obtain ⟨pre, t, hs, ht⟩ := ih h'
      exact ⟨x :: pre, t, by simp [hs], ht⟩

end NvidiaSmi

namespace NvidiaSmi

/-! ## The three expressions of the program -/

theorem take_length_sub_append (u v : List Char) :
    (u ++ v).take ((u ++ v).length - v.length) = u := by
  simp

/-- At a position where a dotted digit run starts, `versionRegex` matches and
captures the run up to the first character that is not a digit. -/
theorem matchK_versionRegex_run (major minor rest : List Char)
    (hmajor : major ≠ []) (hmajorD : ∀ x ∈ major, isDigit x = true)
    (hminor : minor ≠ []) (hminorD : ∀ x ∈ minor, isDigit x = true)
    (hrest : ∀ x xs, rest = x :: xs → isDigit x = false) :
    ∃ a, matchK versionRegex (major ++ '.' :: (minor ++ rest)) [] (fun _ c => some c) = some a ∧
      capture a 1 = major ++ '.' :: minor := by
  simp only [versionRegex, matchK_seq, matchK_group, matchK_star, Regex.lit]
  apply matchK_plus_cls_run isDigit _ _ [] ('.' :: (minor ++ rest)) _ _ major hmajor hmajorD
  · intro x xs h
    cases h
    decide
  · simp only [matchK_cls_cons, beq_self_eq_true, if_true]
    apply matchK_plus_cls_run isDigit _ _ [] rest hrest _ minor hminor hminorD
    apply starK_cls_always
    intro s
    refine ⟨_, rfl, ?_⟩
    have h : (major ++ '.' :: (minor ++ rest)).take
        ((major ++ '.' :: (minor ++ rest)).length - rest.length) = major ++ '.' :: minor := by
      have := take_length_sub_append (major ++ '.' :: minor) rest
      simpa using this
    simpa [capture] using h

/-- A match of `versionRegex` starts with a digit followed by a point and a digit. -/
theorem matchK_versionRegex_sound (t : List Char) (a : Caps)
    (h : matchK versionRegex t [] (fun _ c => some c) = some a) :
    ∃ pre c d post, t = pre ++ c :: '.' :: d :: post ∧ isDigit c = true ∧ isDigit d = true := by
  simp only [versionRegex, matchK_seq, matchK_group, matchK_star, Regex.lit] at h
  obtain ⟨ds, rest, hne, ht, hall, hk⟩ := matchK_plus_cls_sound _ _ _ _ _ h
  cases rest with
  | nil => simp [matchK_cls_nil] at hk
  | cons x xs =>
    by_cases hx : (x == '.') = true
    · simp only [matchK_cls_cons, hx, if_true] at hk
      obtain ⟨es, rest', hne', hxs, hall', _⟩ := matchK_plus_cls_sound _ _ _ _ _ hk
      have hxeq : x = '.' := by simpa using hx
      obtain ⟨init, last, hds⟩ : ∃ init last, ds = init ++ [last] := by
        rcases List.eq_nil_or_concat ds with h0 | ⟨i, l, hil⟩
        · exact absurd h0 hne
        · exact ⟨i, l, by simpa using hil⟩
      cases es with
      | nil => exact absurd rfl hne'
      | cons e es =>
        refine ⟨init, last, e, es ++ rest', ?_, ?_, ?_⟩
        · simp [ht, hds, hxs, hxeq]
        · exact hall last (by simp [hds])
        · exact hall' e (by simp)
    · simp [matchK_cls_cons, hx] at hk

end NvidiaSmi

namespace NvidiaSmi

/-- The prefix group `[KMGT]?[i]?` in front of a label that starts with none of
these letters captures exactly one of the nine prefixes. -/
theorem matchK_power_group {R : Type} (P : R → Prop) (k : List Char → Caps → Option R)
    (c : Caps) (p u : List Char)
    (hp : p ∈ [[], ['K'], ['M'], ['G'], ['T'], ['K', 'i'], ['M', 'i'], ['G', 'i'], ['T', 'i']])
    (hu : ∀ x xs, u = x :: xs → isPowerChar x = false ∧ (x == 'i') = false)
    (hk : ∃ a, k u ((2, p) :: c) = some a ∧ P a) :
    ∃ a, matchK (.group 2 (.seq (.opt (.cls isPowerChar)) (.opt (Regex.lit 'i')))) (p ++ u) c k
      = some a ∧ P a := by
  obtain ⟨a, ha, hP⟩ := hk
  refine ⟨a, ?_, hP⟩
  have hK : isPowerChar 'K' = true := by decide
  have hM : isPowerChar 'M' = true := by decide
  have hG : isPowerChar 'G' = true := by decide
  have hT : isPowerChar 'T' = true := by decide
  have hi : isPowerChar 'i' = false := by decide
  simp only [List.mem_cons, List.mem_singleton, List.not_mem_nil, or_false] at hp
  rcases hp with rfl | rfl | rfl | rfl | rfl | rfl | rfl | rfl | rfl <;>
    cases u with
    | nil =>
      simp [matchK_group, matchK_seq, matchK_opt, matchK_cls_cons, matchK_cls_nil,
        Regex.lit, hK, hM, hG, hT, hi] at ha ⊢
      simp [ha]
    | cons x xs =>
      obtain ⟨h1, h2⟩ := hu x xs rfl
      have h3 : ¬ x = 'i' := by simpa using h2
      simp [matchK_group, matchK_seq, matchK_opt, matchK_cls_cons, matchK_cls_nil,
        Regex.lit, hK, hM, hG, hT, hi, h1, h3] at ha ⊢
      simp [ha]

end NvidiaSmi

namespace NvidiaSmi

/-- At a position where a run `n` of digits and points is followed by a space,
a prefix and a label, `unitRegex` matches and captures the run and the prefix. -/
theorem matchK_unitRegex_run (n p u : List Char)
    (hn : n ≠ []) (hnN : ∀ x ∈ n, isNumChar x = true)
    (hp : p ∈ [[], ['K'], ['M'], ['G'], ['T'], ['K', 'i'], ['M', 'i'], ['G', 'i'], ['T', 'i']])
    (hu : ∀ x xs, u = x :: xs → isPowerChar x = false ∧ (x == 'i') = false) :
    ∃ a, matchK unitRegex (n ++ ' ' :: (p ++ u)) [] (fun _ c => some c) = some a ∧
      (capture a 1 = n ∧ capture a 2 = p) := by
  rw [unitRegex, matchK_seq, matchK_group]
  apply matchK_plus_cls_run isNumChar _ _ [] (' ' :: (p ++ u)) _ _ n hn hnN
  · intro x xs h
    cases h
    decide
  · simp only [matchK_seq, Regex.lit, matchK_cls_cons, beq_self_eq_true, if_true]
    apply matchK_power_group _ _ _ p u hp hu
    simp only [matchK_group, matchK_star]
    apply starK_cls_always
    intro s
    refine ⟨_, rfl, ?_⟩
    constructor
    · simp [capture]
    · simp [capture]

/-- A match of `unitRegex` starts with a digit or point followed by a space. -/
theorem matchK_unitRegex_sound (t : List Char) (a : Caps)
    (h : matchK unitRegex t [] (fun _ c => some c) = some a) :
    ∃ pre c post, t = pre ++ c :: ' ' :: post ∧ isNumChar c = true := by
  rw [unitRegex, matchK_seq, matchK_group] at h
  obtain ⟨ds, rest, hne, ht, hall, hk⟩ := matchK_plus_cls_sound _ _ _ _ _ h
  cases rest with
  | nil => simp [matchK_seq, Regex.lit, matchK_cls_nil] at hk
  | cons x xs =>
    by_cases hx : (x == ' ') = true
    · have hxeq : x = ' ' := by simpa using hx
      obtain ⟨init, last, hds⟩ : ∃ init last, ds = init ++ [last] := by
        rcases List.eq_nil_or_concat ds with h0 | ⟨i, l, hil⟩
        · exact absurd h0 hne
        · exact ⟨i, l, by simpa using hil⟩
      exact ⟨init, last, xs, by simp [ht, hds, hxeq], hall last (by simp [hds])⟩
    · simp [matchK_seq, Regex.lit, matchK_cls_cons, hx] at hk

/-- Replacing every match of a one-character class by nothing keeps the other
characters in order. -/
theorem replaceAllAux_cls (q : Char → Bool) :
    ∀ (n : Nat) (b : Bool) (s : List Char), s.length < n →
      replaceAllAux (.cls q) [] n b s = s.filter (fun c => !q c) := by
  intro n
  induction n with
  | zero => intro b s h; simp at h
  | succ n ih =>
    intro b s h
    cases s with
    | nil => simp [replaceAllAux, matchK_cls_nil]
    | cons x xs =>
      have hlen : xs.length < n := by simpa using h
      by_cases hx : q x = true
      · simp [replaceAllAux, matchK_cls_cons, hx, ih true xs hlen]
      · simp [replaceAllAux, matchK_cls_cons, hx, ih false xs hlen]

theorem replaceAll_nonNum (s : List Char) :
    replaceAll nonNumRegex [] s = s.filter (fun c => c.isDigit || c == '.') := by
  rw [replaceAll, nonNumRegex, replaceAllAux_cls _ _ _ _ (Nat.lt_succ_self _)]
  congr 1
  funext c
  simp [isNumChar, isDigit]

/-- The multiplier of `filterUnit` on the nine prefixes. -/
theorem powerMultiplier_table (p : List Char)
    (hp : p ∈ [[], ['K'], ['M'], ['G'], ['T'], ['K', 'i'], ['M', 'i'], ['G', 'i'], ['T', 'i']]) :
    powerMultiplier p = specMultiplier (String.mk p) := by
  simp only [List.mem_cons, List.mem_singleton, List.not_mem_nil, or_false] at hp
  rcases hp with rfl | rfl | rfl | rfl | rfl | rfl | rfl | rfl | rfl <;> decide

theorem data_ne_of_mem_space (s : String) (h : ' ' ∈ s.data) : s ≠ "N/A" := by
  intro hs
  rw [hs] at h
  revert h
  decide

/-- What `filterUnit` computes on `n ++ " " ++ p ++ u`. -/
theorem filterUnit_run (n p u : List Char)
    (hn : n ≠ []) (hnN : ∀ x ∈ n, isNumChar x = true)
    (hp : p ∈ [[], ['K'], ['M'], ['G'], ['T'], ['K', 'i'], ['M', 'i'], ['G', 'i'], ['T', 'i']])
    (hu : ∀ x xs, u = x :: xs → isPowerChar x = false ∧ (x == 'i') = false) :
    filterUnit (String.mk (n ++ ' ' :: (p ++ u))) =
      (match parseFloat32 n with
       | some value => String.mk (fmtG (mulFloat64 value (specMultiplier (String.mk p))))
       | none => "0") := by
  obtain ⟨a, ha, h1, h2⟩ := matchK_unitRegex_run n p u hn hnN hp hu
  have hfind := findSubmatch_of_matchK _ _ _ ha
  have hne : String.mk (n ++ ' ' :: (p ++ u)) ≠ "N/A" :=
    data_ne_of_mem_space _ (by simp)
  simp only [filterUnit, hne, if_false, hfind, h1, h2, powerMultiplier_table p hp]

/-- Without a digit or point followed by a space, `filterUnit` gives "0". -/
theorem filterUnit_no_match (s : String)
    (h : ∀ pre c post, s.data = pre ++ c :: ' ' :: post → isNumChar c = false) :
    filterUnit s = "0" := by
  unfold filterUnit
  split
  · rfl
  · cases hf : findSubmatch unitRegex s.data with
    | none => rfl
    | some a =>
      obtain ⟨pre, t, hs, ht⟩ := findSubmatch_sound _ _ _ hf
      obtain ⟨pre', c, post, ht', hc⟩ := matchK_unitRegex_sound _ _ ht
      have := h (pre ++ pre') c post (by simp [hs, ht'])
      simp [this] at hc

/-- What `formatVersion` renders on a string starting with a dotted digit run. -/
theorem formatVersion_run (key meta : String) (major minor rest : List Char)
    (hmajor : major ≠ []) (hmajorD : ∀ x ∈ major, isDigit x = true)
    (hminor : minor ≠ []) (hminorD : ∀ x ∈ minor, isDigit x = true)
    (hrest : ∀ x xs, rest = x :: xs → isDigit x = false) :
    formatVersion key meta (String.mk (major ++ '.' :: (minor ++ rest))) =
      formatValue key meta (String.mk (major ++ '.' :: minor)) := by
  obtain ⟨a, ha, h1⟩ := matchK_versionRegex_run major minor rest hmajor hmajorD hminor hminorD hrest
  have hfind := findSubmatch_of_matchK _ _ _ ha
  simp only [formatVersion, hfind, h1]

/-- Without a digit, a point and a digit in a row, `formatVersion` renders "0". -/
theorem formatVersion_no_match (key meta value : String)
    (h : ∀ pre c d post, value.data = pre ++ c :: '.' :: d :: post →
      ¬ (isDigit c = true ∧ isDigit d = true)) :
    formatVersion key meta value = formatValue key meta "0" := by
  unfold formatVersion
  cases hf : findSubmatch versionRegex value.data with
  | none => rfl
  | some a =>
    obtain ⟨pre, t, hs, ht⟩ := findSubmatch_sound _ _ _ hf
    obtain ⟨pre', c, d, post, ht', hc, hd⟩ := matchK_versionRegex_sound _ _ ht
    exact absurd ⟨hc, hd⟩ (h (pre ++ pre') c d post (by simp [hs, ht']))

end NvidiaSmi

namespace NvidiaSmi

/-! ## Exactness of the float pipeline on small integers -/

theorem log2Fuel_eq_log : ∀ (fuel n : Nat), n ≤ fuel → log2Fuel fuel n = Nat.log 2 n := by
  intro fuel
  induction fuel with
  | zero =>
    intro n h
    have : n = 0 := by omega
    subst this
    simp [log2Fuel]
  | succ fuel ih =>
    intro n h
    by_cases hn : n < 2
    · simp [log2Fuel, hn, Nat.log_of_lt hn]
    · have h2 : 2 ≤ n := by omega
      have hdiv : n / 2 ≤ fuel := by omega
      simp only [log2Fuel, hn, if_false, ih (n / 2) hdiv]
      exact (Nat.log_of_one_lt_of_le (by decide) h2).symm

theorem floorLog2_eq_log (n : Nat) : floorLog2 n = Nat.log 2 n :=
  log2Fuel_eq_log n n (Nat.le_refl n)

theorem floorLog2_mul_pow (a j : Nat) (ha : 0 < a) :
    floorLog2 (a * 2 ^ j) = floorLog2 a + j := by
  rw [floorLog2_eq_log, floorLog2_eq_log]
  induction j with
  | zero => simp
  | succ j ih =>
    have hpos : a * 2 ^ j ≠ 0 := Nat.mul_ne_zero (by omega) (by positivity)
    rw [pow_succ, ← Nat.mul_assoc, Nat.log_mul_base (by decide) hpos, ih]
    omega

theorem floorLog2_pow (j : Nat) : floorLog2 (2 ^ j) = j := by
  rw [floorLog2_eq_log, Nat.log_pow (by decide)]

theorem roundHalfEven_mul_right (n d t : Nat) (ht : 0 < t) :
    roundHalfEven (n * t) (d * t) = roundHalfEven n d := by
  have hq : n * t / (d * t) = n / d := Nat.mul_div_mul_right n d ht
  have hr : n * t % (d * t) = n % d * t := Nat.mul_mod_mul_right t n d
  have h1 : (2 * (n % d * t) < d * t) ↔ (2 * (n % d) < d) := by
    rw [← Nat.mul_assoc]
    exact Nat.mul_lt_mul_right ht
  have h2 : (d * t < 2 * (n % d * t)) ↔ (d < 2 * (n % d)) := by
    rw [← Nat.mul_assoc]
    exact Nat.mul_lt_mul_right ht
  simp only [roundHalfEven, hq, hr, h1, h2]

theorem roundHalfEven_one (n : Nat) : roundHalfEven n 1 = n := by
  simp [roundHalfEven, Nat.mod_one]

theorem floorLog2Ratio_one (a : Nat) (ha : 0 < a) :
    floorLog2Ratio a 1 = (floorLog2 a : Int) := by
  have hle : 2 ^ floorLog2 a ≤ a := by
    rw [floorLog2_eq_log]
    exact Nat.pow_log_le_self 2 (by omega)
  have h1 : floorLog2 1 = 0 := by decide
  simp [floorLog2Ratio, h1, hle]

theorem floorLog2Ratio_mul_pow (a j : Nat) (ha : 0 < a) :
    floorLog2Ratio (a * 2 ^ j) (2 ^ j) = floorLog2Ratio a 1 := by
  rw [floorLog2Ratio_one a ha]
  have hle : 2 ^ floorLog2 a ≤ a := by
    rw [floorLog2_eq_log]
    exact Nat.pow_log_le_self 2 (by omega)
  have hcond : 2 ^ j * 2 ^ floorLog2 a ≤ a * 2 ^ j := by
    rw [Nat.mul_comm a]
    exact Nat.mul_le_mul_left _ hle
  simp [floorLog2Ratio, floorLog2_mul_pow a j ha, floorLog2_pow, hcond]

/-- Rounding `a * 2 ^ j / 2 ^ j` is rounding `a`. -/
theorem roundFloat_mul_pow (p : Nat) (emin : Int) (a j : Nat) :
    roundFloat p emin (a * 2 ^ j) (2 ^ j) = roundFloat p emin a 1 := by
  rcases Nat.eq_zero_or_pos a with rfl | ha
  · simp [roundFloat]
  · have hne : a * 2 ^ j ≠ 0 := Nat.mul_ne_zero (by omega) (by positivity)
    have hne' : a ≠ 0 := by omega
    have hm : ∀ x y : Nat, roundHalfEven (a * 2 ^ j * 2 ^ x) (2 ^ j * 2 ^ y) =
        roundHalfEven (a * 2 ^ x) (1 * 2 ^ y) := by
      intro x y
      have := roundHalfEven_mul_right (a * 2 ^ x) (1 * 2 ^ y) (2 ^ j) (by positivity)
      rw [← this]
      congr 1 <;> ring
    simp only [roundFloat, hne, hne', if_false, floorLog2Ratio_mul_pow a j ha, hm]

theorem floorLog2_le_23 (N : Nat) (hpos : 0 < N) (hN : N < 2 ^ 24) : floorLog2 N ≤ 23 := by
  rw [floorLog2_eq_log]
  have := Nat.pow_log_le_self 2 (x := N) (by omega)
  by_contra hc
  have h24 : 2 ^ 24 ≤ 2 ^ Nat.log 2 N := Nat.pow_le_pow_right (by decide) (by omega)
  omega

/-- A positive integer below `2 ^ 24` is a single-precision float. -/
theorem roundFloat32_small (N : Nat) (hpos : 0 < N) (hN : N < 2 ^ 24) :
    roundFloat 24 (-126) N 1 = ⟨N * 2 ^ (23 - floorLog2 N), (floorLog2 N : Int) - 23⟩ := by
  have hlog : floorLog2 N = Nat.log 2 N := floorLog2_eq_log N
  have hl : floorLog2 N ≤ 23 := floorLog2_le_23 N hpos hN
  have hlt : N < 2 ^ (floorLog2 N + 1) := by
    rw [hlog]
    exact Nat.lt_pow_succ_log_self (by decide) N
  have hm : N * 2 ^ (23 - floorLog2 N) < 2 ^ 24 := by
    calc N * 2 ^ (23 - floorLog2 N)
        < 2 ^ (floorLog2 N + 1) * 2 ^ (23 - floorLog2 N) :=
          Nat.mul_lt_mul_of_pos_right hlt (by positivity)
      _ = 2 ^ 24 := by
          rw [← pow_add]
          congr 1
          omega
  have hmax : max (floorLog2 N : Int) (-126) = (floorLog2 N : Int) := by omega
  have hs1 : (-((floorLog2 N : Int) - 23)).toNat = 23 - floorLog2 N := by omega
  have hs2 : ((floorLog2 N : Int) - 23).toNat = 0 := by omega
  have hs3 : (floorLog2 N : Int) - (((24 : Nat) : Int) - 1) = (floorLog2 N : Int) - 23 := by
    omega
  have hne : N ≠ 0 := by omega
  simp only [roundFloat, hne, if_false, floorLog2Ratio_one N hpos, hmax, hs3, hs1, hs2, pow_zero,
    Nat.mul_one, roundHalfEven_one, Nat.ne_of_lt hm]

/-- The float64 product of an integer below `2 ^ 24`, read as a single-precision
float, with an integer constant is the float64 nearest to the exact product. -/
theorem mulFloat64_small (N c : Nat) (hN : N < 2 ^ 24) :
    mulFloat64 (roundFloat 24 (-126) N 1) c = roundFloat 53 (-1022) (N * c) 1 := by
  rcases Nat.eq_zero_or_pos N with rfl | hpos
  · simp [mulFloat64, roundFloat]
  · have hl : floorLog2 N ≤ 23 := floorLog2_le_23 N hpos hN
    have hs1 : (-((floorLog2 N : Int) - 23)).toNat = 23 - floorLog2 N := by omega
    have hs2 : ((floorLog2 N : Int) - 23).toNat = 0 := by omega
    rw [roundFloat32_small N hpos hN]
    simp only [mulFloat64, hs1, hs2, pow_zero, Nat.mul_one]
    rw [show N * 2 ^ (23 - floorLog2 N) * c = N * c * 2 ^ (23 - floorLog2 N) by ring]
    exact roundFloat_mul_pow 53 (-1022) (N * c) (23 - floorLog2 N)

theorem parseDecimal_digits (n : List Char) (hn : n ≠ []) (hD : ∀ x ∈ n, isDigit x = true) :
    parseDecimal n = some (digitsToNat n, 0) := by
  have h1 : n.takeWhile isDigit = n := List.takeWhile_eq_self_iff.2 hD
  have h2 : n.dropWhile isDigit = [] := List.dropWhile_eq_nil_iff.2 hD
  simp [parseDecimal, h1, h2, hn]

/-- `ParseFloat(_, 32)` is exact on integer numerals below `2 ^ 24`. -/
theorem parseFloat32_small (n : List Char) (hn : n ≠ []) (hD : ∀ x ∈ n, isDigit x = true)
    (hN : digitsToNat n < 2 ^ 24) :
    parseFloat32 n = some (roundFloat 24 (-126) (digitsToNat n) 1) := by
  have hexp : ¬ (104 < (roundFloat 24 (-126) (digitsToNat n) 1).exp) := by
    rcases Nat.eq_zero_or_pos (digitsToNat n) with h0 | hpos
    · rw [h0]
      decide
    · have hl := floorLog2_le_23 _ hpos hN
      rw [roundFloat32_small _ hpos hN]
      simp only
      omega
  simp only [parseFloat32, parseDecimal_digits n hn hD, pow_zero, hexp, if_false]

end NvidiaSmi

namespace NvidiaSmi

/-! ## The filters -/

/-- C1 (as stated, refuted): the claim's own example is off, since `filterUnit`
renders "1005 MiB" as 1005 × 2^20 = 1053818880 and not as 1054867456; the
numeral is rounded to single precision first, so "16777217 B" is rendered as
16777216; and a label that starts with a prefix letter is read as a prefix, so
"5 T" (no prefix, label "T") is rendered as 5 × 10^12 and "5 KiB" read as
prefix `K` with label "iB" is rendered as 5 × 1024. -/
theorem filterUnit_exact_product_fails :
    filterUnit ("1005" ++ " " ++ "Mi" ++ "B") = "1.05381888e+09" ∧
    filterUnit ("1005" ++ " " ++ "Mi" ++ "B") ≠ numeral 1054867456 1 ∧
    filterUnit ("16777217" ++ " " ++ "" ++ "B") = "1.6777216e+07" ∧
    filterUnit ("16777217" ++ " " ++ "" ++ "B") ≠ numeral (16777217 * specMultiplier "") 1 ∧
    filterUnit ("5" ++ " " ++ "" ++ "T") = "5e+12" ∧
    filterUnit ("5" ++ " " ++ "" ++ "T") ≠ numeral (5 * specMultiplier "") 1 ∧
    filterUnit ("5" ++ " " ++ "K" ++ "iB") = "5120" ∧
    filterUnit ("5" ++ " " ++ "K" ++ "iB") ≠ numeral (5 * specMultiplier "K") 1 := by
  decide

/-- C2: on any input other than "N/A", `filterNumber` returns the characters
of the input that are decimal digits or points, in their original order. -/
theorem filterNumber_keeps_digits_and_points (s : String) (h : s ≠ "N/A") :
    filterNumber s = String.mk (s.data.filter (fun c => c.isDigit || c == '.')) := by
  simp only [filterNumber, h, if_false, replaceAll_nonNum]

/-- C2 at the inputs "P0", "x16" and "15". -/
theorem filterNumber_keeps_digits_and_points_witness :
    ("P0" ≠ "N/A" ∧
      filterNumber "P0" = String.mk ("P0".data.filter (fun c => c.isDigit || c == '.'))) ∧
    filterNumber "P0" = "0" ∧ filterNumber "x16" = "16" ∧ filterNumber "15" = "15" :=
  ⟨⟨by decide, filterNumber_keeps_digits_and_points "P0" (by decide)⟩,
    by decide, by decide, by decide⟩

/-- C3: on the sentinel "N/A" both `filterNumber` and `filterUnit` return "0". -/
theorem sentinel_gives_zero : filterNumber "N/A" = "0" ∧ filterUnit "N/A" = "0" := by
  decide

/-- C4: on `major ++ "." ++ minor ++ "." ++ rest` with `major` and `minor`
non-empty digit strings, `formatVersion` renders the value `major ++ "." ++ minor`. -/
theorem formatVersion_major_minor (key meta major minor rest : String)
    (hmajor : major ≠ "") (hmajorD : ∀ c ∈ major.data, c.isDigit = true)
    (hminor : minor ≠ "") (hminorD : ∀ c ∈ minor.data, c.isDigit = true) :
    formatVersion key meta (major ++ "." ++ minor ++ "." ++ rest) =
      formatValue key meta (major ++ "." ++ minor) := by
  have hs : major ++ "." ++ minor ++ "." ++ rest =
      String.mk (major.data ++ '.' :: (minor.data ++ '.' :: rest.data)) := by
    apply String.ext
    simp [String.data_append]
  have hv : major ++ "." ++ minor = String.mk (major.data ++ '.' :: minor.data) := by
    apply String.ext
    simp [String.data_append]
  rw [hs, hv]
  apply formatVersion_run
  · exact fun h => hmajor (String.ext (by simpa using h))
  · exact hmajorD
  · exact fun h => hminor (String.ext (by simpa using h))
  · exact hminorD
  · intro x xs h
    cases h
    decide

/-- C4 at the driver version "440.95.01" of the repository's test. -/
theorem formatVersion_major_minor_witness :
    ("440" ≠ "" ∧ (∀ c ∈ "440".data, c.isDigit = true) ∧
      "95" ≠ "" ∧ (∀ c ∈ "95".data, c.isDigit = true)) ∧
    formatVersion "nvidia_smi_driver_version" "" ("440" ++ "." ++ "95" ++ "." ++ "01") =
      formatValue "nvidia_smi_driver_version" "" ("440" ++ "." ++ "95") :=
  ⟨⟨by decide, by decide, by decide, by decide⟩,
    formatVersion_major_minor "nvidia_smi_driver_version" "" "440" "95" "01"
      (by decide) (by decide) (by decide) (by decide)⟩

/-- C5 (as stated, refuted): "v1.2" does not begin with a dotted numeric
prefix, yet `formatVersion` renders "1.2" for it, not "0": the expression is
searched for anywhere in the string. -/
theorem formatVersion_inner_version_found :
    beginsWithDottedPrefix "v1.2" = false ∧
    formatVersion "k" "" "v1.2" = formatValue "k" "" "1.2" ∧
    formatVersion "k" "" "v1.2" ≠ formatValue "k" "" "0" := by
  decide

/-- C6 (as stated, refuted): "abc 12 MiB" does not start with a numeral, yet
`filterUnit` renders 12 × 2^20 for it, not "0": the expression is searched for
anywhere in the string. -/
theorem filterUnit_inner_magnitude_found :
    startsWithNumberSpace "abc 12 MiB" = false ∧
    filterUnit "abc 12 MiB" = "1.2582912e+07" ∧
    filterUnit "abc 12 MiB" ≠ "0" := by
  decide

/-- A string without a space has no digit or point followed by a space. -/
theorem no_number_space_of_no_space (s : String) (h : ' ' ∉ s.data) :
    ∀ pre c post, s.data = pre ++ c :: ' ' :: post → ¬ (c.isDigit = true ∨ c = '.') := by
  intro pre c post hs
  exact absurd (by simp [hs]) h

/-- C7: `formatValue` renders `key{meta} value` and a newline when `meta` is
not empty, and `key value` and a newline, without braces, when it is. -/
theorem formatValue_layout (key meta value : String) :
    (meta ≠ "" →
      formatValue key meta value = key ++ "\x7b" ++ meta ++ "\x7d" ++ " " ++ value ++ "\n") ∧
    (meta = "" → formatValue key meta value = key ++ " " ++ value ++ "\n") := by
  constructor
  · intro h
    simp [formatValue, h, String.append_assoc]
  · intro h
    simp [formatValue, h]

/-- C7 with the label `id="0"` and without label. -/
theorem formatValue_layout_witness :
    ("id=\"0\"" ≠ "" ∧
      formatValue "nvidia_smi_attached_gpus" "id=\"0\"" "1" =
        "nvidia_smi_attached_gpus" ++ "\x7b" ++ "id=\"0\"" ++ "\x7d" ++ " " ++ "1" ++ "\n") ∧
    ("" = "" ∧
      formatValue "nvidia_smi_attached_gpus" "" "1" =
        "nvidia_smi_attached_gpus" ++ " " ++ "1" ++ "\n") :=
  ⟨⟨by decide, (formatValue_layout "nvidia_smi_attached_gpus" "id=\"0\"" "1").1 (by decide)⟩,
    ⟨rfl, (formatValue_layout "nvidia_smi_attached_gpus" "" "1").2 rfl⟩⟩

end NvidiaSmi

namespace NvidiaSmi

/-! ## The emitter -/

theorem deviceFixedLines_length (xmlData : NvidiaSmiLog) (GPU : GPU) :
    (deviceFixedLines xmlData GPU).length = 52 := by
  simp [deviceFixedLines]

theorem mem_generateMetricsResponse (xmlData : NvidiaSmiLog) (GPU : GPU) (line : String)
    (hGPU : GPU ∈ xmlData.GPU) (hline : line ∈ deviceLines xmlData GPU) :
    line ∈ generateMetricsResponse xmlData := by
  unfold generateMetricsResponse
  exact List.mem_flatten.2 ⟨_, List.mem_map.2 ⟨GPU, hGPU, rfl⟩, hline⟩

/-- C9 (as stated, refuted): for a document without device nothing is written,
in particular no driver-version, CUDA-version or attached-GPU line, whatever
its labels. -/
theorem no_device_no_top_level_line :
    emptyLog.GPU = [] ∧
    ∀ meta : String,
      formatVersion "nvidia_smi_driver_version" meta emptyLog.DriverVersion
        ∉ generateMetricsResponse emptyLog ∧
      formatVersion "nvidia_smi_cuda_version" meta emptyLog.CudaVersion
        ∉ generateMetricsResponse emptyLog ∧
      formatValue "nvidia_smi_attached_gpus" meta emptyLog.AttachedGPUs
        ∉ generateMetricsResponse emptyLog := by
  refine ⟨rfl, fun meta => ?_⟩
  simp [generateMetricsResponse, emptyLog]

/-- C9 (amended): for a document with an empty device list,
`generateMetricsResponse` writes nothing at all. -/
theorem no_device_no_line (xmlData : NvidiaSmiLog) (h : xmlData.GPU = []) :
    generateMetricsResponse xmlData = [] := by
  simp [generateMetricsResponse, h]

/-- C9 (amended) at the document without device. -/
theorem no_device_no_line_witness :
    emptyLog.GPU = [] ∧ generateMetricsResponse emptyLog = [] :=
  ⟨rfl, no_device_no_line emptyLog rfl⟩

/-- C10: for a document with `N` devices, `generateMetricsResponse` writes
`N * 52` lines plus one line per process of each device; 52 is the number of
fixed lines of any device in any document. -/
theorem line_count (xmlData : NvidiaSmiLog) :
    (generateMetricsResponse xmlData).length =
      xmlData.GPU.length * 52 + (xmlData.GPU.map (fun GPU => GPU.Processes.ProcessInfo.length)).sum ∧
    ∀ (other : NvidiaSmiLog) (GPU : GPU), (deviceFixedLines other GPU).length = 52 := by
  refine ⟨?_, deviceFixedLines_length⟩
  unfold generateMetricsResponse
  induction xmlData.GPU with
  | nil => simp
  | cons g gs ih =>
    simp only [List.map_cons, List.flatten_cons, List.length_append, List.length_cons,
      List.sum_cons, ih, deviceLines, deviceFixedLines_length, List.length_map]
    omega

end NvidiaSmi

namespace NvidiaSmi

/-! ## The fixed lines as a table -/

theorem formatVersion_eq_formatValue (key meta value : String) :
    formatVersion key meta value = formatValue key meta (versionValue value) := rfl

/-- The list written by the source is the rendering of the table. -/
theorem deviceFixedLines_eq_table (xmlData : NvidiaSmiLog) (GPU : GPU) :
    deviceFixedLines xmlData GPU = fixedLineTable.map (fun l => l.render xmlData GPU) := rfl

theorem idInfo_ne_empty (GPU : GPU) : idInfo GPU ≠ "" := by
  intro h
  have := congrArg String.data h
  simp [idInfo, String.data_append] at this

theorem formatValue_with_labels (key meta value : String) (h : meta ≠ "") :
    formatValue key meta value = key ++ "\x7b" ++ meta ++ "\x7d" ++ " " ++ value ++ "\n" := by
  simp [formatValue, h, String.append_assoc]

theorem append_ne_empty_left (a b : String) (h : a ≠ "") : a ++ b ≠ "" := by
  intro hab
  apply h
  have := congrArg String.data hab
  apply String.ext
  simp [String.data_append] at this
  simpa using this.1

theorem deviceLines_top_level (dv cv ag : String) (ds ds' : List GPU) (GPU : GPU) :
    deviceLines ⟨dv, cv, ag, ds⟩ GPU = deviceLines ⟨dv, cv, ag, ds'⟩ GPU := rfl

end NvidiaSmi
namespace NvidiaSmi

/-! ## Labels, order and fields of the lines -/

/-- C11: each fixed line of a device is a metric name of the table followed by
the label block `id="<Id>",uuid="<UUID>",name="<ProductName>"` in braces, the
three identifiers inserted as they are; each process line carries the same
labels extended with `,process_pid="<Pid>",process_type="<Type>"`; and the
lines of a device are its fixed lines followed by its process lines. -/
theorem device_label_block (xmlData : NvidiaSmiLog) (GPU : GPU) :
    (∀ line ∈ deviceFixedLines xmlData GPU, ∃ key ∈ fixedMetricNames, ∃ value,
      line = key ++ "\x7b" ++
        ("id=\"" ++ GPU.Id ++ "\",uuid=\"" ++ GPU.UUID ++ "\",name=\"" ++ GPU.ProductName ++ "\"")
        ++ "\x7d" ++ " " ++ value ++ "\n") ∧
    (∀ p ∈ GPU.Processes.ProcessInfo,
      processLine (idInfo GPU) p = "nvidia_smi_process_used_memory_bytes" ++ "\x7b" ++
        ("id=\"" ++ GPU.Id ++ "\",uuid=\"" ++ GPU.UUID ++ "\",name=\"" ++ GPU.ProductName ++ "\""
          ++ ",process_pid=\"" ++ p.Pid ++ "\",process_type=\"" ++ p.«Type» ++ "\"")
        ++ "\x7d" ++ " " ++ filterUnit p.UsedMemory ++ "\n") ∧
    deviceLines xmlData GPU =
      deviceFixedLines xmlData GPU ++ GPU.Processes.ProcessInfo.map (processLine (idInfo GPU)) := by
  refine ⟨?_, ?_, rfl⟩
  · intro line hline
    rw [deviceFixedLines_eq_table] at hline
    obtain ⟨l, hl, rfl⟩ := List.mem_map.1 hline
    exact ⟨l.name, List.mem_map_of_mem _ hl, l.conv.apply (l.field xmlData GPU),
      formatValue_with_labels _ _ _ (idInfo_ne_empty GPU)⟩
  · intro p _
    have hne : idInfo GPU ++ ",process_pid=\"" ++ p.Pid ++ "\",process_type=\"" ++ p.«Type» ++ "\""
        ≠ "" := by
      iterate 5 apply append_ne_empty_left
      exact idInfo_ne_empty GPU
    rw [processLine, formatValue_with_labels _ _ _ hne]
    rfl

/-- C11 at the sample device: its driver-version line and its process line. -/
theorem device_label_block_witness :
    (formatVersion "nvidia_smi_driver_version" (idInfo sampleGPU) sampleLog.DriverVersion
        ∈ deviceFixedLines sampleLog sampleGPU ∧
      ∃ key ∈ fixedMetricNames, ∃ value,
        formatVersion "nvidia_smi_driver_version" (idInfo sampleGPU) sampleLog.DriverVersion =
          key ++ "\x7b" ++
            ("id=\"" ++ sampleGPU.Id ++ "\",uuid=\"" ++ sampleGPU.UUID ++ "\",name=\""
              ++ sampleGPU.ProductName ++ "\"")
            ++ "\x7d" ++ " " ++ value ++ "\n") ∧
    ((⟨"1234", "G", "", "1005 MiB"⟩ : ProcessInfo) ∈ sampleGPU.Processes.ProcessInfo ∧
      processLine (idInfo sampleGPU) ⟨"1234", "G", "", "1005 MiB"⟩ =
        "nvidia_smi_process_used_memory_bytes" ++ "\x7b" ++
          ("id=\"" ++ sampleGPU.Id ++ "\",uuid=\"" ++ sampleGPU.UUID ++ "\",name=\""
            ++ sampleGPU.ProductName ++ "\""
            ++ ",process_pid=\"" ++ "1234" ++ "\",process_type=\"" ++ "G" ++ "\"")
          ++ "\x7d" ++ " " ++ filterUnit "1005 MiB" ++ "\n") :=
  ⟨⟨List.mem_cons_self _ _,
      (device_label_block sampleLog sampleGPU).1 _ (List.mem_cons_self _ _)⟩,
    ⟨List.mem_singleton.2 rfl,
      (device_label_block sampleLog sampleGPU).2.1 _ (List.mem_singleton.2 rfl)⟩⟩

/-- C13 (as stated, refuted): with the count "2 GPUs" the attached-GPU line
of the device shows "2 GPUs", not the filtered "2". -/
theorem attached_gpus_not_filtered :
    strayLog.AttachedGPUs = "2 GPUs" ∧ filterNumber strayLog.AttachedGPUs = "2" ∧
    formatValue "nvidia_smi_attached_gpus" (idInfo sampleGPU) "2 GPUs"
      ∈ generateMetricsResponse strayLog ∧
    formatValue "nvidia_smi_attached_gpus" (idInfo sampleGPU) (filterNumber strayLog.AttachedGPUs)
      ∉ generateMetricsResponse strayLog := by
  decide

/-- C13 (amended): the third fixed line of every device is the attached-GPU
line and its value is the `AttachedGPUs` field as it is, without conversion. -/
theorem attached_gpus_verbatim (xmlData : NvidiaSmiLog) (GPU : GPU) :
    (deviceFixedLines xmlData GPU).get? 2 =
      some (formatValue "nvidia_smi_attached_gpus" (idInfo GPU) xmlData.AttachedGPUs) ∧
    (GPU ∈ xmlData.GPU →
      formatValue "nvidia_smi_attached_gpus" (idInfo GPU) xmlData.AttachedGPUs
        ∈ generateMetricsResponse xmlData) := by
  refine ⟨rfl, fun hGPU => ?_⟩
  apply mem_generateMetricsResponse xmlData GPU _ hGPU
  apply List.mem_append_left
  simp [deviceFixedLines]

/-- C13 (amended) at the document with the count "2 GPUs". -/
theorem attached_gpus_verbatim_witness :
    sampleGPU ∈ strayLog.GPU ∧
    formatValue "nvidia_smi_attached_gpus" (idInfo sampleGPU) strayLog.AttachedGPUs
      ∈ generateMetricsResponse strayLog :=
  ⟨List.mem_singleton.2 rfl,
    (attached_gpus_verbatim strayLog sampleGPU).2 (List.mem_singleton.2 rfl)⟩

/-- C14 (the code at the failing input): for a device with replay counter "7"
and replay rollover counter "0", the `nvidia_smi_pci_replay_counter` line shows
"0", the rollover counter, and no line shows "7". -/
theorem replay_counter_line_reads_rollover :
    replayGPU.PCI.ReplayCounter = "7" ∧ replayGPU.PCI.ReplayRolloverCounter = "0" ∧
    formatValue "nvidia_smi_pci_replay_counter" (idInfo replayGPU) "0"
      ∈ generateMetricsResponse replayLog ∧
    formatValue "nvidia_smi_pci_replay_counter" (idInfo replayGPU) "7"
      ∉ generateMetricsResponse replayLog ∧
    formatValue "nvidia_smi_pci_replay_rollover_counter" (idInfo replayGPU) "0"
      ∈ generateMetricsResponse replayLog := by
  decide

end NvidiaSmi
namespace NvidiaSmi

/-! ## The sentinel and the shape of the values -/

theorem versionValue_sentinel : versionValue "N/A" = "0" := by decide

theorem apply_sentinel (conv : Conversion) (h : conv ≠ .verbatim) : conv.apply "N/A" = "0" := by
  cases conv with
  | version => exact versionValue_sentinel
  | verbatim => exact absurd rfl h
  | number => decide
  | unit => decide

/-- C15 (as stated, refuted): for a device whose telemetry fields are all
"N/A", the encoder session-count line shows "N/A", not "0". -/
theorem sentinel_written_verbatim :
    naGPU.EncoderStats.SessionCount = "N/A" ∧
    formatValue "nvidia_smi_encoder_session_count" (idInfo naGPU) "N/A"
      ∈ generateMetricsResponse naLog ∧
    formatValue "nvidia_smi_encoder_session_count" (idInfo naGPU) "0"
      ∉ generateMetricsResponse naLog := by
  decide

/-- C15 (amended): a fixed line whose value goes through `formatVersion`,
`filterNumber` or `filterUnit` has the value "0" when the field it reads is
"N/A", and so has a process line whose used memory is "N/A"; eleven lines are
written without conversion. -/
theorem sentinel_converted_lines (xmlData : NvidiaSmiLog) (GPU : GPU) :
    (∀ l ∈ fixedLineTable, l.conv ≠ .verbatim → l.field xmlData GPU = "N/A" →
      l.render xmlData GPU = formatValue l.name (idInfo GPU) "0") ∧
    (∀ p ∈ GPU.Processes.ProcessInfo, p.UsedMemory = "N/A" →
      processLine (idInfo GPU) p = formatValue "nvidia_smi_process_used_memory_bytes"
        (idInfo GPU ++ ",process_pid=\"" ++ p.Pid ++ "\",process_type=\"" ++ p.«Type» ++ "\"")
        "0") ∧
    deviceFixedLines xmlData GPU = fixedLineTable.map (fun l => l.render xmlData GPU) ∧
    (fixedLineTable.filter (fun l => l.conv = .verbatim)).map (fun l => l.name) =
      ["nvidia_smi_attached_gpus", "nvidia_smi_pci_pcie_gen_max",
        "nvidia_smi_pci_pcie_gen_current", "nvidia_smi_pci_replay_counter",
        "nvidia_smi_pci_replay_rollover_counter", "nvidia_smi_encoder_session_count",
        "nvidia_smi_encoder_average_fps", "nvidia_smi_encoder_average_latency",
        "nvidia_smi_fbc_session_count", "nvidia_smi_fbc_average_fps",
        "nvidia_smi_fbc_average_latency"] := by
  refine ⟨?_, ?_, rfl, by decide⟩
  · intro l _ hconv hfield
    rw [LineSpec.render, hfield, apply_sentinel l.conv hconv]
  · intro p _ hp
    have hu : filterUnit "N/A" = "0" := by decide
    rw [processLine, hp, hu]

/-- C15 (amended) at the device without telemetry: its fan-speed line. -/
theorem sentinel_converted_lines_witness :
    (fixedLineTable.get ⟨11, by decide⟩ ∈ fixedLineTable ∧
      (fixedLineTable.get ⟨11, by decide⟩).conv ≠ .verbatim ∧
      (fixedLineTable.get ⟨11, by decide⟩).field naLog naGPU = "N/A") ∧
    (fixedLineTable.get ⟨11, by decide⟩).render naLog naGPU =
      formatValue "nvidia_smi_fan_speed_percent" (idInfo naGPU) "0" :=
  ⟨⟨List.get_mem _ _ _, by decide, rfl⟩,
    (sentinel_converted_lines naLog naGPU).1 _ (List.get_mem _ _ _) (by decide) rfl⟩

/-- C16 (as stated, refuted): `filterNumber` returns the empty string on "On"
and a string with two points on "1.2.3"; neither is a canonical numeric string. -/
theorem filterNumber_not_canonical :
    filterNumber "On" = "" ∧ isCanonicalNumeric (filterNumber "On") = false ∧
    filterNumber "1.2.3" = "1.2.3" ∧ isCanonicalNumeric (filterNumber "1.2.3") = false := by
  decide

/-- C16 (amended): `filterNumber` returns a string made of decimal digits and
points only; it is empty exactly when the input is not "N/A" and has no digit
and no point. -/
theorem filterNumber_digits_and_points_only (s : String) :
    (∀ c ∈ (filterNumber s).data, c.isDigit = true ∨ c = '.') ∧
    (filterNumber s = "" ↔ s ≠ "N/A" ∧ ∀ c ∈ s.data, ¬ (c.isDigit = true ∨ c = '.')) := by
  by_cases hs : s = "N/A"
  · subst hs
    refine ⟨by decide, ?_⟩
    have : filterNumber "N/A" ≠ "" := by decide
    simp [this]
  · have hf : filterNumber s = String.mk (s.data.filter (fun c => c.isDigit || c == '.')) := by
      simp only [filterNumber, hs, if_false, replaceAll_nonNum]
    rw [hf]
    constructor
    · intro c hc
      have := (List.mem_filter.1 hc).2
      simpa using this
    · constructor
      · intro h
        refine ⟨hs, fun c hc hcond => ?_⟩
        have hnil : s.data.filter (fun c => c.isDigit || c == '.') = [] := by
          simpa using congrArg String.data h
        have hmem : c ∈ s.data.filter (fun c => c.isDigit || c == '.') :=
          List.mem_filter.2 ⟨hc, by simpa using hcond⟩
        rw [hnil] at hmem
        exact absurd hmem (List.not_mem_nil c)
      · rintro ⟨_, h⟩
        have hnil : s.data.filter (fun c => c.isDigit || c == '.') = [] := by
          rw [List.filter_eq_nil_iff]
          intro c hc
          simpa using h c hc
        rw [hnil]

/-- C18: an input without a space character is rendered as "0" by `filterUnit`. -/
theorem filterUnit_zero_without_space (s : String) (h : ' ' ∉ s.data) : filterUnit s = "0" := by
  apply filterUnit_no_match
  intro pre c post hs
  exact absurd (by simp [hs]) h

/-- C18 at "961MHz" and at the clock-policy values "On" and "Off". -/
theorem filterUnit_zero_without_space_witness :
    (' ' ∉ "961MHz".data ∧ filterUnit "961MHz" = "0") ∧
    (' ' ∉ "On".data ∧ filterUnit "On" = "0") ∧
    (' ' ∉ "Off".data ∧ filterUnit "Off" = "0") :=
  ⟨⟨by decide, filterUnit_zero_without_space "961MHz" (by decide)⟩,
    ⟨by decide, filterUnit_zero_without_space "On" (by decide)⟩,
    ⟨by decide, filterUnit_zero_without_space "Off" (by decide)⟩⟩

/-- C20: `filterNumber` is idempotent, in the program and in the legacy
program, and the legacy `formatValue` renders an already filtered value as it
renders the value itself. -/
theorem filterNumber_idempotent (s key meta value : String) :
    filterNumber (filterNumber s) = filterNumber s ∧
    Legacy.filterNumber (Legacy.filterNumber s) = Legacy.filterNumber s ∧
    Legacy.formatValue key meta (Legacy.filterNumber value) =
      Legacy.formatValue key meta value := by
  have hleg : ∀ t : String,
      Legacy.filterNumber (Legacy.filterNumber t) = Legacy.filterNumber t := by
    intro t
    simp only [Legacy.filterNumber, replaceAll_nonNum, List.filter_filter, Bool.and_self]
  refine ⟨?_, hleg s, ?_⟩
  · by_cases hs : s = "N/A"
    · subst hs
      decide
    · have hf : filterNumber s = Legacy.filterNumber s := by
        simp only [filterNumber, hs, if_false, Legacy.filterNumber]
      have hne : Legacy.filterNumber s ≠ "N/A" := by
        intro h
        have hN : 'N' ∈ (Legacy.filterNumber s).data := by
          rw [h]
          decide
        simp only [Legacy.filterNumber, replaceAll_nonNum] at hN
        have := (List.mem_filter.1 hN).2
        revert this
        decide
      rw [hf]
      have hf2 : filterNumber (Legacy.filterNumber s) =
          Legacy.filterNumber (Legacy.filterNumber s) := by
        have hne' : (String.mk (replaceAll nonNumRegex [] s.data)) ≠ "N/A" := hne
        simp only [filterNumber, Legacy.filterNumber, hne', if_false]
      rw [hf2, hleg s]
  · simp only [Legacy.formatValue, hleg value]

end NvidiaSmi
namespace NvidiaSmi

/-! ## The prefix read by `filterUnit` -/

/-- On any text `t` the prefix group `[KMGT]?[i]?` takes a first part `q` of `t`
whose multiplier is the one read off the first two characters of `t`. -/
theorem matchK_power_group_leading (t : List Char) :
    ∃ q u, t = q ++ u ∧ powerMultiplier q = leadingMultiplier t ∧
      ∀ {R : Type} (P : R → Prop) (k : List Char → Caps → Option R) (c : Caps),
        (∃ a, k u ((2, q) :: c) = some a ∧ P a) →
        ∃ a, matchK (.group 2 (.seq (.opt (.cls isPowerChar)) (.opt (Regex.lit 'i')))) t c k
          = some a ∧ P a := by
  have key : ∀ (q u : List Char), t = q ++ u → powerMultiplier q = leadingMultiplier t →
      (∀ {R : Type} (k : List Char → Caps → Option R) (c : Caps) (a : R),
        k u ((2, q) :: c) = some a →
        matchK (.group 2 (.seq (.opt (.cls isPowerChar)) (.opt (Regex.lit 'i')))) t c k
          = some a) →
      ∃ q u, t = q ++ u ∧ powerMultiplier q = leadingMultiplier t ∧
        ∀ {R : Type} (P : R → Prop) (k : List Char → Caps → Option R) (c : Caps),
          (∃ a, k u ((2, q) :: c) = some a ∧ P a) →
          ∃ a, matchK (.group 2 (.seq (.opt (.cls isPowerChar)) (.opt (Regex.lit 'i')))) t c k
            = some a ∧ P a := by
    intro q u h1 h2 h3
    refine ⟨q, u, h1, h2, ?_⟩
    intro R P k c ⟨a, ha, hP⟩
    exact ⟨a, h3 k c a ha, hP⟩
  cases t with
  | nil =>
    apply key [] [] rfl (by decide)
    intro R k c a ha
    simpa [matchK_group, matchK_seq, matchK_opt, matchK_cls_nil, Regex.lit] using ha
  | cons x rest =>
    by_cases hx : isPowerChar x = true
    · cases rest with
      | nil =>
        apply key [x] [] rfl
        · have : x = 'K' ∨ x = 'M' ∨ x = 'G' ∨ x = 'T' := by
            simpa [isPowerChar, or_assoc] using hx
          rcases this with rfl | rfl | rfl | rfl <;> decide
        · intro R k c a ha
          simp [matchK_group, matchK_seq, matchK_opt, matchK_cls_cons, matchK_cls_nil,
            Regex.lit, hx] at ha ⊢
          simp [ha]
      | cons y ys =>
        by_cases hy : y = 'i'
        · subst hy
          apply key [x, 'i'] ys rfl
          · have : x = 'K' ∨ x = 'M' ∨ x = 'G' ∨ x = 'T' := by
              simpa [isPowerChar, or_assoc] using hx
            rcases this with rfl | rfl | rfl | rfl <;> simp [powerMultiplier, leadingMultiplier]
          · intro R k c a ha
            have h2 : ys.length + 1 + 1 - ys.length = 2 := by omega
            simp [matchK_group, matchK_seq, matchK_opt, matchK_cls_cons, matchK_cls_nil,
              Regex.lit, hx] at ha ⊢
            simp [h2, ha]
        · apply key [x] (y :: ys) rfl
          · have : x = 'K' ∨ x = 'M' ∨ x = 'G' ∨ x = 'T' := by
              simpa [isPowerChar, or_assoc] using hx
            rcases this with rfl | rfl | rfl | rfl <;>
              simp [powerMultiplier, leadingMultiplier, hy]
          · intro R k c a ha
            simp [matchK_group, matchK_seq, matchK_opt, matchK_cls_cons, matchK_cls_nil,
              Regex.lit, hx, hy] at ha ⊢
            simp [ha]
    · have hx' : isPowerChar x = false := by simpa using hx
      have hxne : x ≠ 'K' ∧ x ≠ 'M' ∧ x ≠ 'G' ∧ x ≠ 'T' := by
        simpa [isPowerChar, not_or, and_assoc] using hx
      by_cases hi : x = 'i'
      · subst hi
        apply key ['i'] rest rfl
        · simp [powerMultiplier, leadingMultiplier]
        · intro R k c a ha
          simp [matchK_group, matchK_seq, matchK_opt, matchK_cls_cons, matchK_cls_nil,
            Regex.lit, hx'] at ha ⊢
          simp [ha]
      · apply key [] (x :: rest) rfl
        · simp [powerMultiplier, leadingMultiplier, hxne.1, hxne.2.1, hxne.2.2.1, hxne.2.2.2]
        · intro R k c a ha
          simp [matchK_group, matchK_seq, matchK_opt, matchK_cls_cons, matchK_cls_nil,
            Regex.lit, hx', hi] at ha ⊢
          simp [ha]

/-- At a position where a run `n` of digits and points is followed by a space,
`unitRegex` captures the run and a prefix whose multiplier is read off the
first two characters after the space. -/
theorem matchK_unitRegex_leading (n t : List Char)
    (hn : n ≠ []) (hnN : ∀ x ∈ n, isNumChar x = true) :
    ∃ a, matchK unitRegex (n ++ ' ' :: t) [] (fun _ c => some c) = some a ∧
      (capture a 1 = n ∧ powerMultiplier (capture a 2) = leadingMultiplier t) := by
  obtain ⟨q, u, ht, hq, hrun⟩ := matchK_power_group_leading t
  rw [unitRegex, matchK_seq, matchK_group]
  apply matchK_plus_cls_run isNumChar _ _ [] (' ' :: t) _ _ n hn hnN
  · intro x xs h
    cases h
    decide
  · simp only [matchK_seq, Regex.lit, matchK_cls_cons, beq_self_eq_true, if_true]
    apply hrun
    simp only [matchK_group, matchK_star]
    apply starK_cls_always
    intro s
    refine ⟨_, rfl, ?_⟩
    constructor
    · simp [capture]
    · simpa [capture] using hq

/-- What `filterUnit` computes on `n ++ " " ++ t` for any text `t`. -/
theorem filterUnit_leading (n t : List Char)
    (hn : n ≠ []) (hnN : ∀ x ∈ n, isNumChar x = true) :
    filterUnit (String.mk (n ++ ' ' :: t)) =
      (match parseFloat32 n with
       | some value => String.mk (fmtG (mulFloat64 value (leadingMultiplier t)))
       | none => "0") := by
  obtain ⟨a, ha, h1, h2⟩ := matchK_unitRegex_leading n t hn hnN
  have hfind := findSubmatch_of_matchK _ _ _ ha
  have hne : String.mk (n ++ ' ' :: t) ≠ "N/A" := data_ne_of_mem_space _ (by simp)
  simp only [filterUnit, hne, if_false, hfind, h1, h2]

/-- C19: for a non-empty numeral `n` over digits and points and any text `u`,
the multiplier `filterUnit` applies to `n ++ " " ++ u` is read off the first
one or two characters of `u`: a first character among `K M G T` selects the
power of 1000, or the power of 1024 when the second character is `i`, and
anything else selects 1. -/
theorem filterUnit_multiplier_from_leading_chars (n u : String)
    (hn : n ≠ "") (hnum : ∀ c ∈ n.data, c.isDigit = true ∨ c = '.') :
    filterUnit (n ++ " " ++ u) =
      (match parseFloat32 n.data with
       | some value => String.mk (fmtG (mulFloat64 value (leadingMultiplier u.data)))
       | none => "0") := by
  have hs : n ++ " " ++ u = String.mk (n.data ++ ' ' :: u.data) := by
    apply String.ext
    simp [String.data_append]
  have hn' : n.data ≠ [] := fun h => hn (String.ext (by simpa using h))
  have hnum' : ∀ x ∈ n.data, isNumChar x = true := by
    intro x hx
    rcases hnum x hx with h | h
    · simp [isNumChar, isDigit, h]
    · simp [isNumChar, h]
  rw [hs]
  exact filterUnit_leading n.data u.data hn' hnum'

/-- C19 at "5 T", and the values of "5 T", "5 kB", "5 PB" and "5 iB". -/
theorem filterUnit_multiplier_from_leading_chars_witness :
    ("5" ≠ "" ∧ (∀ c ∈ "5".data, c.isDigit = true ∨ c = '.')) ∧
    filterUnit ("5" ++ " " ++ "T") =
      (match parseFloat32 "5".data with
       | some value => String.mk (fmtG (mulFloat64 value (leadingMultiplier "T".data)))
       | none => "0") ∧
    leadingMultiplier "T".data = 10 ^ 12 ∧ filterUnit "5 T" = "5e+12" ∧
    leadingMultiplier "kB".data = 1 ∧ filterUnit "5 kB" = "5" ∧
    leadingMultiplier "PB".data = 1 ∧ filterUnit "5 PB" = "5" ∧
    leadingMultiplier "iB".data = 1 ∧ filterUnit "5 iB" = "5" :=
  ⟨⟨by decide, by decide⟩,
    filterUnit_multiplier_from_leading_chars "5" "T" (by decide) (by decide),
    by decide, by decide, by decide, by decide, by decide, by decide, by decide, by decide⟩

end NvidiaSmi

namespace NvidiaSmi

/-! ## Rounding, in rational arithmetic -/

theorem zpow_split (b : ℚ) (z : Int) :
    b ^ z = b ^ z.toNat / b ^ (-z).toNat := by
  rcases le_total 0 z with h | h
  · have h0 : (-z).toNat = 0 := by omega
    rw [h0, pow_zero, div_one]
    conv_lhs => rw [← Int.toNat_of_nonneg h]
    exact zpow_natCast b _
  · have h0 : z.toNat = 0 := by omega
    have hz : z = -((-z).toNat : ℤ) := by omega
    rw [h0, pow_zero, one_div]
    conv_lhs => rw [hz]
    rw [zpow_neg, zpow_natCast]

/-- The scaled quotient formed by `roundFloat` is `num / den / 2 ^ s`. -/
theorem scaled_quotient (num den : Nat) (b : Nat) (hb : (b : ℚ) ≠ 0) (z : Int) :
    (((num * b ^ (-z).toNat : Nat) : ℚ) / ((den * b ^ z.toNat : Nat) : ℚ)) =
      (num : ℚ) / den / (b : ℚ) ^ z := by
  have h1 : ((b : ℚ) ^ z.toNat) ≠ 0 := pow_ne_zero _ hb
  have h2 : ((b : ℚ) ^ (-z).toNat) ≠ 0 := pow_ne_zero _ hb
  rw [zpow_split (b : ℚ) z]
  push_cast
  by_cases hd : (den : ℚ) = 0
  · simp [hd]
  · field_simp

theorem floorLog2_bounds (n : Nat) (hn : 0 < n) :
    2 ^ floorLog2 n ≤ n ∧ n < 2 ^ (floorLog2 n + 1) := by
  rw [floorLog2_eq_log]
  exact ⟨Nat.pow_log_le_self 2 (by omega), Nat.lt_pow_succ_log_self (by decide) n⟩

/-- `floorLog2Ratio` is the binary exponent of `a / b`. -/
theorem floorLog2Ratio_spec (a b : Nat) (ha : 0 < a) (hb : 0 < b) :
    (2 : ℚ) ^ floorLog2Ratio a b ≤ (a : ℚ) / b ∧
    (a : ℚ) / b < (2 : ℚ) ^ (floorLog2Ratio a b + 1) := by
  obtain ⟨ha1, ha2⟩ := floorLog2_bounds a ha
  obtain ⟨hb1, hb2⟩ := floorLog2_bounds b hb
  have hbq : (0 : ℚ) < b := by exact_mod_cast hb
  have haq : (0 : ℚ) < a := by exact_mod_cast ha
  have ha1q : (2 : ℚ) ^ floorLog2 a ≤ a := by exact_mod_cast ha1
  have ha2q : (a : ℚ) < (2 : ℚ) ^ (floorLog2 a + 1) := by exact_mod_cast ha2
  have hb1q : (2 : ℚ) ^ floorLog2 b ≤ b := by exact_mod_cast hb1
  have hb2q : (b : ℚ) < (2 : ℚ) ^ (floorLog2 b + 1) := by exact_mod_cast hb2
  have h2 : (2 : ℚ) ≠ 0 := by norm_num
  have hpos : ∀ z : ℤ, (0 : ℚ) < (2 : ℚ) ^ z := fun z => zpow_pos (by norm_num) z
  set e0 : ℤ := (floorLog2 a : ℤ) - (floorLog2 b : ℤ) with he0
  -- a / b is strictly between 2 ^ (e0 - 1) and 2 ^ (e0 + 1)
  have hup : (a : ℚ) / b < (2 : ℚ) ^ (e0 + 1) := by
    have : (2 : ℚ) ^ (e0 + 1) = (2 : ℚ) ^ (floorLog2 a + 1) / (2 : ℚ) ^ floorLog2 b := by
      rw [he0, ← zpow_natCast, ← zpow_natCast, ← zpow_sub₀ h2]
      congr 1
      push_cast
      ring
    rw [this, div_lt_div_iff₀ hbq (pow_pos (by norm_num) _)]
    calc (a : ℚ) * 2 ^ floorLog2 b < 2 ^ (floorLog2 a + 1) * 2 ^ floorLog2 b := by
          apply mul_lt_mul_of_pos_right ha2q (pow_pos (by norm_num) _)
      _ ≤ 2 ^ (floorLog2 a + 1) * b := by
          apply mul_le_mul_of_nonneg_left hb1q (le_of_lt (pow_pos (by norm_num) _))
  have hlow : (2 : ℚ) ^ (e0 - 1) < (a : ℚ) / b := by
    have : (2 : ℚ) ^ (e0 - 1) = (2 : ℚ) ^ floorLog2 a / (2 : ℚ) ^ (floorLog2 b + 1) := by
      rw [he0, ← zpow_natCast, ← zpow_natCast, ← zpow_sub₀ h2]
      congr 1
      push_cast
      ring
    rw [this, div_lt_div_iff₀ (pow_pos (by norm_num) _) hbq]
    calc (2 : ℚ) ^ floorLog2 a * b < 2 ^ floorLog2 a * 2 ^ (floorLog2 b + 1) := by
          apply mul_lt_mul_of_pos_left hb2q (pow_pos (by norm_num) _)
      _ ≤ a * 2 ^ (floorLog2 b + 1) := by
          apply mul_le_mul_of_nonneg_right ha1q (le_of_lt (pow_pos (by norm_num) _))
  -- the test compares a / b with 2 ^ e0
  have htest : (b * 2 ^ e0.toNat ≤ a * 2 ^ (-e0).toNat) ↔ (2 : ℚ) ^ e0 ≤ (a : ℚ) / b := by
    rw [zpow_split 2 e0, div_le_div_iff₀ (pow_pos (by norm_num) _) hbq]
    constructor
    · intro h
      have : ((b * 2 ^ e0.toNat : ℕ) : ℚ) ≤ ((a * 2 ^ (-e0).toNat : ℕ) : ℚ) := by exact_mod_cast h
      push_cast at this
      linarith
    · intro h
      have : ((b * 2 ^ e0.toNat : ℕ) : ℚ) ≤ ((a * 2 ^ (-e0).toNat : ℕ) : ℚ) := by
        push_cast
        linarith
      exact_mod_cast this
  unfold floorLog2Ratio
  simp only [← he0]
  by_cases ht : b * 2 ^ e0.toNat ≤ a * 2 ^ (-e0).toNat
  · rw [if_pos ht]
    exact ⟨htest.1 ht, hup⟩
  · rw [if_neg ht]
    refine ⟨le_of_lt hlow, ?_⟩
    have : ¬ (2 : ℚ) ^ e0 ≤ (a : ℚ) / b := fun h => ht (htest.2 h)
    rw [show e0 - 1 + 1 = e0 by ring]
    exact lt_of_not_le this

end NvidiaSmi

namespace NvidiaSmi

/-- `roundHalfEven n d` is within one half of `n / d`, and even on a tie. -/
theorem roundHalfEven_spec (n d : Nat) (hd : 0 < d) :
    ((roundHalfEven n d : ℚ) - 1 / 2 ≤ (n : ℚ) / d ∧ (n : ℚ) / d ≤ (roundHalfEven n d : ℚ) + 1 / 2) ∧
    ((n : ℚ) / d = (roundHalfEven n d : ℚ) - 1 / 2 ∨ (n : ℚ) / d = (roundHalfEven n d : ℚ) + 1 / 2 →
      roundHalfEven n d % 2 = 0) := by
  have hdq : (0 : ℚ) < d := by exact_mod_cast hd
  have hdiv : (n : ℚ) / d = (n / d : ℕ) + ((n % d : ℕ) : ℚ) / d := by
    have h := Nat.div_add_mod n d
    have hq : ((d * (n / d) + n % d : ℕ) : ℚ) = (n : ℚ) := by exact_mod_cast h
    push_cast at hq
    field_simp
    linarith
  have hr : n % d < d := Nat.mod_lt n hd
  have hr0 : (0 : ℚ) ≤ ((n % d : ℕ) : ℚ) / d := by positivity
  by_cases h1 : 2 * (n % d) < d
  · have hM : roundHalfEven n d = n / d := by simp [roundHalfEven, h1]
    have hlt : ((n % d : ℕ) : ℚ) / d < 1 / 2 := by
      rw [div_lt_iff₀ hdq]
      have : ((2 * (n % d) : ℕ) : ℚ) < (d : ℚ) := by exact_mod_cast h1
      push_cast at this
      linarith
    rw [hM, hdiv]
    refine ⟨⟨by linarith, by linarith⟩, ?_⟩
    rintro (h | h) <;> linarith
  · by_cases h2 : d < 2 * (n % d)
    · have hM : roundHalfEven n d = n / d + 1 := by simp [roundHalfEven, h1, h2]
      have hgt : 1 / 2 < ((n % d : ℕ) : ℚ) / d := by
        rw [lt_div_iff₀ hdq]
        have : (d : ℚ) < ((2 * (n % d) : ℕ) : ℚ) := by exact_mod_cast h2
        push_cast at this
        linarith
      have hlt : ((n % d : ℕ) : ℚ) / d < 1 := by
        rw [div_lt_one hdq]
        exact_mod_cast hr
      rw [hM, hdiv]
      push_cast
      refine ⟨⟨by linarith, by linarith⟩, ?_⟩
      rintro (h | h) <;> linarith
    · have heq : 2 * (n % d) = d := by omega
      have hhalf : ((n % d : ℕ) : ℚ) / d = 1 / 2 := by
        rw [div_eq_iff (ne_of_gt hdq)]
        have : ((2 * (n % d) : ℕ) : ℚ) = (d : ℚ) := by exact_mod_cast heq
        push_cast at this
        linarith
      by_cases h3 : n / d % 2 = 0
      · have hM : roundHalfEven n d = n / d := by simp [roundHalfEven, h1, h2, h3]
        rw [hM, hdiv, hhalf]
        exact ⟨⟨by linarith, by linarith⟩, fun _ => h3⟩
      · have hM : roundHalfEven n d = n / d + 1 := by simp [roundHalfEven, h1, h2, h3]
        rw [hM, hdiv, hhalf]
        push_cast
        refine ⟨⟨by linarith, by linarith⟩, fun _ => ?_⟩
        omega

/-- The integer within one half of `n / d` that is even on a tie is
`roundHalfEven n d`. -/
theorem roundHalfEven_unique (n d M : Nat) (hd : 0 < d)
    (h1 : (M : ℚ) - 1 / 2 ≤ (n : ℚ) / d) (h2 : (n : ℚ) / d ≤ (M : ℚ) + 1 / 2)
    (h3 : (n : ℚ) / d = (M : ℚ) - 1 / 2 ∨ (n : ℚ) / d = (M : ℚ) + 1 / 2 → M % 2 = 0) :
    roundHalfEven n d = M := by
  obtain ⟨⟨s1, s2⟩, s3⟩ := roundHalfEven_spec n d hd
  set R := roundHalfEven n d with hR
  have hle1 : (R : ℚ) ≤ (M : ℚ) + 1 := by linarith
  have hle2 : (M : ℚ) ≤ (R : ℚ) + 1 := by linarith
  have hle1' : R ≤ M + 1 := by exact_mod_cast hle1
  have hle2' : M ≤ R + 1 := by exact_mod_cast hle2
  rcases Nat.lt_trichotomy R M with hlt | heq | hgt
  · have hM : M = R + 1 := by omega
    have hMq : (M : ℚ) = (R : ℚ) + 1 := by exact_mod_cast hM
    have e1 : (n : ℚ) / d = (M : ℚ) - 1 / 2 := by linarith
    have e2 : (n : ℚ) / d = (R : ℚ) + 1 / 2 := by linarith
    have := h3 (Or.inl e1)
    have := s3 (Or.inr e2)
    omega
  · exact heq
  · have hM : R = M + 1 := by omega
    have hMq : (R : ℚ) = (M : ℚ) + 1 := by exact_mod_cast hM
    have e1 : (n : ℚ) / d = (M : ℚ) + 1 / 2 := by linarith
    have e2 : (n : ℚ) / d = (R : ℚ) - 1 / 2 := by linarith
    have := h3 (Or.inr e1)
    have := s3 (Or.inl e2)
    omega

end NvidiaSmi

namespace NvidiaSmi

theorem exponent_lt {q : ℚ} {a b : ℤ} (h1 : (2 : ℚ) ^ a ≤ q) (h2 : q < (2 : ℚ) ^ b) : a < b :=
  (zpow_lt_zpow_iff_right₀ (by norm_num : (1 : ℚ) < 2)).1 (lt_of_le_of_lt h1 h2)

/-- The scaled quotient of `roundFloat` for base 2. -/
theorem scaled_quotient_two (num den : Nat) (z : Int) :
    (((num * 2 ^ (-z).toNat : Nat) : ℚ) / ((den * 2 ^ z.toNat : Nat) : ℚ)) =
      (num : ℚ) / den / (2 : ℚ) ^ z := by
  have := scaled_quotient num den 2 (by norm_num) z
  simpa using this

/-- `roundFloat` returns the integer nearest to the quotient scaled by the
unit in the last place, renormalised when it reaches `2 ^ 53`. -/
theorem roundFloat_eq (num den : Nat) (hnum : 0 < num) (hden : 0 < den) (s : Int) (M : Nat)
    (hs : s = max (floorLog2Ratio num den) (-1022) - 52)
    (h1 : (M : ℚ) - 1 / 2 ≤ (num : ℚ) / den / (2 : ℚ) ^ s)
    (h2 : (num : ℚ) / den / (2 : ℚ) ^ s ≤ (M : ℚ) + 1 / 2)
    (h3 : (num : ℚ) / den / (2 : ℚ) ^ s = (M : ℚ) - 1 / 2 ∨
      (num : ℚ) / den / (2 : ℚ) ^ s = (M : ℚ) + 1 / 2 → M % 2 = 0) :
    roundFloat 53 (-1022) num den = if M = 2 ^ 53 then ⟨2 ^ 52, s + 1⟩ else ⟨M, s⟩ := by
  have hne : num ≠ 0 := by omega
  have hs' : max (floorLog2Ratio num den) (-1022) - (((53 : ℕ) : ℤ) - 1) = s := by
    rw [hs]
    norm_num
  have hD : 0 < den * 2 ^ s.toNat := Nat.mul_pos hden (by positivity)
  have hM : roundHalfEven (num * 2 ^ (-s).toNat) (den * 2 ^ s.toNat) = M := by
    apply roundHalfEven_unique _ _ M hD
    · rw [scaled_quotient_two]; exact h1
    · rw [scaled_quotient_two]; exact h2
    · rw [scaled_quotient_two]; exact h3
  simp only [roundFloat, hne, if_false, hs', hM]

/-- The integer nearest to the scaled quotient, as `roundFloat` computes it. -/
theorem roundFloat_unfold (num den : Nat) (hnum : 0 < num) :
    roundFloat 53 (-1022) num den =
      (let s := max (floorLog2Ratio num den) (-1022) - 52
       let M := roundHalfEven (num * 2 ^ (-s).toNat) (den * 2 ^ s.toNat)
       if M = 2 ^ 53 then ⟨2 ^ 52, s + 1⟩ else ⟨M, s⟩) := by
  have hne : num ≠ 0 := by omega
  have hs' : max (floorLog2Ratio num den) (-1022) - (((53 : ℕ) : ℤ) - 1) =
      max (floorLog2Ratio num den) (-1022) - 52 := by norm_num
  simp only [roundFloat, hne, if_false, hs']

end NvidiaSmi

namespace NvidiaSmi

theorem two_zpow_pos (z : ℤ) : (0 : ℚ) < (2 : ℚ) ^ z := zpow_pos (by norm_num) z

theorem floatVal_eta (v : FloatVal) : (⟨v.mant, v.exp⟩ : FloatVal) = v := by
  cases v
  rfl

/-- Bounds shared by the cases of the rounding proofs: the quotient scaled by
the unit of `v` lies between the scaled ends, and is not a tie unless the
mantissa is even. -/
theorem roundsTo_scaled (v : FloatVal) (q : ℚ) (h : RoundsTo v q) :
    ((if v.mant = 2 ^ 52 ∧ -1074 < v.exp then (v.mant : ℚ) - 1 / 4 else (v.mant : ℚ) - 1 / 2)
        ≤ q / (2 : ℚ) ^ v.exp ∧ q / (2 : ℚ) ^ v.exp ≤ (v.mant : ℚ) + 1 / 2) ∧
    (q / (2 : ℚ) ^ v.exp = (v.mant : ℚ) - 1 / 2 ∨ q / (2 : ℚ) ^ v.exp = (v.mant : ℚ) + 1 / 2 →
      v.mant % 2 = 0) := by
  have hp := two_zpow_pos v.exp
  unfold RoundsTo FloatVal.lowerEnd FloatVal.upperEnd at h
  have hlo : (v.mant : ℚ) - 1 / 2 ≤
      (if v.mant = 2 ^ 52 ∧ -1074 < v.exp then (v.mant : ℚ) - 1 / 4 else (v.mant : ℚ) - 1 / 2) := by
    split <;> linarith
  by_cases hpar : v.mant % 2 = 0
  · rw [if_pos hpar] at h
    exact ⟨⟨(le_div_iff₀ hp).2 h.1, (div_le_iff₀ hp).2 h.2⟩, fun _ => hpar⟩
  · rw [if_neg hpar] at h
    have h1 := (lt_div_iff₀ hp).2 h.1
    have h2 := (div_lt_iff₀ hp).2 h.2
    refine ⟨⟨le_of_lt h1, le_of_lt h2⟩, ?_⟩
    rintro (h3 | h3)
    · exfalso; linarith
    · exfalso; linarith

/-- A rational in the rounding interval of a float64 is rounded to it. -/
theorem roundFloat_of_roundsTo (v : FloatVal) (hv : IsFloat64 v) (num den : Nat)
    (hden : 0 < den) (h : RoundsTo v ((num : ℚ) / den)) :
    roundFloat 53 (-1022) num den = v := by
  obtain ⟨⟨hlo, hhi⟩, htie⟩ := roundsTo_scaled v _ h
  have hp := two_zpow_pos v.exp
  have hdenq : (0 : ℚ) < den := by exact_mod_cast hden
  have hm1 : (1 : ℚ) ≤ v.mant := by
    have : 0 < v.mant := by
      rcases hv with ⟨h1, _, _⟩ | ⟨h1, _, _⟩
      · exact lt_of_lt_of_le (by norm_num) h1
      · exact h1
    exact_mod_cast this
  have hρpos : 0 < (num : ℚ) / den / (2 : ℚ) ^ v.exp := by
    have : (0 : ℚ) <
        (if v.mant = 2 ^ 52 ∧ -1074 < v.exp then (v.mant : ℚ) - 1 / 4 else (v.mant : ℚ) - 1 / 2) := by
      split <;> linarith
    linarith
  have hnum : 0 < num := by
    rcases Nat.eq_zero_or_pos num with h0 | h0
    · rw [h0] at hρpos
      simp at hρpos
    · exact h0
  obtain ⟨hfl1, hfl2⟩ := floorLog2Ratio_spec num den hnum hden
  -- the quotient in units of `2 ^ v.exp`
  have hq : (num : ℚ) / den = (num : ℚ) / den / (2 : ℚ) ^ v.exp * (2 : ℚ) ^ v.exp := by
    field_simp
    ring
  set ρ := (num : ℚ) / den / (2 : ℚ) ^ v.exp with hρ
  have hpow : ∀ a : ℤ, (2 : ℚ) ^ (a + v.exp) = (2 : ℚ) ^ a * (2 : ℚ) ^ v.exp := fun a =>
    zpow_add₀ (by norm_num) a v.exp
  have h52 : (2 : ℚ) ^ (52 : ℤ) = 2 ^ 52 := by norm_cast
  have h53 : (2 : ℚ) ^ (53 : ℤ) = 2 ^ 53 := by norm_cast
  have h51 : (2 : ℚ) ^ (51 : ℤ) = 2 ^ 51 := by norm_cast
  by_cases hI : (2 : ℚ) ^ 52 ≤ ρ ∧ 2 ^ 52 ≤ v.mant
  · -- the quotient is in the binade of `v`
    obtain ⟨hI1, hI2⟩ := hI
    have hmlt : v.mant < 2 ^ 53 := by
      rcases hv with ⟨_, h2, _⟩ | ⟨_, h2, _⟩
      · exact h2
      · exact lt_trans h2 (by norm_num)
    have hexp : -1074 ≤ v.exp := by
      rcases hv with ⟨_, _, h3⟩ | ⟨_, _, h3⟩
      · exact h3
      · omega
    have hmq : (v.mant : ℚ) ≤ 2 ^ 53 - 1 := by
      have h' : (v.mant : ℚ) + 1 ≤ 2 ^ 53 := by exact_mod_cast hmlt
      linarith
    have hfl : floorLog2Ratio num den = 52 + v.exp := by
      have a1 : floorLog2Ratio num den < 53 + v.exp := by
        apply exponent_lt hfl1
        rw [hq, hpow, h53]
        apply mul_lt_mul_of_pos_right _ hp
        linarith
      have a2 : 52 + v.exp < floorLog2Ratio num den + 1 := by
        refine exponent_lt ?_ hfl2
        rw [hq, hpow, h52]
        exact mul_le_mul_of_nonneg_right hI1 (le_of_lt hp)
      omega
    have hs : v.exp = max (floorLog2Ratio num den) (-1022) - 52 := by
      rw [hfl]
      omega
    have hlo' : (v.mant : ℚ) - 1 / 2 ≤ ρ := by
      refine le_trans ?_ hlo
      split <;> linarith
    rw [roundFloat_eq num den hnum hden v.exp v.mant hs hlo' hhi htie,
      if_neg (Nat.ne_of_lt hmlt)]
  · rcases hv with ⟨hv1, hv2, hv3⟩ | ⟨hv1, hv2, hv3⟩
    · -- just below a power of two
      have hρlt : ρ < 2 ^ 52 := by
        by_contra hc
        exact hI ⟨not_lt.1 hc, hv1⟩
      have hm : v.mant = 2 ^ 52 := by
        by_contra hne
        have h0 : 2 ^ 52 + 1 ≤ v.mant := by omega
        have h' : (2 : ℚ) ^ 52 + 1 ≤ (v.mant : ℚ) := by exact_mod_cast h0
        have : (v.mant : ℚ) - 1 / 2 ≤ ρ := by
          refine le_trans ?_ hlo
          split <;> linarith
        linarith
      have hmq : (v.mant : ℚ) = 2 ^ 52 := by
        rw [hm]
        norm_num
      by_cases he : -1074 < v.exp
      · rw [if_pos ⟨hm, he⟩, hmq] at hlo
        have hfl : floorLog2Ratio num den = 51 + v.exp := by
          have a1 : floorLog2Ratio num den < 52 + v.exp := by
            apply exponent_lt hfl1
            rw [hq, hpow, h52]
            exact mul_lt_mul_of_pos_right hρlt hp
          have a2 : 51 + v.exp < floorLog2Ratio num den + 1 := by
            refine exponent_lt ?_ hfl2
            rw [hq, hpow, h51]
            apply mul_le_mul_of_nonneg_right _ (le_of_lt hp)
            linarith
          omega
        have hs : v.exp - 1 = max (floorLog2Ratio num den) (-1022) - 52 := by
          rw [hfl]
          omega
        have hscale : (num : ℚ) / den / (2 : ℚ) ^ (v.exp - 1) = 2 * ρ := by
          rw [hρ, zpow_sub_one₀ (by norm_num)]
          field_simp
          ring
        have r := roundFloat_eq num den hnum hden (v.exp - 1) (2 ^ 53) hs
          (by rw [hscale]; push_cast; linarith) (by rw [hscale]; push_cast; linarith)
          (fun _ => by norm_num)
        rw [r, if_pos rfl, ← hm]
        have : v.exp - 1 + 1 = v.exp := by ring
        rw [this]
      · have he' : v.exp = -1074 := by omega
        have hfl : floorLog2Ratio num den < -1022 := by
          have a1 : floorLog2Ratio num den < 52 + v.exp := by
            apply exponent_lt hfl1
            rw [hq, hpow, h52]
            exact mul_lt_mul_of_pos_right hρlt hp
          omega
        have hs : v.exp = max (floorLog2Ratio num den) (-1022) - 52 := by
          rw [he']
          omega
        have hlo' : (v.mant : ℚ) - 1 / 2 ≤ ρ := by
          refine le_trans ?_ hlo
          split <;> linarith
        rw [roundFloat_eq num den hnum hden v.exp v.mant hs hlo' hhi htie,
          if_neg (by rw [hm]; norm_num)]
    · -- subnormal
      have hmq : (v.mant : ℚ) ≤ 2 ^ 52 - 1 := by
        have h' : (v.mant : ℚ) + 1 ≤ 2 ^ 52 := by exact_mod_cast hv2
        linarith
      have hfl : floorLog2Ratio num den < -1022 := by
        have a1 : floorLog2Ratio num den < 52 + v.exp := by
          apply exponent_lt hfl1
          rw [hq, hpow, h52]
          apply mul_lt_mul_of_pos_right _ hp
          linarith
        omega
      have hs : v.exp = max (floorLog2Ratio num den) (-1022) - 52 := by
        rw [hv3]
        omega
      have hlo' : (v.mant : ℚ) - 1 / 2 ≤ ρ := by
        refine le_trans ?_ hlo
        split <;> linarith
      rw [roundFloat_eq num den hnum hden v.exp v.mant hs hlo' hhi htie,
        if_neg (by omega)]

end NvidiaSmi

namespace NvidiaSmi

/-- The nearest multiple of the unit `2 ^ s`, even on a tie, has the quotient
in its rounding interval. -/
theorem roundsTo_mk (M : Nat) (s : ℤ) (q : ℚ)
    (h1 : (M : ℚ) - 1 / 2 ≤ q / (2 : ℚ) ^ s) (h2 : q / (2 : ℚ) ^ s ≤ (M : ℚ) + 1 / 2)
    (h3 : q / (2 : ℚ) ^ s = (M : ℚ) - 1 / 2 ∨ q / (2 : ℚ) ^ s = (M : ℚ) + 1 / 2 → M % 2 = 0)
    (h4 : M = 2 ^ 52 → -1074 < s → (M : ℚ) - 1 / 4 ≤ q / (2 : ℚ) ^ s) :
    RoundsTo ⟨M, s⟩ q := by
  have hp := two_zpow_pos s
  unfold RoundsTo FloatVal.lowerEnd FloatVal.upperEnd
  simp only
  by_cases hpar : M % 2 = 0
  · rw [if_pos hpar]
    refine ⟨?_, (div_le_iff₀ hp).1 h2⟩
    by_cases hc : M = 2 ^ 52 ∧ -1074 < s
    · rw [if_pos hc]
      exact (le_div_iff₀ hp).1 (h4 hc.1 hc.2)
    · rw [if_neg hc]
      exact (le_div_iff₀ hp).1 h1
  · rw [if_neg hpar]
    have hc : ¬ (M = 2 ^ 52 ∧ -1074 < s) := by
      rintro ⟨hM, _⟩
      apply hpar
      rw [hM]
      norm_num
    rw [if_neg hc]
    constructor
    · apply (lt_div_iff₀ hp).1
      rcases lt_or_eq_of_le h1 with h | h
      · exact h
      · exact absurd (h3 (Or.inl h.symm)) hpar
    · apply (div_lt_iff₀ hp).1
      rcases lt_or_eq_of_le h2 with h | h
      · exact h
      · exact absurd (h3 (Or.inr h)) hpar

/-- What `roundFloat` returns, when it is not zero, is a float64 whose
rounding interval contains the quotient. -/
theorem roundFloat_roundsTo (num den : Nat) (hnum : 0 < num) (hden : 0 < den)
    (hne : (roundFloat 53 (-1022) num den).mant ≠ 0) :
    IsFloat64 (roundFloat 53 (-1022) num den) ∧
      RoundsTo (roundFloat 53 (-1022) num den) ((num : ℚ) / den) := by
  obtain ⟨hfl1, hfl2⟩ := floorLog2Ratio_spec num den hnum hden
  rw [roundFloat_unfold num den hnum] at hne ⊢
  simp only at hne ⊢
  set s : ℤ := max (floorLog2Ratio num den) (-1022) - 52 with hs
  have hD : 0 < den * 2 ^ s.toNat := Nat.mul_pos hden (by positivity)
  obtain ⟨⟨hM1, hM2⟩, hM3⟩ := roundHalfEven_spec (num * 2 ^ (-s).toNat) (den * 2 ^ s.toNat) hD
  rw [scaled_quotient_two] at hM1 hM2 hM3
  set M := roundHalfEven (num * 2 ^ (-s).toNat) (den * 2 ^ s.toNat) with hM
  have hp := two_zpow_pos s
  have hq : (num : ℚ) / den = (num : ℚ) / den / (2 : ℚ) ^ s * (2 : ℚ) ^ s := by
    field_simp
    ring
  set ρ := (num : ℚ) / den / (2 : ℚ) ^ s with hρ
  have hpow : ∀ a : ℤ, (2 : ℚ) ^ (a + s) = (2 : ℚ) ^ a * (2 : ℚ) ^ s := fun a =>
    zpow_add₀ (by norm_num) a s
  have h52 : (2 : ℚ) ^ (52 : ℤ) = 2 ^ 52 := by norm_cast
  have h53 : (2 : ℚ) ^ (53 : ℤ) = 2 ^ 53 := by norm_cast
  by_cases hcase : -1022 ≤ floorLog2Ratio num den
  · -- normal range
    have hsfl : floorLog2Ratio num den = 52 + s := by omega
    have hs1074 : -1074 ≤ s := by omega
    have hρ1 : (2 : ℚ) ^ 52 ≤ ρ := by
      rw [hsfl, hpow, h52, hq] at hfl1
      exact le_of_mul_le_mul_right hfl1 hp
    have hρ2 : ρ < (2 : ℚ) ^ 53 := by
      rw [show floorLog2Ratio num den + 1 = 53 + s by omega, hpow, h53, hq] at hfl2
      exact lt_of_mul_lt_mul_right hfl2 (le_of_lt hp)
    have hMlo : 2 ^ 52 ≤ M := by
      have : (2 : ℚ) ^ 52 - 1 < (M : ℚ) := by linarith
      have h' : ((2 ^ 52 - 1 : ℕ) : ℚ) < (M : ℚ) := by
        push_cast
        linarith
      have : 2 ^ 52 - 1 < M := by exact_mod_cast h'
      omega
    have hMhi : M ≤ 2 ^ 53 := by
      have : (M : ℚ) < (2 : ℚ) ^ 53 + 1 := by linarith
      have h' : (M : ℚ) < ((2 ^ 53 + 1 : ℕ) : ℚ) := by
        push_cast
        linarith
      have : M < 2 ^ 53 + 1 := by exact_mod_cast h'
      omega
    by_cases hcarry : M = 2 ^ 53
    · have hMq : (M : ℚ) = 2 ^ 53 := by
        rw [hcarry]
        norm_num
      rw [if_pos hcarry]
      refine ⟨Or.inl ⟨?_, ?_, ?_⟩, ?_⟩
      · show 2 ^ 52 ≤ 2 ^ 52
        exact le_refl _
      · show 2 ^ 52 < 2 ^ 53
        norm_num
      · show -1074 ≤ s + 1
        omega
      have hscale : (num : ℚ) / den / (2 : ℚ) ^ (s + 1) = ρ / 2 := by
        show (num : ℚ) / den / (2 : ℚ) ^ (s + 1) = (num : ℚ) / den / (2 : ℚ) ^ s / 2
        rw [zpow_add_one₀ (by norm_num), div_mul_eq_div_div]
      apply roundsTo_mk
      · rw [hscale]; push_cast; linarith
      · rw [hscale]; push_cast; linarith
      · intro _; norm_num
      · intro _ _
        rw [hscale]; push_cast; linarith
    · rw [if_neg hcarry]
      have hMlt : M < 2 ^ 53 := by omega
      refine ⟨Or.inl ⟨hMlo, hMlt, hs1074⟩, ?_⟩
      apply roundsTo_mk M s _ hM1 hM2 hM3
      intro hM52 _
      have : (M : ℚ) = 2 ^ 52 := by
        rw [hM52]
        norm_num
      linarith
  · -- below the normal range
    have hs1074 : s = -1074 := by omega
    have hρ2 : ρ < (2 : ℚ) ^ 52 := by
      have hlt : (num : ℚ) / den < (2 : ℚ) ^ (52 + s) := by
        refine lt_of_lt_of_le hfl2 ?_
        apply zpow_le_zpow_right₀ (by norm_num)
        omega
      rw [hpow, h52, hq] at hlt
      exact lt_of_mul_lt_mul_right hlt (le_of_lt hp)
    have hMhi : M ≤ 2 ^ 52 := by
      have : (M : ℚ) < (2 : ℚ) ^ 52 + 1 := by linarith
      have h' : (M : ℚ) < ((2 ^ 52 + 1 : ℕ) : ℚ) := by
        push_cast
        linarith
      have : M < 2 ^ 52 + 1 := by exact_mod_cast h'
      omega
    have hcarry : M ≠ 2 ^ 53 := by omega
    rw [if_neg hcarry] at hne ⊢
    have hne' : M ≠ 0 := hne
    constructor
    · by_cases h52' : M = 2 ^ 52
      · have a1 : 2 ^ 52 ≤ M := by omega
        have a2 : M < 2 ^ 53 := by omega
        have a3 : -1074 ≤ s := by omega
        exact Or.inl ⟨a1, a2, a3⟩
      · have a1 : 0 < M := by omega
        have a2 : M < 2 ^ 52 := by omega
        exact Or.inr ⟨a1, a2, hs1074⟩
    · apply roundsTo_mk M s _ hM1 hM2 hM3
      intro _ hlt
      omega

end NvidiaSmi

namespace NvidiaSmi

/-! ## The search for the shortest digits -/

theorem shortestAux_zero (X L H den : Nat) (incl : Bool) (dexp : Int) (nd : Nat) :
    shortestAux X L H den incl dexp 0 nd = (X / den, dexp - (nd : Int) + 1) := rfl

/-- One step of `shortestAux`, in terms of `floorCand` and `inInterval`. -/
theorem shortestAux_succ (X L H den : Nat) (incl : Bool) (dexp : Int) (fuel nd : Nat) :
    shortestAux X L H den incl dexp (fuel + 1) nd =
      (let k : Int := dexp - (nd : Int) + 1
       let lo := floorCand X den k
       if inInterval L H den incl k lo && inInterval L H den incl k (lo + 1) then
         (if X * 10 ^ (-k).toNat - lo * (10 ^ k.toNat * den) <
              (lo + 1) * (10 ^ k.toNat * den) - X * 10 ^ (-k).toNat then (lo, k)
          else if (lo + 1) * (10 ^ k.toNat * den) - X * 10 ^ (-k).toNat <
              X * 10 ^ (-k).toNat - lo * (10 ^ k.toNat * den) then (lo + 1, k)
          else if lo % 2 = 0 then (lo, k) else (lo + 1, k))
       else if inInterval L H den incl k lo then (lo, k)
       else if inInterval L H den incl k (lo + 1) then (lo + 1, k)
       else shortestAux X L H den incl dexp fuel (nd + 1)) := rfl

/-- The result of `shortestAux`: either the first scale at which a neighbour
of `X / den` passes the test, with that neighbour, or no scale passes. -/
theorem shortestAux_spec (X L H den : Nat) (incl : Bool) (dexp : Int) :
    ∀ (fuel nd : Nat),
      (∃ j, j < fuel ∧
        (shortestAux X L H den incl dexp fuel nd).2 = dexp - ((nd + j : Nat) : Int) + 1 ∧
        ((shortestAux X L H den incl dexp fuel nd).1 =
            floorCand X den (dexp - ((nd + j : Nat) : Int) + 1) ∨
          (shortestAux X L H den incl dexp fuel nd).1 =
            floorCand X den (dexp - ((nd + j : Nat) : Int) + 1) + 1) ∧
        inInterval L H den incl (dexp - ((nd + j : Nat) : Int) + 1)
          (shortestAux X L H den incl dexp fuel nd).1 = true ∧
        ∀ i, i < j →
          inInterval L H den incl (dexp - ((nd + i : Nat) : Int) + 1)
            (floorCand X den (dexp - ((nd + i : Nat) : Int) + 1)) = false ∧
          inInterval L H den incl (dexp - ((nd + i : Nat) : Int) + 1)
            (floorCand X den (dexp - ((nd + i : Nat) : Int) + 1) + 1) = false) ∨
      (∀ i, i < fuel →
          inInterval L H den incl (dexp - ((nd + i : Nat) : Int) + 1)
            (floorCand X den (dexp - ((nd + i : Nat) : Int) + 1)) = false ∧
          inInterval L H den incl (dexp - ((nd + i : Nat) : Int) + 1)
            (floorCand X den (dexp - ((nd + i : Nat) : Int) + 1) + 1) = false) := by
  intro fuel
  induction fuel with
  | zero =>
    intro nd
    right
    intro i hi
    omega
  | succ fuel ih =>
    intro nd
    rw [shortestAux_succ]
    simp only
    set k : Int := dexp - (nd : Int) + 1 with hk
    have hk0 : dexp - ((nd + 0 : Nat) : Int) + 1 = k := by simp [hk]
    set lo := floorCand X den k with hlo
    by_cases h1 : inInterval L H den incl k lo = true
    · by_cases h2 : inInterval L H den incl k (lo + 1) = true
      · left
        refine ⟨0, by omega, ?_⟩
        have hab : (inInterval L H den incl k lo && inInterval L H den incl k (lo + 1)) = true := by
          rw [h1, h2]
          rfl
        rw [if_pos hab, hk0]
        split
        · exact ⟨rfl, Or.inl rfl, h1, fun i hi => absurd hi (Nat.not_lt_zero i)⟩
        · split
          · exact ⟨rfl, Or.inr rfl, h2, fun i hi => absurd hi (Nat.not_lt_zero i)⟩
          · split
            · exact ⟨rfl, Or.inl rfl, h1, fun i hi => absurd hi (Nat.not_lt_zero i)⟩
            · exact ⟨rfl, Or.inr rfl, h2, fun i hi => absurd hi (Nat.not_lt_zero i)⟩
      · left
        refine ⟨0, by omega, ?_⟩
        have hab : ¬ (inInterval L H den incl k lo && inInterval L H den incl k (lo + 1)) = true := by
          simp [h2]
        rw [if_neg hab, if_pos h1, hk0]
        exact ⟨rfl, Or.inl rfl, h1, fun i hi => absurd hi (Nat.not_lt_zero i)⟩
    · have hab : ¬ (inInterval L H den incl k lo && inInterval L H den incl k (lo + 1)) = true := by
        simp [h1]
      rw [if_neg hab, if_neg h1]
      by_cases h2 : inInterval L H den incl k (lo + 1) = true
      · left
        refine ⟨0, by omega, ?_⟩
        rw [if_pos h2, hk0]
        exact ⟨rfl, Or.inr rfl, h2, fun i hi => absurd hi (Nat.not_lt_zero i)⟩
      · have h1' : inInterval L H den incl k lo = false := by simpa using h1
        have h2' : inInterval L H den incl k (lo + 1) = false := by simpa using h2
        rw [if_neg h2]
        have hshift : ∀ i : Nat, ((nd + 1 + i : Nat) : Int) = ((nd + (i + 1) : Nat) : Int) := by
          intro i
          push_cast
          ring
        rcases ih (nd + 1) with ⟨j, hj, e1, e2, e3, e4⟩ | hall
        · left
          refine ⟨j + 1, by omega, ?_, ?_, ?_, ?_⟩
          · rw [e1, hshift]
          · rw [← hshift]; exact e2
          · rw [← hshift]; exact e3
          · intro i hi
            cases i with
            | zero => rw [hk0]; exact ⟨h1', h2'⟩
            | succ i =>
              rw [← hshift]
              exact e4 i (by omega)
        · right
          intro i hi
          cases i with
          | zero => rw [hk0]; exact ⟨h1', h2'⟩
          | succ i =>
            rw [← hshift]
            exact hall i (by omega)

end NvidiaSmi

namespace NvidiaSmi

theorem ten_zpow_pos (z : ℤ) : (0 : ℚ) < (10 : ℚ) ^ z := zpow_pos (by norm_num) z

/-- Membership in the interval `[L / den, H / den]`, ends included when `incl`. -/
theorem inInterval_iff (L H den : Nat) (hden : 0 < den) (incl : Bool) (k : Int) (c : Nat) :
    inInterval L H den incl k c = true ↔
      (if incl = true then
        (L : ℚ) / den ≤ (c : ℚ) * (10 : ℚ) ^ k ∧ (c : ℚ) * (10 : ℚ) ^ k ≤ (H : ℚ) / den
       else
        (L : ℚ) / den < (c : ℚ) * (10 : ℚ) ^ k ∧ (c : ℚ) * (10 : ℚ) ^ k < (H : ℚ) / den) := by
  have hdq : (0 : ℚ) < den := by exact_mod_cast hden
  have hP : (0 : ℚ) < (10 : ℚ) ^ k.toNat := pow_pos (by norm_num) _
  have hQ : (0 : ℚ) < (10 : ℚ) ^ (-k).toNat := pow_pos (by norm_num) _
  have hle : ∀ A : Nat, (A * 10 ^ (-k).toNat ≤ c * (10 ^ k.toNat * den)) ↔
      (A : ℚ) / den ≤ (c : ℚ) * (10 : ℚ) ^ k := by
    intro A
    rw [zpow_split 10 k, ← mul_div_assoc, div_le_div_iff₀ hdq hQ]
    constructor
    · intro h
      have : ((A * 10 ^ (-k).toNat : ℕ) : ℚ) ≤ ((c * (10 ^ k.toNat * den) : ℕ) : ℚ) := by
        exact_mod_cast h
      push_cast at this
      linarith
    · intro h
      have : ((A * 10 ^ (-k).toNat : ℕ) : ℚ) ≤ ((c * (10 ^ k.toNat * den) : ℕ) : ℚ) := by
        push_cast
        linarith
      exact_mod_cast this
  have hge : ∀ A : Nat, (c * (10 ^ k.toNat * den) ≤ A * 10 ^ (-k).toNat) ↔
      (c : ℚ) * (10 : ℚ) ^ k ≤ (A : ℚ) / den := by
    intro A
    rw [zpow_split 10 k, ← mul_div_assoc, div_le_div_iff₀ hQ hdq]
    constructor
    · intro h
      have : ((c * (10 ^ k.toNat * den) : ℕ) : ℚ) ≤ ((A * 10 ^ (-k).toNat : ℕ) : ℚ) := by
        exact_mod_cast h
      push_cast at this
      linarith
    · intro h
      have : ((c * (10 ^ k.toNat * den) : ℕ) : ℚ) ≤ ((A * 10 ^ (-k).toNat : ℕ) : ℚ) := by
        push_cast
        linarith
      exact_mod_cast this
  have hlt : ∀ A : Nat, (A * 10 ^ (-k).toNat < c * (10 ^ k.toNat * den)) ↔
      (A : ℚ) / den < (c : ℚ) * (10 : ℚ) ^ k := by
    intro A
    rw [← not_le, ← not_le, hge A]
  have hgt : ∀ A : Nat, (c * (10 ^ k.toNat * den) < A * 10 ^ (-k).toNat) ↔
      (c : ℚ) * (10 : ℚ) ^ k < (A : ℚ) / den := by
    intro A
    rw [← not_le, ← not_le, hle A]
  unfold inInterval
  cases incl with
  | true => simp only [if_true, Bool.and_eq_true, decide_eq_true_eq, hle L, hge H]
  | false =>
    simp only [Bool.false_eq_true, if_false, Bool.and_eq_true, decide_eq_true_eq, hlt L, hgt H]

/-- `floorCand` is the floor of `X / den` at the scale `10 ^ k`. -/
theorem floorCand_spec (X den : Nat) (hden : 0 < den) (k : Int) :
    (floorCand X den k : ℚ) * (10 : ℚ) ^ k ≤ (X : ℚ) / den ∧
    (X : ℚ) / den < ((floorCand X den k : ℚ) + 1) * (10 : ℚ) ^ k := by
  have hdq : (0 : ℚ) < den := by exact_mod_cast hden
  have hP : (0 : ℚ) < (10 : ℚ) ^ k.toNat := pow_pos (by norm_num) _
  have hQ : (0 : ℚ) < (10 : ℚ) ^ (-k).toNat := pow_pos (by norm_num) _
  have hD : 0 < 10 ^ k.toNat * den := Nat.mul_pos (by positivity) hden
  have h1 : floorCand X den k * (10 ^ k.toNat * den) ≤ X * 10 ^ (-k).toNat :=
    Nat.div_mul_le_self _ _
  have h2 : X * 10 ^ (-k).toNat < (floorCand X den k + 1) * (10 ^ k.toNat * den) := by
    have := Nat.lt_succ_self (X * 10 ^ (-k).toNat / (10 ^ k.toNat * den))
    exact (Nat.div_lt_iff_lt_mul hD).1 this
  have h1q : ((floorCand X den k * (10 ^ k.toNat * den) : ℕ) : ℚ) ≤
      ((X * 10 ^ (-k).toNat : ℕ) : ℚ) := by exact_mod_cast h1
  have h2q : ((X * 10 ^ (-k).toNat : ℕ) : ℚ) <
      (((floorCand X den k + 1) * (10 ^ k.toNat * den) : ℕ) : ℚ) := by exact_mod_cast h2
  push_cast at h1q h2q
  rw [zpow_split 10 k]
  constructor
  · rw [← mul_div_assoc, div_le_div_iff₀ hQ hdq]
    linarith
  · rw [← mul_div_assoc, div_lt_div_iff₀ hdq hQ]
    linarith

end NvidiaSmi

namespace NvidiaSmi

/-- A number between a member of the interval and its centre is a member. -/
theorem interval_convex (lo hi x y z : ℚ) (incl : Bool)
    (hx : lo < x ∧ x < hi)
    (hy : if incl = true then lo ≤ y ∧ y ≤ hi else lo < y ∧ y < hi)
    (hz : (y ≤ z ∧ z ≤ x) ∨ (x ≤ z ∧ z ≤ y)) :
    if incl = true then lo ≤ z ∧ z ≤ hi else lo < z ∧ z < hi := by
  cases incl with
  | true =>
    simp only [if_true] at hy ⊢
    rcases hz with ⟨h1, h2⟩ | ⟨h1, h2⟩
    · exact ⟨by linarith, by linarith [hx.2]⟩
    · exact ⟨by linarith [hx.1], by linarith⟩
  | false =>
    simp only [Bool.false_eq_true, if_false] at hy ⊢
    rcases hz with ⟨h1, h2⟩ | ⟨h1, h2⟩
    · exact ⟨by linarith, by linarith [hx.2]⟩
    · exact ⟨by linarith [hx.1], by linarith⟩

/-- When both neighbours of `X / den` at the scale of `n` digits are outside
the interval, no decimal with at most `n` digits is inside. -/
theorem no_short_decimal (X L H den : Nat) (hden : 0 < den) (incl : Bool) (dexp : Int)
    (n : Nat) (hn : 1 ≤ n)
    (hx : (L : ℚ) / den < (X : ℚ) / den ∧ (X : ℚ) / den < (H : ℚ) / den)
    (hdexp : (10 : ℚ) ^ dexp ≤ (X : ℚ) / den)
    (hlo : inInterval L H den incl (dexp - (n : Int) + 1)
      (floorCand X den (dexp - (n : Int) + 1)) = false)
    (hhi : inInterval L H den incl (dexp - (n : Int) + 1)
      (floorCand X den (dexp - (n : Int) + 1) + 1) = false)
    (c : Nat) (k : Int) (hc : c < 10 ^ n)
    (hy : if incl = true then
        (L : ℚ) / den ≤ (c : ℚ) * (10 : ℚ) ^ k ∧ (c : ℚ) * (10 : ℚ) ^ k ≤ (H : ℚ) / den
      else
        (L : ℚ) / den < (c : ℚ) * (10 : ℚ) ^ k ∧ (c : ℚ) * (10 : ℚ) ^ k < (H : ℚ) / den) :
    False := by
  set k0 : Int := dexp - (n : Int) + 1 with hk0
  set f := floorCand X den k0 with hf
  obtain ⟨hf1, hf2⟩ := floorCand_spec X den hden k0
  have hg := ten_zpow_pos k0
  have h10 : (10 : ℚ) ≠ 0 := by norm_num
  -- the floor candidate is outside, so nothing between it and the centre is a member
  have hnotlo : ¬ (if incl = true then
        (L : ℚ) / den ≤ (f : ℚ) * (10 : ℚ) ^ k0 ∧ (f : ℚ) * (10 : ℚ) ^ k0 ≤ (H : ℚ) / den
      else
        (L : ℚ) / den < (f : ℚ) * (10 : ℚ) ^ k0 ∧ (f : ℚ) * (10 : ℚ) ^ k0 < (H : ℚ) / den) := by
    intro h
    have := (inInterval_iff L H den hden incl k0 f).2 h
    rw [hlo] at this
    exact Bool.false_ne_true this
  have hnothi : ¬ (if incl = true then
        (L : ℚ) / den ≤ ((f + 1 : ℕ) : ℚ) * (10 : ℚ) ^ k0 ∧
          ((f + 1 : ℕ) : ℚ) * (10 : ℚ) ^ k0 ≤ (H : ℚ) / den
      else
        (L : ℚ) / den < ((f + 1 : ℕ) : ℚ) * (10 : ℚ) ^ k0 ∧
          ((f + 1 : ℕ) : ℚ) * (10 : ℚ) ^ k0 < (H : ℚ) / den) := by
    intro h
    have := (inInterval_iff L H den hden incl k0 (f + 1)).2 h
    rw [hhi] at this
    exact Bool.false_ne_true this
  have hf2' : (X : ℚ) / den < ((f + 1 : ℕ) : ℚ) * (10 : ℚ) ^ k0 := by
    push_cast
    exact hf2
  by_cases hk : k0 ≤ k
  · -- the decimal is a multiple of the scale
    obtain ⟨d, hd⟩ : ∃ d : Nat, k = k0 + (d : Int) := ⟨(k - k0).toNat, by omega⟩
    have hy' : (c : ℚ) * (10 : ℚ) ^ k = ((c * 10 ^ d : ℕ) : ℚ) * (10 : ℚ) ^ k0 := by
      rw [hd, zpow_add₀ h10, zpow_natCast]
      push_cast
      ring
    rw [hy'] at hy
    by_cases hcmp : c * 10 ^ d ≤ f
    · apply hnotlo
      apply interval_convex _ _ _ _ _ incl hx hy
      left
      refine ⟨?_, hf1⟩
      apply mul_le_mul_of_nonneg_right _ (le_of_lt hg)
      exact_mod_cast hcmp
    · apply hnothi
      apply interval_convex _ _ _ _ _ incl hx hy
      right
      refine ⟨le_of_lt hf2', ?_⟩
      apply mul_le_mul_of_nonneg_right _ (le_of_lt hg)
      have : f + 1 ≤ c * 10 ^ d := by omega
      exact_mod_cast this
  · -- the decimal is below the decade of the centre
    have hklt : k ≤ k0 - 1 := by omega
    have hylt : (c : ℚ) * (10 : ℚ) ^ k < (10 : ℚ) ^ dexp := by
      have hcq : (c : ℚ) < (10 : ℚ) ^ n := by exact_mod_cast hc
      calc (c : ℚ) * (10 : ℚ) ^ k < (10 : ℚ) ^ n * (10 : ℚ) ^ k :=
            mul_lt_mul_of_pos_right hcq (ten_zpow_pos k)
        _ = (10 : ℚ) ^ ((n : Int) + k) := by
            rw [zpow_add₀ h10, zpow_natCast]
        _ ≤ (10 : ℚ) ^ dexp := by
            apply zpow_le_zpow_right₀ (by norm_num)
            omega
    have hdec : (10 : ℚ) ^ dexp = ((10 ^ (n - 1) : ℕ) : ℚ) * (10 : ℚ) ^ k0 := by
      have : dexp = ((n - 1 : ℕ) : Int) + k0 := by omega
      rw [this, zpow_add₀ h10, zpow_natCast]
      push_cast
      rfl
    have hfloor : 10 ^ (n - 1) ≤ f := by
      have h1 : ((10 ^ (n - 1) : ℕ) : ℚ) * (10 : ℚ) ^ k0 < ((f + 1 : ℕ) : ℚ) * (10 : ℚ) ^ k0 := by
        rw [← hdec]
        exact lt_of_le_of_lt hdexp hf2'
      have h2 : ((10 ^ (n - 1) : ℕ) : ℚ) < ((f + 1 : ℕ) : ℚ) := lt_of_mul_lt_mul_right h1 (le_of_lt hg)
      have h3 : 10 ^ (n - 1) < f + 1 := by exact_mod_cast h2
      omega
    apply hnotlo
    apply interval_convex _ _ _ _ _ incl hx hy
    left
    refine ⟨?_, hf1⟩
    apply le_of_lt
    apply lt_of_lt_of_le hylt
    rw [hdec]
    apply mul_le_mul_of_nonneg_right _ (le_of_lt hg)
    exact_mod_cast hfloor

/-- At seventeen digits one of the two neighbours of `X / den` is inside the
interval, when the interval reaches at least `x / 2 ^ 54` on both sides. -/
theorem seventeen_digits_suffice (X L H den : Nat) (hden : 0 < den) (incl : Bool) (dexp : Int)
    (hgapL : (X : ℚ) / den / 2 ^ 54 ≤ (X : ℚ) / den - (L : ℚ) / den)
    (hgapH : (X : ℚ) / den / 2 ^ 54 ≤ (H : ℚ) / den - (X : ℚ) / den)
    (hdexp : (10 : ℚ) ^ dexp ≤ (X : ℚ) / den) (k : Int) (hk : k = dexp - 16) :
    inInterval L H den incl k (floorCand X den k) = true ∨
      inInterval L H den incl k (floorCand X den k + 1) = true := by
  obtain ⟨hf1, hf2⟩ := floorCand_spec X den hden k
  set f := floorCand X den k with hf
  set x := (X : ℚ) / den with hx
  have hg := ten_zpow_pos k
  have h10 : (10 : ℚ) ≠ 0 := by norm_num
  have hgle : (10 : ℚ) ^ k * 10 ^ 16 ≤ x := by
    have : (10 : ℚ) ^ dexp = (10 : ℚ) ^ k * 10 ^ 16 := by
      have hd : dexp = k + ((16 : ℕ) : Int) := by omega
      rw [hd, zpow_add₀ h10, zpow_natCast]
    rw [← this]
    exact hdexp
  have hhalf : (10 : ℚ) ^ k / 2 < x / 2 ^ 54 := by
    rw [div_lt_div_iff₀ (by norm_num) (by norm_num)]
    nlinarith
  by_cases hnear : x - (f : ℚ) * (10 : ℚ) ^ k ≤ (10 : ℚ) ^ k / 2
  · left
    rw [inInterval_iff L H den hden incl k f]
    have h1 : (L : ℚ) / den < (f : ℚ) * (10 : ℚ) ^ k := by linarith
    have h2 : (f : ℚ) * (10 : ℚ) ^ k < (H : ℚ) / den := by linarith
    cases incl with
    | true => simp only [if_true]; exact ⟨le_of_lt h1, le_of_lt h2⟩
    | false => simp only [Bool.false_eq_true, if_false]; exact ⟨h1, h2⟩
  · right
    rw [inInterval_iff L H den hden incl k (f + 1)]
    push_cast
    have h1 : (L : ℚ) / den < ((f : ℚ) + 1) * (10 : ℚ) ^ k := by linarith
    have h2 : ((f : ℚ) + 1) * (10 : ℚ) ^ k < (H : ℚ) / den := by
      have : ((f : ℚ) + 1) * (10 : ℚ) ^ k - x < (10 : ℚ) ^ k / 2 := by
        have := not_le.1 hnear
        linarith
      linarith
    cases incl with
    | true => simp only [if_true]; exact ⟨le_of_lt h1, le_of_lt h2⟩
    | false => simp only [Bool.false_eq_true, if_false]; exact ⟨h1, h2⟩

end NvidiaSmi

namespace NvidiaSmi

/-! ## The decimal exponent -/

theorem log10Up_spec (num den : Nat) :
    ∀ (fuel k : Nat), den * 10 ^ k ≤ num → num < den * 10 ^ (k + fuel) →
      den * 10 ^ log10Up num den fuel k ≤ num ∧ num < den * 10 ^ (log10Up num den fuel k + 1) := by
  intro fuel
  induction fuel with
  | zero =>
    intro k h1 h2
    exact absurd h2 (by simpa using h1)
  | succ fuel ih =>
    intro k h1 h2
    by_cases h : num < den * 10 ^ (k + 1)
    · rw [log10Up, if_pos h]
      exact ⟨h1, h⟩
    · rw [log10Up, if_neg h]
      apply ih (k + 1) (not_lt.1 h)
      rw [show k + 1 + fuel = k + (fuel + 1) by omega]
      exact h2

theorem log10Down_spec (num den : Nat) :
    ∀ (fuel j : Nat), 1 ≤ j → num * 10 ^ (j - 1) < den → den ≤ num * 10 ^ (j + fuel) →
      num * 10 ^ (log10Down num den (fuel + 1) j - 1) < den ∧
        den ≤ num * 10 ^ log10Down num den (fuel + 1) j ∧ 1 ≤ log10Down num den (fuel + 1) j := by
  intro fuel
  induction fuel with
  | zero =>
    intro j hj h1 h2
    have h : den ≤ num * 10 ^ j := by simpa using h2
    rw [log10Down, if_pos h]
    exact ⟨h1, h, hj⟩
  | succ fuel ih =>
    intro j hj h1 h2
    by_cases h : den ≤ num * 10 ^ j
    · rw [log10Down, if_pos h]
      exact ⟨h1, h, hj⟩
    · rw [log10Down, if_neg h]
      apply ih (j + 1) (by omega)
      · simpa using not_le.1 h
      · rw [show j + 1 + fuel = j + (fuel + 1) by omega]
        exact h2

theorem lt_ten_pow_floorLog2 (n : Nat) (hn : 0 < n) : n < 10 ^ (floorLog2 n + 1) := by
  obtain ⟨_, h⟩ := floorLog2_bounds n hn
  exact lt_of_lt_of_le h (Nat.pow_le_pow_left (by norm_num) _)

/-- `floorLog10Ratio` is the decimal exponent of `num / den`. -/
theorem floorLog10Ratio_spec (num den : Nat) (hnum : 0 < num) (hden : 0 < den) :
    (10 : ℚ) ^ floorLog10Ratio num den ≤ (num : ℚ) / den ∧
    (num : ℚ) / den < (10 : ℚ) ^ (floorLog10Ratio num den + 1) := by
  have hdq : (0 : ℚ) < den := by exact_mod_cast hden
  have hnq : (0 : ℚ) < num := by exact_mod_cast hnum
  unfold floorLog10Ratio
  by_cases h : den ≤ num
  · rw [if_pos h]
    have hfuel : num < den * 10 ^ (0 + (floorLog2 num + 1)) := by
      rw [Nat.zero_add]
      calc num < 10 ^ (floorLog2 num + 1) := lt_ten_pow_floorLog2 num hnum
        _ ≤ den * 10 ^ (floorLog2 num + 1) := Nat.le_mul_of_pos_left _ hden
    obtain ⟨h1, h2⟩ := log10Up_spec num den (floorLog2 num + 1) 0 (by simpa using h) hfuel
    set r := log10Up num den (floorLog2 num + 1) 0
    have h1q : ((den * 10 ^ r : ℕ) : ℚ) ≤ (num : ℚ) := by exact_mod_cast h1
    have h2q : (num : ℚ) < ((den * 10 ^ (r + 1) : ℕ) : ℚ) := by exact_mod_cast h2
    push_cast at h1q h2q
    constructor
    · rw [zpow_natCast, le_div_iff₀ hdq]
      linarith
    · rw [show ((r : ℕ) : ℤ) + 1 = ((r + 1 : ℕ) : ℤ) by push_cast; ring, zpow_natCast,
        div_lt_iff₀ hdq]
      linarith
  · rw [if_neg h]
    have hlt : num * 10 ^ (1 - 1) < den := by simpa using not_le.1 h
    have hfuel : den ≤ num * 10 ^ (1 + floorLog2 den) := by
      calc den ≤ 10 ^ (floorLog2 den + 1) := le_of_lt (lt_ten_pow_floorLog2 den hden)
        _ = 10 ^ (1 + floorLog2 den) := by rw [Nat.add_comm]
        _ ≤ num * 10 ^ (1 + floorLog2 den) := Nat.le_mul_of_pos_left _ hnum
    obtain ⟨h1, h2, h3⟩ := log10Down_spec num den (floorLog2 den) 1 (le_refl 1) hlt hfuel
    set r := log10Down num den (floorLog2 den + 1) 1
    have h1q : ((num * 10 ^ (r - 1) : ℕ) : ℚ) < (den : ℚ) := by exact_mod_cast h1
    have h2q : (den : ℚ) ≤ ((num * 10 ^ r : ℕ) : ℚ) := by exact_mod_cast h2
    push_cast at h1q h2q
    have hr : (0 : ℚ) < (10 : ℚ) ^ r := pow_pos (by norm_num) _
    have hr1 : (0 : ℚ) < (10 : ℚ) ^ (r - 1) := pow_pos (by norm_num) _
    constructor
    · rw [zpow_neg, zpow_natCast, le_div_iff₀ hdq, inv_mul_le_iff₀ hr]
      linarith
    · have he : -((r : ℕ) : ℤ) + 1 = -((r - 1 : ℕ) : ℤ) := by omega
      rw [he, zpow_neg, zpow_natCast, div_lt_iff₀ hdq, lt_inv_mul_iff₀ hr1]
      linarith

end NvidiaSmi

namespace NvidiaSmi

/-! ## Decimal digits -/

theorem digitsToNat_append_singleton (ds : List Char) (c : Char) :
    digitsToNat (ds ++ [c]) = digitsToNat ds * 10 + (c.toNat - 48) := by
  simp [digitsToNat, List.foldl_append]

theorem digitChar_toNat (n : Nat) (hn : n < 10) : (Char.ofNat (48 + n)).toNat - 48 = n := by
  interval_cases n <;> rfl

/-- `natDigits` writes the decimal digits of `n` in front of the accumulator:
their value is `n`, there is no leading zero, and the last one is that of
`n % 10`. -/
theorem natDigits_spec :
    ∀ (fuel n : Nat) (acc : List Char), n < 10 ^ fuel → 0 < fuel →
      ∃ ds : List Char, natDigits fuel n acc = ds ++ acc ∧ digitsToNat ds = n ∧
        n < 10 ^ ds.length ∧ (n ≠ 0 → 10 ^ (ds.length - 1) ≤ n) ∧
        ∃ init, ds = init ++ [Char.ofNat (48 + n % 10)] := by
  intro fuel
  induction fuel with
  | zero => intro n acc _ h; omega
  | succ fuel ih =>
    intro n acc hn _
    by_cases h0 : n / 10 = 0
    · have hlt : n < 10 := by omega
      refine ⟨[Char.ofNat (48 + n % 10)], ?_, ?_, ?_, ?_, [], rfl⟩
      · simp [natDigits, h0]
      · have : n % 10 = n := Nat.mod_eq_of_lt hlt
        rw [this]
        simp [digitsToNat, digitChar_toNat n hlt]
      · simpa using hlt
      · intro hne
        simp
        omega
    · have hfuel : 0 < fuel := by
        rcases Nat.eq_zero_or_pos fuel with hf | hf
        · subst hf
          simp at hn
          omega
        · exact hf
      have hdiv : n / 10 < 10 ^ fuel := by
        rw [Nat.div_lt_iff_lt_mul (by norm_num)]
        rw [pow_succ] at hn
        exact hn
      obtain ⟨ds, h1, h2, h3, h4, _⟩ := ih (n / 10) (Char.ofNat (48 + n % 10) :: acc) hdiv hfuel
      refine ⟨ds ++ [Char.ofNat (48 + n % 10)], ?_, ?_, ?_, ?_, ds, rfl⟩
      · simp [natDigits, h0, h1]
      · rw [digitsToNat_append_singleton, h2, digitChar_toNat _ (Nat.mod_lt n (by norm_num))]
        omega
      · rw [List.length_append, List.length_singleton, pow_succ]
        omega
      · intro _
        have h4' := h4 h0
        rw [List.length_append, List.length_singleton, Nat.add_sub_cancel]
        have hlen : 1 ≤ ds.length := by
          rcases Nat.eq_zero_or_pos ds.length with hz | hz
          · rw [hz] at h3
            simp at h3
            omega
          · exact hz
        have : 10 ^ ds.length = 10 ^ (ds.length - 1) * 10 := by
          rw [← pow_succ]
          congr 1
          omega
        rw [this]
        omega

theorem digitsToNat_append_zeros (ds : List Char) (z : Nat) :
    digitsToNat (ds ++ List.replicate z '0') = digitsToNat ds * 10 ^ z := by
  induction z with
  | zero => simp
  | succ z ih =>
    rw [List.replicate_succ', ← List.append_assoc, digitsToNat_append_singleton, ih, pow_succ]
    have : ('0' : Char).toNat - 48 = 0 := by decide
    rw [this]
    ring

/-- `trimZeros` removes a run of zeros at the end. -/
theorem trimZeros_spec (ds : List Char) :
    ∃ z, ds = trimZeros ds ++ List.replicate z '0' := by
  have h := List.takeWhile_append_dropWhile (fun c => c == '0') ds.reverse
  refine ⟨(ds.reverse.takeWhile (fun c => c == '0')).length, ?_⟩
  have hrep : (ds.reverse.takeWhile (fun c => c == '0')).reverse =
      List.replicate (ds.reverse.takeWhile (fun c => c == '0')).length '0' := by
    rw [List.eq_replicate_iff]
    refine ⟨by simp, ?_⟩
    intro b hb
    have hb' : b ∈ ds.reverse.takeWhile (fun c => c == '0') := by simpa using hb
    have := List.mem_takeWhile_imp hb'
    simpa using this
  calc ds = ds.reverse.reverse := (List.reverse_reverse ds).symm
    _ = (ds.reverse.takeWhile (fun c => c == '0') ++
          ds.reverse.dropWhile (fun c => c == '0')).reverse := by rw [h]
    _ = trimZeros ds ++ (ds.reverse.takeWhile (fun c => c == '0')).reverse := by
        rw [List.reverse_append]
        rfl
    _ = _ := by rw [hrep]

theorem trimZeros_length_le (ds : List Char) : (trimZeros ds).length ≤ ds.length := by
  unfold trimZeros
  rw [List.length_reverse]
  calc (ds.reverse.dropWhile fun c => c == '0').length ≤ ds.reverse.length :=
        (List.dropWhile_sublist _).length_le
    _ = ds.length := List.length_reverse ds

theorem trimZeros_length_lt (init : List Char) :
    (trimZeros (init ++ ['0'])).length ≤ init.length := by
  unfold trimZeros
  rw [List.length_reverse, List.reverse_append]
  simp only [List.reverse_cons, List.reverse_nil, List.nil_append, List.singleton_append]
  rw [List.dropWhile_cons_of_pos (by simp)]
  calc (init.reverse.dropWhile fun c => c == '0').length ≤ init.reverse.length :=
        (List.dropWhile_sublist _).length_le
    _ = init.length := List.length_reverse init

end NvidiaSmi

namespace NvidiaSmi

/-! ## The integers of `shortestDigits` and the rounding interval -/

theorem shortestDigits_eq (v : FloatVal) (h : v.mant ≠ 0) :
    shortestDigits v =
      (trimZeros (natDigits 40 (shortestAux (scaleMid v) (scaleLow v) (scaleHigh v) (scaleDen v)
          (v.mant % 2 == 0) (floorLog10Ratio (scaleMid v) (scaleDen v)) 17 1).1 []),
        (shortestAux (scaleMid v) (scaleLow v) (scaleHigh v) (scaleDen v)
          (v.mant % 2 == 0) (floorLog10Ratio (scaleMid v) (scaleDen v)) 17 1).2 +
        ((natDigits 40 (shortestAux (scaleMid v) (scaleLow v) (scaleHigh v) (scaleDen v)
          (v.mant % 2 == 0) (floorLog10Ratio (scaleMid v) (scaleDen v)) 17 1).1 []).length : Int)) := by
  unfold shortestDigits
  rw [if_neg h]
  rfl

theorem quarter_units (A : Nat) (e : Int) :
    ((A * 2 ^ (e - 2).toNat : Nat) : ℚ) / ((2 ^ (-(e - 2)).toNat : Nat) : ℚ) =
      (A : ℚ) / 4 * (2 : ℚ) ^ e := by
  push_cast
  rw [mul_div_assoc, ← zpow_split (2 : ℚ) (e - 2), zpow_sub₀ (by norm_num)]
  norm_num
  ring

theorem scaleDen_pos (v : FloatVal) : 0 < scaleDen v := by
  unfold scaleDen
  positivity

theorem scaleMid_rat (v : FloatVal) : (scaleMid v : ℚ) / scaleDen v = v.toRat := by
  unfold scaleMid scaleDen FloatVal.toRat
  rw [quarter_units]
  push_cast
  ring

theorem scaleHigh_rat (v : FloatVal) : (scaleHigh v : ℚ) / scaleDen v = v.upperEnd := by
  unfold scaleHigh scaleDen FloatVal.upperEnd
  rw [quarter_units]
  push_cast
  ring

theorem scaleLow_rat (v : FloatVal) (hm : 0 < v.mant) :
    (scaleLow v : ℚ) / scaleDen v = v.lowerEnd := by
  unfold scaleLow scaleDen FloatVal.lowerEnd
  rw [quarter_units]
  have h1 : ((4 * v.mant - 1 : Nat) : ℚ) = 4 * (v.mant : ℚ) - 1 := by
    rw [Nat.cast_sub (by omega)]
    push_cast
    ring
  have h2 : ((4 * v.mant - 2 : Nat) : ℚ) = 4 * (v.mant : ℚ) - 2 := by
    rw [Nat.cast_sub (by omega)]
    push_cast
    ring
  by_cases hc : v.mant = 2 ^ 52 ∧ -1074 < v.exp
  · rw [if_pos hc, if_pos hc, h1]
    ring
  · rw [if_neg hc, if_neg hc, h2]
    ring

/-- The test of `shortestDigits` is membership in the rounding interval. -/
theorem rounds_iff (v : FloatVal) (hm : 0 < v.mant) (y : ℚ) :
    (if (v.mant % 2 == 0) = true then
        (scaleLow v : ℚ) / scaleDen v ≤ y ∧ y ≤ (scaleHigh v : ℚ) / scaleDen v
      else
        (scaleLow v : ℚ) / scaleDen v < y ∧ y < (scaleHigh v : ℚ) / scaleDen v) ↔
      RoundsTo v y := by
  rw [scaleLow_rat v hm, scaleHigh_rat]
  unfold RoundsTo
  by_cases h : v.mant % 2 = 0
  · simp [h]
  · simp [h]

theorem isFloat64_mant (v : FloatVal) (hv : IsFloat64 v) : 0 < v.mant ∧ v.mant < 2 ^ 53 := by
  rcases hv with ⟨h1, h2, _⟩ | ⟨h1, h2, _⟩
  · exact ⟨by omega, h2⟩
  · exact ⟨h1, by omega⟩

/-- The float lies strictly inside its rounding interval, at least a `2 ^ 54`-th
of itself away from both ends. -/
theorem interval_gaps (v : FloatVal) (hv : IsFloat64 v) :
    (v.lowerEnd < v.toRat ∧ v.toRat < v.upperEnd) ∧ 0 < v.lowerEnd ∧
    v.toRat / 2 ^ 54 ≤ v.toRat - v.lowerEnd ∧ v.toRat / 2 ^ 54 ≤ v.upperEnd - v.toRat := by
  obtain ⟨hm0, hm1⟩ := isFloat64_mant v hv
  have hp := two_zpow_pos v.exp
  have hq0 : (1 : ℚ) ≤ v.mant := by exact_mod_cast hm0
  have hq1 : (v.mant : ℚ) ≤ 2 ^ 53 := by exact_mod_cast hm1.le
  have hmp : (v.mant : ℚ) * (2 : ℚ) ^ v.exp ≤ 2 ^ 53 * (2 : ℚ) ^ v.exp :=
    mul_le_mul_of_nonneg_right hq1 hp.le
  unfold FloatVal.lowerEnd FloatVal.upperEnd FloatVal.toRat
  by_cases hc : v.mant = 2 ^ 52 ∧ -1074 < v.exp
  · rw [if_pos hc]
    have hm52 : (v.mant : ℚ) = 2 ^ 52 := by exact_mod_cast hc.1
    rw [hm52]
    refine ⟨⟨?_, ?_⟩, ?_, ?_, ?_⟩
    · nlinarith
    · nlinarith
    · apply mul_pos _ hp
      norm_num
    · rw [div_le_iff₀ (by positivity)]
      nlinarith
    · rw [div_le_iff₀ (by positivity)]
      nlinarith
  · rw [if_neg hc]
    refine ⟨⟨?_, ?_⟩, ?_, ?_, ?_⟩
    · nlinarith
    · nlinarith
    · apply mul_pos _ hp
      linarith
    · rw [div_le_iff₀ (by positivity)]
      nlinarith
    · rw [div_le_iff₀ (by positivity)]
      nlinarith

theorem floorCand_lt (X den : Nat) (hden : 0 < den) (dexp : Int) (n : Nat)
    (h : (X : ℚ) / den < (10 : ℚ) ^ (dexp + 1)) :
    floorCand X den (dexp - (n : Int) + 1) < 10 ^ n := by
  obtain ⟨hf1, _⟩ := floorCand_spec X den hden (dexp - (n : Int) + 1)
  have hk := ten_zpow_pos (dexp - (n : Int) + 1)
  have hsplit : (10 : ℚ) ^ (dexp + 1) = (10 : ℚ) ^ n * (10 : ℚ) ^ (dexp - (n : Int) + 1) := by
    rw [← zpow_natCast, ← zpow_add₀ (by norm_num)]
    congr 1
    ring
  rw [hsplit] at h
  have hlt : (floorCand X den (dexp - (n : Int) + 1) : ℚ) < (10 : ℚ) ^ n :=
    lt_of_mul_lt_mul_right (lt_of_le_of_lt hf1 h) hk.le
  exact_mod_cast hlt

/-- A number of at most `n` digits, or `10 ^ n` itself, is written with at most
`n` digits once the zeros at the end are removed. -/
theorem trimmed_digits_length (c n : Nat) (hc0 : c ≠ 0) (hn : 1 ≤ n) (hc : c ≤ 10 ^ n)
    (h40 : c < 10 ^ 40) : (trimZeros (natDigits 40 c [])).length ≤ n := by
  obtain ⟨ds, h1, _, _, h4, init, hinit⟩ := natDigits_spec 40 c [] h40 (by norm_num)
  rw [List.append_nil] at h1
  rw [h1]
  have h4' := h4 hc0
  rcases Nat.lt_or_eq_of_le hc with hlt | heq
  · have : 10 ^ (ds.length - 1) < 10 ^ n := lt_of_le_of_lt h4' hlt
    have hl := (Nat.pow_lt_pow_iff_right (by norm_num : 1 < 10)).mp this
    have := trimZeros_length_le ds
    omega
  · have hmod : c % 10 = 0 := by
      rw [heq]
      obtain ⟨n', rfl⟩ : ∃ n', n = n' + 1 := ⟨n - 1, by omega⟩
      rw [pow_succ]
      simp
    rw [hmod] at hinit
    have h0 : Char.ofNat (48 + 0) = '0' := by decide
    rw [h0] at hinit
    have hle : 10 ^ (ds.length - 1) ≤ 10 ^ n := heq ▸ h4'
    have hl := (Nat.pow_le_pow_iff_right (by norm_num : 1 < 10)).mp hle
    have ht := trimZeros_length_lt init
    rw [← hinit] at ht
    have hlen : ds.length = init.length + 1 := by
      rw [hinit]
      simp
    omega

theorem decimal_value (d : List Char) (dp : Int) :
    (decimalNum d dp : ℚ) / decimalDen d dp =
      (digitsToNat d : ℚ) * (10 : ℚ) ^ (dp - (d.length : Int)) := by
  unfold decimalNum decimalDen
  push_cast
  rw [mul_div_assoc, ← zpow_split]

theorem decimalDen_pos (d : List Char) (dp : Int) : 0 < decimalDen d dp := by
  unfold decimalDen
  positivity

end NvidiaSmi

namespace NvidiaSmi

/-! ## The digits printed for a float64 -/

/-- The digits of `shortestDigits` read back as the float they were made from,
and no decimal numeral with fewer digits does. -/
theorem shortestDigits_correct (v : FloatVal) (hv : IsFloat64 v) :
    roundFloat 53 (-1022) (decimalNum (shortestDigits v).1 (shortestDigits v).2)
        (decimalDen (shortestDigits v).1 (shortestDigits v).2) = v ∧
    ∀ (c : Nat) (k : Int), c ≠ 0 →
      roundFloat 53 (-1022) (c * 10 ^ k.toNat) (10 ^ (-k).toNat) = v →
      (shortestDigits v).1.length ≤ (Nat.digits 10 c).length := by
  obtain ⟨hm0, hm1⟩ := isFloat64_mant v hv
  have hne : v.mant ≠ 0 := by omega
  rw [shortestDigits_eq v hne]
  have hden := scaleDen_pos v
  have hX : 0 < scaleMid v := by
    unfold scaleMid
    positivity
  obtain ⟨hd1, hd2⟩ := floorLog10Ratio_spec (scaleMid v) (scaleDen v) hX hden
  obtain ⟨hstrict, hlow, hgL, hgH⟩ := interval_gaps v hv
  have hLr := scaleLow_rat v hm0
  have hHr := scaleHigh_rat v
  have hXr := scaleMid_rat v
  set X := scaleMid v with hXdef
  set L := scaleLow v with hLdef
  set H := scaleHigh v with hHdef
  set den := scaleDen v with hdendef
  set dexp := floorLog10Ratio X den with hdexp
  rcases shortestAux_spec X L H den (v.mant % 2 == 0) dexp 17 1 with
    ⟨j, hj, hk, hc, hin, hprev⟩ | hall
  · set r := shortestAux X L H den (v.mant % 2 == 0) dexp 17 1 with hr
    have hR : RoundsTo v ((r.1 : ℚ) * (10 : ℚ) ^ r.2) := by
      rw [hk]
      exact (rounds_iff v hm0 _).mp ((inInterval_iff L H den hden _ _ _).mp hin)
    have hr0 : r.1 ≠ 0 := by
      intro h0
      unfold RoundsTo at hR
      rw [h0] at hR
      simp only [Nat.cast_zero, zero_mul] at hR
      split at hR
      · linarith [hR.1]
      · linarith [hR.1]
    have hfl := floorCand_lt X den hden dexp (1 + j) hd2
    have hrle : r.1 ≤ 10 ^ (1 + j) := by
      rcases hc with h | h
      · rw [h]
        exact hfl.le
      · rw [h]
        exact hfl
    have hpow : 10 ^ (1 + j) ≤ 10 ^ 17 := Nat.pow_le_pow_right (by norm_num) (by omega)
    have hr40 : r.1 < 10 ^ 40 := lt_of_le_of_lt (le_trans hrle hpow) (by norm_num)
    have hlenle := trimmed_digits_length r.1 (1 + j) hr0 (by omega) hrle hr40
    obtain ⟨ds, hds1, hds2, _, _, _⟩ := natDigits_spec 40 r.1 [] hr40 (by norm_num)
    rw [List.append_nil] at hds1
    rw [hds1] at hlenle ⊢
    obtain ⟨z, hz⟩ := trimZeros_spec ds
    have hval : digitsToNat (trimZeros ds) * 10 ^ z = r.1 := by
      rw [← digitsToNat_append_zeros, ← hz, hds2]
    have hlen : ds.length = (trimZeros ds).length + z := by
      conv_lhs => rw [hz]
      simp
    constructor
    · apply roundFloat_of_roundsTo v hv _ _ (decimalDen_pos _ _)
      rw [decimal_value]
      have he : r.2 + (ds.length : Int) - ((trimZeros ds).length : Int) = (z : Int) + r.2 := by
        rw [hlen]
        push_cast
        ring
      show RoundsTo v ((digitsToNat (trimZeros ds) : ℚ) *
        (10 : ℚ) ^ (r.2 + (ds.length : Int) - ((trimZeros ds).length : Int)))
      rw [he, zpow_add₀ (by norm_num), zpow_natCast, ← mul_assoc]
      have hv2 : (digitsToNat (trimZeros ds) : ℚ) * (10 : ℚ) ^ z = (r.1 : ℚ) := by
        exact_mod_cast hval
      rw [hv2]
      exact hR
    · intro c k hc0 hrt
      show (trimZeros ds).length ≤ (Nat.digits 10 c).length
      by_contra hlt
      push_neg at hlt
      have hnum : 0 < c * 10 ^ k.toNat := Nat.mul_pos (Nat.pos_of_ne_zero hc0) (by positivity)
      have hdn : 0 < 10 ^ (-k).toNat := by positivity
      have hmant : (roundFloat 53 (-1022) (c * 10 ^ k.toNat) (10 ^ (-k).toNat)).mant ≠ 0 := by
        rw [hrt]
        exact hne
      obtain ⟨_, hRc⟩ := roundFloat_roundsTo _ _ hnum hdn hmant
      rw [hrt] at hRc
      have hq : (((c * 10 ^ k.toNat : Nat) : ℚ)) / ((10 ^ (-k).toNat : Nat) : ℚ) =
          (c : ℚ) * (10 : ℚ) ^ k := by
        push_cast
        rw [mul_div_assoc, ← zpow_split]
      rw [hq] at hRc
      have hn1 : 1 ≤ (Nat.digits 10 c).length := by
        have : Nat.digits 10 c ≠ [] := Nat.digits_ne_nil_iff_ne_zero.mpr hc0
        exact List.length_pos.mpr this
      have hcl : c < 10 ^ (Nat.digits 10 c).length := Nat.lt_base_pow_length_digits (by norm_num)
      have hi : (Nat.digits 10 c).length - 1 < j := by omega
      obtain ⟨hlo, hhi⟩ := hprev _ hi
      have hidx : 1 + ((Nat.digits 10 c).length - 1) = (Nat.digits 10 c).length := by omega
      rw [hidx] at hlo hhi
      refine no_short_decimal X L H den hden (v.mant % 2 == 0) dexp (Nat.digits 10 c).length hn1
        ?_ hd1 hlo hhi c k hcl ((rounds_iff v hm0 _).mpr hRc)
      rw [hLr, hHr, hXr]
      exact hstrict
  · exfalso
    obtain ⟨hlo, hhi⟩ := hall 16 (by norm_num)
    have hs := seventeen_digits_suffice X L H den hden (v.mant % 2 == 0) dexp
      (by rw [hLr, hXr]; exact hgL) (by rw [hHr, hXr]; exact hgH) hd1
      (dexp - ((1 + 16 : Nat) : Int) + 1) (by push_cast; ring)
    rcases hs with h | h
    · rw [h] at hlo
      exact Bool.noConfusion hlo
    · rw [h] at hhi
      exact Bool.noConfusion hhi

end NvidiaSmi

namespace NvidiaSmi

/-! ## The layout of the digits -/

theorem digitChar_isDigit (n : Nat) (hn : n < 10) : isDigit (Char.ofNat (48 + n)) = true := by
  interval_cases n <;> rfl

theorem natDigits_succ (fuel n : Nat) (acc : List Char) :
    natDigits (fuel + 1) n acc =
      if n / 10 = 0 then Char.ofNat (48 + n % 10) :: acc
      else natDigits fuel (n / 10) (Char.ofNat (48 + n % 10) :: acc) := rfl

theorem natDigits_isDigit :
    ∀ (fuel n : Nat) (acc : List Char), (∀ c ∈ acc, isDigit c = true) →
      ∀ c ∈ natDigits fuel n acc, isDigit c = true := by
  intro fuel
  induction fuel with
  | zero =>
    intro n acc h
    exact h
  | succ fuel ih =>
    intro n acc h
    have hacc : ∀ c ∈ Char.ofNat (48 + n % 10) :: acc, isDigit c = true := by
      intro c hc
      rcases List.mem_cons.mp hc with rfl | hc
      · exact digitChar_isDigit _ (Nat.mod_lt _ (by norm_num))
      · exact h c hc
    rw [natDigits_succ]
    by_cases h0 : n / 10 = 0
    · rw [if_pos h0]
      exact hacc
    · rw [if_neg h0]
      exact ih _ _ hacc

theorem trimZeros_subset (ds : List Char) : ∀ c ∈ trimZeros ds, c ∈ ds := by
  intro c hc
  unfold trimZeros at hc
  rw [List.mem_reverse] at hc
  exact List.mem_reverse.mp ((List.dropWhile_sublist _).subset hc)

theorem digitsToNat_zeros_append (k : Nat) (d : List Char) :
    digitsToNat (List.replicate k '0' ++ d) = digitsToNat d := by
  have h0 : digitsToNat (List.replicate k '0') = 0 := by
    have := digitsToNat_append_zeros [] k
    simpa [digitsToNat] using this
  unfold digitsToNat at h0 ⊢
  rw [List.foldl_append, h0]

theorem digitsToNat_append_digits (a b : List Char) :
    digitsToNat (a ++ b) =
      b.foldl (fun acc c => acc * 10 + (c.toNat - 48)) (digitsToNat a) := by
  unfold digitsToNat
  rw [List.foldl_append]

/-- Digits around one point are read as a decimal. -/
theorem parseDecimal_point (a b : List Char) (ha : ∀ x ∈ a, isDigit x = true)
    (hb : ∀ x ∈ b, isDigit x = true) (hne : ¬ (a = [] ∧ b = [])) :
    parseDecimal (a ++ '.' :: b) = some (digitsToNat (a ++ b), b.length) := by
  have hdot : isDigit '.' = false := by decide
  have h1 : (a ++ '.' :: b).takeWhile isDigit = a := by
    rw [List.takeWhile_append_of_pos ha, List.takeWhile_cons_of_neg (by simp [hdot])]
    simp
  have h2 : (a ++ '.' :: b).dropWhile isDigit = '.' :: b := by
    rw [List.dropWhile_append_of_pos ha, List.dropWhile_cons_of_neg (by simp [hdot])]
  have hb' : b.all isDigit = true := List.all_eq_true.mpr hb
  unfold parseDecimal
  simp only [h1, h2]
  have hcond : (('.' : Char) == '.' && b.all isDigit && !(a.isEmpty && b.isEmpty)) = true := by
    rw [hb']
    rcases a with _ | ⟨x, a⟩
    · rcases b with _ | ⟨y, b⟩
      · exact absurd ⟨rfl, rfl⟩ hne
      · rfl
    · rfl
  rw [if_pos hcond]

theorem isNumChar_ne_e (c : Char) (h : isNumChar c = true) : (c != 'e') = true := by
  rcases Bool.eq_false_or_eq_true (c != 'e') with h1 | h1
  · exact h1
  · have : c = 'e' := by simpa using h1
    rw [this] at h
    exact absurd h (by decide)

theorem isNumChar_of_isDigit (c : Char) (h : isDigit c = true) : isNumChar c = true := by
  simp [isNumChar, h]

/-- A numeral without exponent. -/
theorem numeralValue_plain (s : List Char) (hs : ∀ c ∈ s, isNumChar c = true) (D f : Nat)
    (hp : parseDecimal s = some (D, f)) :
    numeralValue s = some ((D : ℚ) * (10 : ℚ) ^ (-(f : Int))) := by
  have h1 : s.takeWhile (fun c => c != 'e') = s :=
    List.takeWhile_eq_self_iff.2 (fun c hc => isNumChar_ne_e c (hs c hc))
  have h2 : s.dropWhile (fun c => c != 'e') = [] :=
    List.dropWhile_eq_nil_iff.2 (fun c hc => isNumChar_ne_e c (hs c hc))
  unfold numeralValue
  rw [h1, h2, hp]

theorem split_at_e (s t : List Char) (hs : ∀ c ∈ s, isNumChar c = true) :
    (s ++ 'e' :: t).takeWhile (fun c => c != 'e') = s ∧
    (s ++ 'e' :: t).dropWhile (fun c => c != 'e') = 'e' :: t := by
  have hs' : ∀ c ∈ s, (fun c => c != 'e') c = true := fun c hc => isNumChar_ne_e c (hs c hc)
  constructor
  · rw [List.takeWhile_append_of_pos hs', List.takeWhile_cons_of_neg (by simp)]
    simp
  · rw [List.dropWhile_append_of_pos hs', List.dropWhile_cons_of_neg (by simp)]

/-- A numeral with a positive exponent. -/
theorem numeralValue_pos_exp (s ds : List Char) (hs : ∀ c ∈ s, isNumChar c = true) (D f : Nat)
    (hp : parseDecimal s = some (D, f)) (hne : ds ≠ []) (hds : ∀ c ∈ ds, isDigit c = true) :
    numeralValue (s ++ 'e' :: '+' :: ds) =
      some ((D : ℚ) * (10 : ℚ) ^ ((digitsToNat ds : Int) - (f : Int))) := by
  obtain ⟨h1, h2⟩ := split_at_e s ('+' :: ds) hs
  have hall : ds.all isDigit = true := List.all_eq_true.mpr hds
  have hemp : ds.isEmpty = false := by
    cases ds with
    | nil => exact absurd rfl hne
    | cons _ _ => rfl
  unfold numeralValue
  rw [h1, h2, hp]
  simp only [hemp, hall, Bool.not_true, Bool.or_self, Bool.false_eq_true, if_false]

/-- A numeral with a negative exponent. -/
theorem numeralValue_neg_exp (s ds : List Char) (hs : ∀ c ∈ s, isNumChar c = true) (D f : Nat)
    (hp : parseDecimal s = some (D, f)) (hne : ds ≠ []) (hds : ∀ c ∈ ds, isDigit c = true) :
    numeralValue (s ++ 'e' :: '-' :: ds) =
      some ((D : ℚ) * (10 : ℚ) ^ (-(digitsToNat ds : Int) - (f : Int))) := by
  obtain ⟨h1, h2⟩ := split_at_e s ('-' :: ds) hs
  have hall : ds.all isDigit = true := List.all_eq_true.mpr hds
  have hemp : ds.isEmpty = false := by
    cases ds with
    | nil => exact absurd rfl hne
    | cons _ _ => rfl
  unfold numeralValue
  rw [h1, h2, hp]
  simp only [hemp, hall, Bool.not_true, Bool.or_self, Bool.false_eq_true, if_false]

end NvidiaSmi

namespace NvidiaSmi

/-- The exponent digits of the `%e` layout are those of the exponent. -/
theorem expDigits_spec (e : Nat) (he : e < 1000) :
    (if e < 10 then ['0', Char.ofNat (48 + e)]
      else if e < 100 then [Char.ofNat (48 + e / 10), Char.ofNat (48 + e % 10)]
      else [Char.ofNat (48 + e / 100), Char.ofNat (48 + e / 10 % 10), Char.ofNat (48 + e % 10)])
        ≠ [] ∧
    (∀ c ∈ (if e < 10 then ['0', Char.ofNat (48 + e)]
      else if e < 100 then [Char.ofNat (48 + e / 10), Char.ofNat (48 + e % 10)]
      else [Char.ofNat (48 + e / 100), Char.ofNat (48 + e / 10 % 10), Char.ofNat (48 + e % 10)]),
      isDigit c = true) ∧
    digitsToNat (if e < 10 then ['0', Char.ofNat (48 + e)]
      else if e < 100 then [Char.ofNat (48 + e / 10), Char.ofNat (48 + e % 10)]
      else [Char.ofNat (48 + e / 100), Char.ofNat (48 + e / 10 % 10), Char.ofNat (48 + e % 10)])
        = e := by
  have hz : isDigit '0' = true := by decide
  have hz0 : ('0' : Char).toNat - 48 = 0 := by decide
  by_cases h1 : e < 10
  · rw [if_pos h1]
    refine ⟨by simp, ?_, ?_⟩
    · intro c hc
      simp only [List.mem_cons, List.mem_singleton, List.not_mem_nil, or_false] at hc
      rcases hc with rfl | rfl
      · exact hz
      · exact digitChar_isDigit e h1
    · simp only [digitsToNat, List.foldl_cons, List.foldl_nil, hz0, digitChar_toNat e h1]
      omega
  · rw [if_neg h1]
    by_cases h2 : e < 100
    · rw [if_pos h2]
      have ha : e / 10 < 10 := by omega
      have hb : e % 10 < 10 := by omega
      refine ⟨by simp, ?_, ?_⟩
      · intro c hc
        simp only [List.mem_cons, List.mem_singleton, List.not_mem_nil, or_false] at hc
        rcases hc with rfl | rfl
        · exact digitChar_isDigit _ ha
        · exact digitChar_isDigit _ hb
      · simp only [digitsToNat, List.foldl_cons, List.foldl_nil, digitChar_toNat _ ha,
          digitChar_toNat _ hb]
        omega
    · rw [if_neg h2]
      have ha : e / 100 < 10 := by omega
      have hb : e / 10 % 10 < 10 := by omega
      have hc' : e % 10 < 10 := by omega
      refine ⟨by simp, ?_, ?_⟩
      · intro c hc
        simp only [List.mem_cons, List.mem_singleton, List.not_mem_nil, or_false] at hc
        rcases hc with rfl | rfl | rfl
        · exact digitChar_isDigit _ ha
        · exact digitChar_isDigit _ hb
        · exact digitChar_isDigit _ hc'
      · simp only [digitsToNat, List.foldl_cons, List.foldl_nil, digitChar_toNat _ ha,
          digitChar_toNat _ hb, digitChar_toNat _ hc']
        omega

/-- The mantissa of the `%e` layout with all the digits: the first digit, and
the others after a point if there are any. -/
theorem fmtE_eq (h : Char) (t : List Char) (dp : Int) :
    fmtE (h :: t) dp ((h :: t).length - 1) =
      (if t = [] then [h] else h :: '.' :: t) ++
        'e' :: (if dp - 1 < 0 then '-' else '+') ::
          (if (dp - 1).natAbs < 10 then ['0', Char.ofNat (48 + (dp - 1).natAbs)]
            else if (dp - 1).natAbs < 100 then
              [Char.ofNat (48 + (dp - 1).natAbs / 10), Char.ofNat (48 + (dp - 1).natAbs % 10)]
            else [Char.ofNat (48 + (dp - 1).natAbs / 100),
              Char.ofNat (48 + (dp - 1).natAbs / 10 % 10),
              Char.ofNat (48 + (dp - 1).natAbs % 10)]) := by
  cases t with
  | nil => simp [fmtE]
  | cons a t => simp [fmtE]

theorem parseDecimal_mantissa (h : Char) (t : List Char)
    (hD : ∀ c ∈ h :: t, isDigit c = true) :
    parseDecimal (if t = [] then [h] else h :: '.' :: t) =
      some (digitsToNat (h :: t), t.length) := by
  have hh : ∀ x ∈ [h], isDigit x = true := by
    intro x hx
    exact hD x (by simp at hx; simp [hx])
  by_cases ht : t = []
  · rw [if_pos ht, ht]
    exact parseDecimal_digits [h] (by simp) hh
  · rw [if_neg ht]
    exact parseDecimal_point [h] t hh (fun x hx => hD x (List.mem_cons_of_mem _ hx)) (by simp)

theorem mantissa_isNumChar (h : Char) (t : List Char)
    (hD : ∀ c ∈ h :: t, isDigit c = true) :
    ∀ c ∈ (if t = [] then [h] else h :: '.' :: t), isNumChar c = true := by
  intro c hc
  by_cases ht : t = []
  · rw [if_pos ht] at hc
    simp only [List.mem_singleton] at hc
    exact isNumChar_of_isDigit c (hD c (by simp [hc]))
  · rw [if_neg ht] at hc
    simp only [List.mem_cons] at hc
    rcases hc with rfl | rfl | hc
    · exact isNumChar_of_isDigit _ (hD _ (by simp))
    · decide
    · exact isNumChar_of_isDigit c (hD c (List.mem_cons_of_mem _ hc))

/-- The `%e` layout of a digit string denotes `0.d * 10 ^ dp`. -/
theorem fmtE_value (d : List Char) (dp : Int) (hd : d ≠ []) (hD : ∀ c ∈ d, isDigit c = true)
    (hlo : -1000 < dp - 1) (hhi : dp - 1 < 1000) :
    numeralValue (fmtE d dp (d.length - 1)) =
      some ((digitsToNat d : ℚ) * (10 : ℚ) ^ (dp - (d.length : Int))) := by
  obtain ⟨h, t, rfl⟩ : ∃ h t, d = h :: t := by
    cases d with
    | nil => exact absurd rfl hd
    | cons h t => exact ⟨h, t, rfl⟩
  have he : (dp - 1).natAbs < 1000 := by omega
  obtain ⟨e1, e2, e3⟩ := expDigits_spec (dp - 1).natAbs he
  rw [fmtE_eq]
  by_cases hs : dp - 1 < 0
  · rw [if_pos hs, numeralValue_neg_exp _ _ (mantissa_isNumChar h t hD) _ _
      (parseDecimal_mantissa h t hD) e1 e2, e3]
    congr 3
    simp only [List.length_cons, Nat.cast_add, Nat.cast_one]
    omega
  · rw [if_neg hs, numeralValue_pos_exp _ _ (mantissa_isNumChar h t hD) _ _
      (parseDecimal_mantissa h t hD) e1 e2, e3]
    congr 3
    simp only [List.length_cons, Nat.cast_add, Nat.cast_one]
    omega

end NvidiaSmi

namespace NvidiaSmi

theorem cast_list (l : List Nat) :
    (do let a ← l; pure (a : Int) : List Int) = List.map (fun (a : Nat) => (a : Int)) l := by
  induction l with
  | nil => rfl
  | cons x l ih =>
    show (x : Int) :: (do let a ← l; pure (a : Int) : List Int) = _
    rw [ih]
    rfl

theorem fmtF_fraction_drop (d : List Char) (k : Nat) (hk : k ≤ d.length) :
    (List.range (d.length - k)).map (fun i =>
        let j : Int := (k : Int) + (i : Int)
        if 0 ≤ j ∧ j < (d.length : Int) then d.getD j.toNat '0' else '0') = d.drop k := by
  rw [cast_list, List.map_map]
  apply List.ext_getElem
  · simp
  · intro i h1 h2
    have hi : i < d.length - k := by simpa using h1
    have hj : (0 : Int) ≤ (k : Int) + (i : Int) ∧ (k : Int) + (i : Int) < (d.length : Int) := by
      omega
    have ht : ((k : Int) + (i : Int)).toNat = k + i := by omega
    have hlt : k + i < d.length := by omega
    simp only [List.getElem_map, List.getElem_range, Function.comp, if_pos hj, ht,
      List.getElem_drop]
    rw [List.getD_eq_getElem _ _ hlt]

theorem fmtF_fraction_zeros (d : List Char) (z : Nat) :
    (List.range (d.length + z)).map (fun i =>
        let j : Int := -(z : Int) + (i : Int)
        if 0 ≤ j ∧ j < (d.length : Int) then d.getD j.toNat '0' else '0') =
      List.replicate z '0' ++ d := by
  rw [cast_list, List.map_map]
  apply List.ext_getElem
  · simp
    omega
  · intro i h1 h2
    have hi : i < d.length + z := by simpa using h1
    simp only [List.getElem_map, List.getElem_range, Function.comp]
    by_cases hz : i < z
    · have hj : ¬ ((0 : Int) ≤ -(z : Int) + (i : Int) ∧ -(z : Int) + (i : Int) < (d.length : Int)) := by
        omega
      rw [if_neg hj, List.getElem_append_left (by simpa using hz)]
      simp
    · have hj : (0 : Int) ≤ -(z : Int) + (i : Int) ∧ -(z : Int) + (i : Int) < (d.length : Int) := by
        omega
      have ht : (-(z : Int) + (i : Int)).toNat = i - z := by omega
      have hlt : i - z < d.length := by omega
      rw [if_pos hj, ht, List.getD_eq_getElem _ _ hlt,
        List.getElem_append_right (by simpa using Nat.le_of_not_lt hz)]
      simp

end NvidiaSmi

namespace NvidiaSmi

theorem fmtF_eq (d : List Char) (dp : Int) (prec : Nat) :
    fmtF d dp prec =
      (if 0 < dp then
          d.take (min d.length dp.toNat) ++ List.replicate (dp.toNat - min d.length dp.toNat) '0'
        else ['0']) ++
      (if 0 < prec then
          '.' :: (List.range prec).map (fun i =>
            let j : Int := dp + (i : Int)
            if 0 ≤ j ∧ j < (d.length : Int) then d.getD j.toNat '0' else '0')
        else []) := rfl

/-- The `%f` layout of a digit string denotes `0.d * 10 ^ dp`. -/
theorem fmtF_value (d : List Char) (dp : Int) (hd : d ≠ []) (hD : ∀ c ∈ d, isDigit c = true) :
    numeralValue (fmtF d dp ((d.length : Int) - dp).toNat) =
      some ((digitsToNat d : ℚ) * (10 : ℚ) ^ (dp - (d.length : Int))) := by
  have hn : 0 < d.length := List.length_pos.mpr hd
  have hz : isDigit '0' = true := by decide
  rw [fmtF_eq]
  by_cases hpos : 0 < dp
  · obtain ⟨k, rfl⟩ := Int.eq_ofNat_of_zero_le hpos.le
    have hk : 0 < k := by omega
    rw [if_pos hpos, Int.toNat_natCast]
    by_cases hge : d.length ≤ k
    · -- digits, then zeros up to the point
      have hp : ((d.length : Int) - (k : Int)).toNat = 0 := by omega
      rw [hp, if_neg (lt_irrefl 0), List.append_nil, min_eq_left hge, List.take_length]
      have hall : ∀ c ∈ d ++ List.replicate (k - d.length) '0', isDigit c = true := by
        intro c hc
        rcases List.mem_append.mp hc with h | h
        · exact hD c h
        · rw [(List.mem_replicate.mp h).2]
          exact hz
      rw [numeralValue_plain _ (fun c hc => isNumChar_of_isDigit c (hall c hc)) _ _
        (parseDecimal_digits _ (by simp [hd]) hall), digitsToNat_append_zeros]
      congr 1
      have he : (k : Int) - (d.length : Int) = ((k - d.length : Nat) : Int) := by omega
      rw [he, zpow_natCast]
      push_cast
      simp
    · -- the point falls inside the digits
      have hlt : k < d.length := Nat.lt_of_not_le hge
      have hp : ((d.length : Int) - (k : Int)).toNat = d.length - k := by omega
      rw [hp, if_pos (by omega : 0 < d.length - k), min_eq_right hlt.le, Nat.sub_self,
        List.replicate_zero, List.append_nil, fmtF_fraction_drop d k hlt.le]
      have h1 : ∀ c ∈ d.take k, isDigit c = true := fun c hc => hD c (List.mem_of_mem_take hc)
      have h2 : ∀ c ∈ d.drop k, isDigit c = true := fun c hc => hD c (List.mem_of_mem_drop hc)
      have hall : ∀ c ∈ d.take k ++ '.' :: d.drop k, isNumChar c = true := by
        intro c hc
        rcases List.mem_append.mp hc with h | h
        · exact isNumChar_of_isDigit c (h1 c h)
        · rcases List.mem_cons.mp h with rfl | h
          · decide
          · exact isNumChar_of_isDigit c (h2 c h)
      have hne : ¬ (d.take k = [] ∧ d.drop k = []) := by
        intro h
        have := List.take_append_drop k d
        rw [h.1, h.2] at this
        exact hd this.symm
      rw [numeralValue_plain _ hall _ _ (parseDecimal_point _ _ h1 h2 hne),
        List.take_append_drop, List.length_drop]
      congr 3
      omega
  · -- a zero, the point, zeros and the digits
    obtain ⟨z, rfl⟩ : ∃ z : Nat, dp = -(z : Int) := ⟨(-dp).toNat, by omega⟩
    have hp : ((d.length : Int) - -(z : Int)).toNat = d.length + z := by omega
    rw [if_neg hpos, hp, if_pos (by omega : 0 < d.length + z), fmtF_fraction_zeros d z]
    have h1 : ∀ c ∈ ['0'], isDigit c = true := by
      intro c hc
      rw [List.mem_singleton.mp hc]
      exact hz
    have h2 : ∀ c ∈ List.replicate z '0' ++ d, isDigit c = true := by
      intro c hc
      rcases List.mem_append.mp hc with h | h
      · rw [(List.mem_replicate.mp h).2]
        exact hz
      · exact hD c h
    have hall : ∀ c ∈ ['0'] ++ '.' :: (List.replicate z '0' ++ d), isNumChar c = true := by
      intro c hc
      rcases List.mem_append.mp hc with h | h
      · exact isNumChar_of_isDigit c (h1 c h)
      · rcases List.mem_cons.mp h with rfl | h
        · decide
        · exact isNumChar_of_isDigit c (h2 c h)
    have hval : digitsToNat (['0'] ++ (List.replicate z '0' ++ d)) = digitsToNat d := by
      have : ['0'] ++ (List.replicate z '0' ++ d) = List.replicate (z + 1) '0' ++ d := by
        rw [List.replicate_succ]
        rfl
      rw [this, digitsToNat_zeros_append]
    rw [numeralValue_plain _ hall _ _ (parseDecimal_point _ _ h1 h2 (by simp)), hval]
    congr 3
    simp only [List.length_append, List.length_replicate]
    push_cast
    omega

end NvidiaSmi

namespace NvidiaSmi

theorem fmtG_eq (v : FloatVal) :
    fmtG v =
      if (shortestDigits v).2 - 1 < -4 ∨ 6 ≤ (shortestDigits v).2 - 1 then
        fmtE (shortestDigits v).1 (shortestDigits v).2 ((shortestDigits v).1.length - 1)
      else
        fmtF (shortestDigits v).1 (shortestDigits v).2
          (((shortestDigits v).1.length : Int) - (shortestDigits v).2).toNat := rfl

/-- The decimal exponent of a finite float64 has at most three digits. -/
theorem decimal_exponent_bounds (v : FloatVal) (hv : IsFloat64 v) (hexp : v.exp ≤ 971)
    (dexp : Int) (h1 : (10 : ℚ) ^ dexp ≤ v.toRat) (h2 : v.toRat < (10 : ℚ) ^ (dexp + 1)) :
    -325 < dexp ∧ dexp < 309 := by
  obtain ⟨hm0, hm1⟩ := isFloat64_mant v hv
  have hp := two_zpow_pos v.exp
  have hlo : -1074 ≤ v.exp := by
    rcases hv with ⟨_, _, h⟩ | ⟨_, _, h⟩
    · exact h
    · omega
  have hq0 : (1 : ℚ) ≤ v.mant := by exact_mod_cast hm0
  have hq1 : (v.mant : ℚ) < 2 ^ 53 := by exact_mod_cast hm1
  have he1 : (2 : ℚ) ^ v.exp ≤ (2 : ℚ) ^ (971 : Int) :=
    zpow_le_zpow_right₀ (by norm_num) hexp
  have he2 : (2 : ℚ) ^ (-1074 : Int) ≤ (2 : ℚ) ^ v.exp :=
    zpow_le_zpow_right₀ (by norm_num) hlo
  have hx1 : v.toRat < (10 : ℚ) ^ (309 : Int) := by
    unfold FloatVal.toRat
    calc (v.mant : ℚ) * (2 : ℚ) ^ v.exp < 2 ^ 53 * (2 : ℚ) ^ v.exp :=
          mul_lt_mul_of_pos_right hq1 hp
      _ ≤ 2 ^ 53 * (2 : ℚ) ^ (971 : Int) := mul_le_mul_of_nonneg_left he1 (by norm_num)
      _ ≤ (10 : ℚ) ^ (309 : Int) := by norm_num
  have hx2 : (10 : ℚ) ^ (-324 : Int) ≤ v.toRat := by
    unfold FloatVal.toRat
    calc (10 : ℚ) ^ (-324 : Int) ≤ (2 : ℚ) ^ (-1074 : Int) := by
          rw [zpow_neg, zpow_neg]
          apply inv_anti₀ (by positivity)
          norm_num
      _ ≤ (2 : ℚ) ^ v.exp := he2
      _ = 1 * (2 : ℚ) ^ v.exp := (one_mul _).symm
      _ ≤ (v.mant : ℚ) * (2 : ℚ) ^ v.exp := mul_le_mul_of_nonneg_right hq0 hp.le
  constructor
  · have := (zpow_lt_zpow_iff_right₀ (by norm_num : (1 : ℚ) < 10)).1 (lt_of_le_of_lt hx2 h2)
    omega
  · exact (zpow_lt_zpow_iff_right₀ (by norm_num : (1 : ℚ) < 10)).1 (lt_of_le_of_lt h1 hx1)

/-- The digits of `shortestDigits` for a finite float64: at least one, all of
them decimal digits, with a decimal exponent of at most three digits. -/
theorem shortestDigits_shape (v : FloatVal) (hv : IsFloat64 v) (hexp : v.exp ≤ 971) :
    (shortestDigits v).1 ≠ [] ∧ (∀ c ∈ (shortestDigits v).1, isDigit c = true) ∧
    -1000 < (shortestDigits v).2 - 1 ∧ (shortestDigits v).2 - 1 < 1000 := by
  obtain ⟨hm0, hm1⟩ := isFloat64_mant v hv
  have hne : v.mant ≠ 0 := by omega
  rw [shortestDigits_eq v hne]
  have hden := scaleDen_pos v
  have hX : 0 < scaleMid v := by
    unfold scaleMid
    positivity
  obtain ⟨hd1, hd2⟩ := floorLog10Ratio_spec (scaleMid v) (scaleDen v) hX hden
  obtain ⟨hstrict, hlow, hgL, hgH⟩ := interval_gaps v hv
  have hLr := scaleLow_rat v hm0
  have hHr := scaleHigh_rat v
  have hXr := scaleMid_rat v
  obtain ⟨hb1, hb2⟩ := decimal_exponent_bounds v hv hexp _ (hXr ▸ hd1) (hXr ▸ hd2)
  set X := scaleMid v with hXdef
  set L := scaleLow v with hLdef
  set H := scaleHigh v with hHdef
  set den := scaleDen v with hdendef
  set dexp := floorLog10Ratio X den with hdexp
  rcases shortestAux_spec X L H den (v.mant % 2 == 0) dexp 17 1 with
    ⟨j, hj, hk, hc, hin, hprev⟩ | hall
  · set r := shortestAux X L H den (v.mant % 2 == 0) dexp 17 1 with hr
    have hR : RoundsTo v ((r.1 : ℚ) * (10 : ℚ) ^ r.2) := by
      rw [hk]
      exact (rounds_iff v hm0 _).mp ((inInterval_iff L H den hden _ _ _).mp hin)
    have hr0 : r.1 ≠ 0 := by
      intro h0
      unfold RoundsTo at hR
      rw [h0] at hR
      simp only [Nat.cast_zero, zero_mul] at hR
      split at hR
      · linarith [hR.1]
      · linarith [hR.1]
    have hfl := floorCand_lt X den hden dexp (1 + j) hd2
    have hrle : r.1 ≤ 10 ^ (1 + j) := by
      rcases hc with h | h
      · rw [h]
        exact hfl.le
      · rw [h]
        exact hfl
    have hpow : 10 ^ (1 + j) ≤ 10 ^ 17 := Nat.pow_le_pow_right (by norm_num) (by omega)
    have hr40 : r.1 < 10 ^ 40 := lt_of_le_of_lt (le_trans hrle hpow) (by norm_num)
    have hdig := natDigits_isDigit 40 r.1 [] (by simp)
    obtain ⟨ds, hds1, hds2, hds3, hds4, _⟩ := natDigits_spec 40 r.1 [] hr40 (by norm_num)
    rw [List.append_nil] at hds1
    rw [hds1] at hdig ⊢
    obtain ⟨z, hz⟩ := trimZeros_spec ds
    have hval : digitsToNat (trimZeros ds) * 10 ^ z = r.1 := by
      rw [← digitsToNat_append_zeros, ← hz, hds2]
    have hlen1 : 1 ≤ ds.length := by
      rcases Nat.eq_zero_or_pos ds.length with h0 | h0
      · rw [h0] at hds3
        simp at hds3
        omega
      · exact h0
    have hlen2 : ds.length ≤ j + 2 := by
      have h := le_trans (hds4 hr0) hrle
      have := (Nat.pow_le_pow_iff_right (by norm_num : 1 < 10)).mp h
      omega
    refine ⟨?_, ?_, ?_, ?_⟩
    · intro hnil
      have hnil2 : trimZeros ds = [] := hnil
      rw [hnil2] at hval
      simp [digitsToNat] at hval
      exact hr0 hval.symm
    · intro c hc'
      exact hdig c (trimZeros_subset ds c hc')
    · show -1000 < r.2 + (ds.length : Int) - 1
      rw [hk]
      push_cast
      omega
    · show r.2 + (ds.length : Int) - 1 < 1000
      rw [hk]
      push_cast
      omega
  · exfalso
    obtain ⟨hlo, hhi⟩ := hall 16 (by norm_num)
    have hs := seventeen_digits_suffice X L H den hden (v.mant % 2 == 0) dexp
      (by rw [hLr, hXr]; exact hgL) (by rw [hHr, hXr]; exact hgH) hd1
      (dexp - ((1 + 16 : Nat) : Int) + 1) (by push_cast; ring)
    rcases hs with h | h
    · rw [h] at hlo
      exact Bool.noConfusion hlo
    · rw [h] at hhi
      exact Bool.noConfusion hhi

/-- The string printed for a finite float64 denotes the number written with
the digits of `shortestDigits`. -/
theorem fmtG_value (v : FloatVal) (hv : IsFloat64 v) (hexp : v.exp ≤ 971) :
    numeralValue (fmtG v) =
      some ((decimalNum (shortestDigits v).1 (shortestDigits v).2 : ℚ) /
        decimalDen (shortestDigits v).1 (shortestDigits v).2) := by
  obtain ⟨h1, h2, h3, h4⟩ := shortestDigits_shape v hv hexp
  rw [fmtG_eq, decimal_value]
  split
  · exact fmtE_value _ _ h1 h2 h3 h4
  · exact fmtF_value _ _ h1 h2

end NvidiaSmi

namespace NvidiaSmi

/-! ## The floats that `filterUnit` prints -/

/-- The mantissa of a rounded quotient has at most `p` bits, or is `2 ^ p`. -/
theorem roundFloat_mant_le (p : Nat) (emin : Int) (num den : Nat) (hden : 0 < den) :
    (roundFloat p emin num den).mant ≤ 2 ^ p := by
  unfold roundFloat
  by_cases h0 : num = 0
  · rw [if_pos h0]
    exact Nat.zero_le _
  · rw [if_neg h0]
    simp only
    set s : Int := max (floorLog2Ratio num den) emin - ((p : Int) - 1) with hs
    set M := roundHalfEven (num * 2 ^ (-s).toNat) (den * 2 ^ s.toNat) with hM
    by_cases hMp : M = 2 ^ p
    · rw [if_pos hMp]
      exact Nat.pow_le_pow_right (by norm_num) (Nat.sub_le _ _)
    · rw [if_neg hMp]
      show M ≤ 2 ^ p
      have hD : 0 < den * 2 ^ s.toNat := Nat.mul_pos hden (by positivity)
      obtain ⟨⟨r1, _⟩, _⟩ := roundHalfEven_spec (num * 2 ^ (-s).toNat) (den * 2 ^ s.toNat) hD
      rw [scaled_quotient_two] at r1
      obtain ⟨_, hfl⟩ := floorLog2Ratio_spec num den (Nat.pos_of_ne_zero h0) hden
      have hps := two_zpow_pos s
      have hle : (2 : ℚ) ^ (floorLog2Ratio num den + 1) ≤ (2 : ℚ) ^ s * (2 : ℚ) ^ p := by
        rw [← zpow_natCast (2 : ℚ) p, ← zpow_add₀ (by norm_num)]
        apply zpow_le_zpow_right₀ (by norm_num)
        have := le_max_left (floorLog2Ratio num den) emin
        omega
      have hq : (num : ℚ) / den / (2 : ℚ) ^ s < (2 : ℚ) ^ p := by
        rw [div_lt_iff₀ hps]
        calc (num : ℚ) / den < (2 : ℚ) ^ (floorLog2Ratio num den + 1) := hfl
          _ ≤ (2 : ℚ) ^ s * (2 : ℚ) ^ p := hle
          _ = (2 : ℚ) ^ p * (2 : ℚ) ^ s := mul_comm _ _
      have hlt : (M : ℚ) < ((2 ^ p + 1 : Nat) : ℚ) := by
        push_cast
        linarith
      have : M < 2 ^ p + 1 := by exact_mod_cast hlt
      omega

/-- A quotient that rounds to a zero mantissa rounds to the float64 zero. -/
theorem roundFloat_zero (num den : Nat) (hden : 0 < den)
    (h : (roundFloat 53 (-1022) num den).mant = 0) :
    roundFloat 53 (-1022) num den = ⟨0, -1074⟩ := by
  rcases Nat.eq_zero_or_pos num with h0 | hpos
  · rw [h0]
    rfl
  · obtain ⟨hfl, _⟩ := floorLog2Ratio_spec num den hpos hden
    rw [roundFloat_unfold num den hpos] at h ⊢
    simp only at h ⊢
    set s : Int := max (floorLog2Ratio num den) (-1022) - 52 with hs
    set M := roundHalfEven (num * 2 ^ (-s).toNat) (den * 2 ^ s.toNat) with hM
    have hD : 0 < den * 2 ^ s.toNat := Nat.mul_pos hden (by positivity)
    obtain ⟨⟨_, r2⟩, _⟩ := roundHalfEven_spec (num * 2 ^ (-s).toNat) (den * 2 ^ s.toNat) hD
    rw [scaled_quotient_two, ← hM] at r2
    by_cases hMp : M = 2 ^ 53
    · rw [if_pos hMp] at h
      exact absurd h (by norm_num)
    · rw [if_neg hMp] at h ⊢
      have hM0 : M = 0 := h
      rw [hM0] at r2 ⊢
      have hps := two_zpow_pos s
      have hs74 : s = -1074 := by
        by_contra hne
        have hgt : -1022 < floorLog2Ratio num den := by
          rcases le_or_lt (floorLog2Ratio num den) (-1022) with hle | hlt
          · exact absurd (by rw [hs, max_eq_right hle]; norm_num) hne
          · exact hlt
        have hsf : s = floorLog2Ratio num den - 52 := by
          rw [hs, max_eq_left hgt.le]
        have h52 : (2 : ℚ) ^ floorLog2Ratio num den = (2 : ℚ) ^ s * 2 ^ 52 := by
          rw [← zpow_natCast (2 : ℚ) 52, ← zpow_add₀ (by norm_num)]
          congr 1
          rw [hsf]
          push_cast
          ring
        rw [div_le_iff₀ hps] at r2
        rw [h52] at hfl
        have : (2 : ℚ) ^ s * 2 ^ 52 ≤ (0 + 1 / 2) * (2 : ℚ) ^ s := by
          push_cast at r2
          linarith
        nlinarith
      rw [hs74]

theorem powerMultiplier_bounds (p : List Char) :
    0 < powerMultiplier p ∧ powerMultiplier p ≤ 2 ^ 40 := by
  unfold powerMultiplier
  split_ifs <;> norm_num

/-- What `ParseFloat(_, 32)` returns has at most 25 bits and an exponent of at
most 104. -/
theorem parseFloat32_bounds (s : List Char) (value : FloatVal)
    (h : parseFloat32 s = some value) : value.mant ≤ 2 ^ 24 ∧ value.exp ≤ 104 := by
  unfold parseFloat32 at h
  split at h
  · exact absurd h (by simp)
  · rename_i d f _
    simp only at h
    split at h
    · exact absurd h (by simp)
    · rename_i hexp
      have hv : roundFloat 24 (-126) d (10 ^ f) = value := Option.some.inj h
      rw [← hv]
      exact ⟨roundFloat_mant_le 24 (-126) d (10 ^ f) (by positivity), by omega⟩

/-- A float64 that is the rounding of a number below `2 ^ 168` is finite. -/
theorem roundsTo_exp_le (v : FloatVal) (hv : IsFloat64 v) (q : ℚ) (h : RoundsTo v q)
    (hq : q ≤ 2 ^ 168) : v.exp ≤ 971 := by
  rcases hv with ⟨h1, _, _⟩ | ⟨_, _, h3⟩
  · by_contra hgt
    push_neg at hgt
    have hp := two_zpow_pos v.exp
    have hpow : (2 : ℚ) ^ (972 : Int) ≤ (2 : ℚ) ^ v.exp :=
      zpow_le_zpow_right₀ (by norm_num) (by omega)
    have hm : (2 : ℚ) ^ 52 ≤ v.mant := by exact_mod_cast h1
    have hlow : ((v.mant : ℚ) - 1 / 2) * (2 : ℚ) ^ v.exp ≤ q := by
      unfold RoundsTo FloatVal.lowerEnd at h
      have hl : ((v.mant : ℚ) - 1 / 2) * (2 : ℚ) ^ v.exp ≤
          (if v.mant = 2 ^ 52 ∧ -1074 < v.exp then (v.mant : ℚ) - 1 / 4
            else (v.mant : ℚ) - 1 / 2) * (2 : ℚ) ^ v.exp := by
        apply mul_le_mul_of_nonneg_right _ hp.le
        split <;> linarith
      split at h
      · exact le_trans hl h.1
      · exact le_trans hl h.1.le
    have h51 : (2 : ℚ) ^ 51 * (2 : ℚ) ^ v.exp ≤ ((v.mant : ℚ) - 1 / 2) * (2 : ℚ) ^ v.exp := by
      apply mul_le_mul_of_nonneg_right _ hp.le
      linarith
    have hbig : (2 : ℚ) ^ 51 * (2 : ℚ) ^ (972 : Int) ≤ 2 ^ 168 :=
      le_trans (le_trans (le_trans (mul_le_mul_of_nonneg_left hpow (by norm_num)) h51) hlow) hq
    norm_num at hbig
  · omega

/-- The product that `filterUnit` prints, when not zero, is a finite float64
in normal form. -/
theorem mulFloat64_finite (s p : List Char) (value : FloatVal)
    (hv : parseFloat32 s = some value)
    (hne : (mulFloat64 value (powerMultiplier p)).mant ≠ 0) :
    IsFloat64 (mulFloat64 value (powerMultiplier p)) ∧
      (mulFloat64 value (powerMultiplier p)).exp ≤ 971 := by
  obtain ⟨hm, he⟩ := parseFloat32_bounds s value hv
  obtain ⟨hc0, hc1⟩ := powerMultiplier_bounds p
  unfold mulFloat64 at hne ⊢
  have hden : 0 < 2 ^ (-value.exp).toNat := by positivity
  have hnum : 0 < value.mant * powerMultiplier p * 2 ^ value.exp.toNat := by
    rcases Nat.eq_zero_or_pos (value.mant * powerMultiplier p * 2 ^ value.exp.toNat) with h0 | h0
    · rw [h0] at hne
      exact absurd rfl hne
    · exact h0
  obtain ⟨hf, hr⟩ := roundFloat_roundsTo _ _ hnum hden hne
  refine ⟨hf, roundsTo_exp_le _ hf _ hr ?_⟩
  have hq : ((value.mant * powerMultiplier p * 2 ^ value.exp.toNat : Nat) : ℚ) /
      ((2 ^ (-value.exp).toNat : Nat) : ℚ) =
      (value.mant : ℚ) * (powerMultiplier p : ℚ) * (2 : ℚ) ^ value.exp := by
    push_cast
    rw [mul_div_assoc, ← zpow_split]
  rw [hq]
  have h1 : (value.mant : ℚ) ≤ 2 ^ 24 := by exact_mod_cast hm
  have h2 : (powerMultiplier p : ℚ) ≤ 2 ^ 40 := by exact_mod_cast hc1
  have h3 : (2 : ℚ) ^ value.exp ≤ (2 : ℚ) ^ (104 : Int) :=
    zpow_le_zpow_right₀ (by norm_num) he
  have hp := two_zpow_pos value.exp
  calc (value.mant : ℚ) * (powerMultiplier p : ℚ) * (2 : ℚ) ^ value.exp
      ≤ 2 ^ 24 * 2 ^ 40 * (2 : ℚ) ^ (104 : Int) :=
        mul_le_mul (mul_le_mul h1 h2 (by positivity) (by norm_num)) h3 hp.le (by norm_num)
    _ = 2 ^ 168 := by norm_num

end NvidiaSmi

namespace NvidiaSmi

/-! ## C17: what `filterUnit` prints -/

/-- C17 (as stated, refuted): for "0.1 W" and "17.52 W" `filterUnit` returns
the seventeen digits of the double-precision value of the single-precision
number, not "0.1" and "17.52", although "0.1" is read back as the same
single-precision number as the string returned and is shorter. -/
theorem filterUnit_not_shortest_single_precision :
    filterUnit "0.1 W" = "0.10000000149011612" ∧ filterUnit "0.1 W" ≠ "0.1" ∧
    parseFloat32 "0.1".data = parseFloat32 (filterUnit "0.1 W").data ∧
    filterUnit "17.52 W" = "17.520000457763672" ∧ filterUnit "17.52 W" ≠ "17.52" ∧
    parseFloat32 "17.52".data = parseFloat32 (filterUnit "17.52 W").data := by
  decide

end NvidiaSmi

namespace NvidiaSmi

/-! ## The prefix and the label (C1) -/

/-- The multiplier read off `p ++ u` is the table's multiplier for `p` unless
the label is read as part of the prefix: a label starting with `K`, `M`, `G`
or `T` after the empty prefix, or with `i` after a one-letter prefix. -/
theorem leadingMultiplier_table (p : String) (u : List Char)
    (hp : p ∈ ["", "K", "M", "G", "T", "Ki", "Mi", "Gi", "Ti"]) :
    leadingMultiplier (p.data ++ u) = specMultiplier p ↔
      ((p = "" → ∀ c ∈ u.head?, c ∉ ['K', 'M', 'G', 'T']) ∧
        (p ∈ ["K", "M", "G", "T"] → ∀ c ∈ u.head?, c ≠ 'i')) := by
  simp only [List.mem_cons, List.mem_singleton, List.not_mem_nil, or_false] at hp
  rcases hp with rfl | rfl | rfl | rfl | rfl | rfl | rfl | rfl | rfl
  · -- no prefix
    cases u with
    | nil => simp [leadingMultiplier, specMultiplier]
    | cons c rest =>
      have hs : specMultiplier "" = 1 := by decide
      simp only [hs, String.data, List.nil_append, List.head?_cons, Option.mem_def,
        Option.some.injEq, forall_eq', true_implies]
      have hno : ¬ ("" ∈ ["K", "M", "G", "T"]) := by decide
      simp only [hno, false_implies, and_true]
      unfold leadingMultiplier
      by_cases hK : c = 'K'
      · subst hK
        cases rest with
        | nil => simp
        | cons d _ => by_cases hd : d = 'i' <;> simp [hd]
      by_cases hM : c = 'M'
      · subst hM
        cases rest with
        | nil => simp
        | cons d _ => by_cases hd : d = 'i' <;> simp [hd]
      by_cases hG : c = 'G'
      · subst hG
        cases rest with
        | nil => simp
        | cons d _ => by_cases hd : d = 'i' <;> simp [hd]
      by_cases hT : c = 'T'
      · subst hT
        cases rest with
        | nil => simp
        | cons d _ => by_cases hd : d = 'i' <;> simp [hd]
      simp [hK, hM, hG, hT]
  · -- the prefix K
    have hs : specMultiplier "K" = 10 ^ 3 := by decide
    have h1 : ¬ ("K" = "") := by decide
    have h2 : "K" ∈ ["K", "M", "G", "T"] := by decide
    simp only [hs, h1, h2, false_implies, true_implies, true_and]
    cases u with
    | nil => simp [leadingMultiplier]
    | cons d rest =>
      by_cases hd : d = 'i'
      · simp [leadingMultiplier, hd]
      · simp [leadingMultiplier, hd]
  · -- the prefix M
    have hs : specMultiplier "M" = 10 ^ 6 := by decide
    have h1 : ¬ ("M" = "") := by decide
    have h2 : "M" ∈ ["K", "M", "G", "T"] := by decide
    simp only [hs, h1, h2, false_implies, true_implies, true_and]
    cases u with
    | nil => simp [leadingMultiplier]
    | cons d rest =>
      by_cases hd : d = 'i'
      · simp [leadingMultiplier, hd]
      · simp [leadingMultiplier, hd]
  · -- the prefix G
    have hs : specMultiplier "G" = 10 ^ 9 := by decide
    have h1 : ¬ ("G" = "") := by decide
    have h2 : "G" ∈ ["K", "M", "G", "T"] := by decide
    simp only [hs, h1, h2, false_implies, true_implies, true_and]
    cases u with
    | nil => simp [leadingMultiplier]
    | cons d rest =>
      by_cases hd : d = 'i'
      · simp [leadingMultiplier, hd]
      · simp [leadingMultiplier, hd]
  · -- the prefix T
    have hs : specMultiplier "T" = 10 ^ 12 := by decide
    have h1 : ¬ ("T" = "") := by decide
    have h2 : "T" ∈ ["K", "M", "G", "T"] := by decide
    simp only [hs, h1, h2, false_implies, true_implies, true_and]
    cases u with
    | nil => simp [leadingMultiplier]
    | cons d rest =>
      by_cases hd : d = 'i'
      · simp [leadingMultiplier, hd]
      · simp [leadingMultiplier, hd]
  · -- the prefix Ki
    have hs : specMultiplier "Ki" = 2 ^ 10 := by decide
    have h1 : ¬ ("Ki" = "") := by decide
    have h2 : ¬ ("Ki" ∈ ["K", "M", "G", "T"]) := by decide
    simp only [hs, h1, h2, false_implies, and_self, iff_true]
    simp [leadingMultiplier]
  · -- the prefix Mi
    have hs : specMultiplier "Mi" = 2 ^ 20 := by decide
    have h1 : ¬ ("Mi" = "") := by decide
    have h2 : ¬ ("Mi" ∈ ["K", "M", "G", "T"]) := by decide
    simp only [hs, h1, h2, false_implies, and_self, iff_true]
    simp [leadingMultiplier]
  · -- the prefix Gi
    have hs : specMultiplier "Gi" = 2 ^ 30 := by decide
    have h1 : ¬ ("Gi" = "") := by decide
    have h2 : ¬ ("Gi" ∈ ["K", "M", "G", "T"]) := by decide
    simp only [hs, h1, h2, false_implies, and_self, iff_true]
    simp [leadingMultiplier]
  · -- the prefix Ti
    have hs : specMultiplier "Ti" = 2 ^ 40 := by decide
    have h1 : ¬ ("Ti" = "") := by decide
    have h2 : ¬ ("Ti" ∈ ["K", "M", "G", "T"]) := by decide
    simp only [hs, h1, h2, false_implies, and_self, iff_true]
    simp [leadingMultiplier]

end NvidiaSmi

namespace NvidiaSmi

/-- C1 (amended): for a non-empty numeral `n` over digits and points, a prefix
`p` of the table and any label `u`, `filterUnit (n ++ " " ++ p ++ u)` is the
`%g` rendering of the float64 product of `n` rounded to single precision with
the multiplier `m` read off the start of `p ++ u`, and "0" when `n` is no
decimal or exceeds the single-precision range; `m` is the table's multiplier
for `p` exactly when the label is not read as part of the prefix, that is
unless `u` starts with `K`, `M`, `G` or `T` after the empty prefix or with `i`
after `K`, `M`, `G` or `T`, so that for all other labels the result is the
rendering of the product with the table's multiplier for `p`; and when `n` is
an integer numeral below `2 ^ 24` nothing is rounded and the result is the
`%g` numeral of `n × m` itself. -/
theorem filterUnit_prefix_and_label (n p u : String)
    (hn : n ≠ "") (hnum : ∀ c ∈ n.data, c.isDigit = true ∨ c = '.')
    (hp : p ∈ ["", "K", "M", "G", "T", "Ki", "Mi", "Gi", "Ti"]) :
    filterUnit (n ++ " " ++ p ++ u) =
      (match parseFloat32 n.data with
       | some value =>
         String.mk (fmtG (mulFloat64 value (leadingMultiplier (p.data ++ u.data))))
       | none => "0") ∧
    (leadingMultiplier (p.data ++ u.data) = specMultiplier p ↔
      ((p = "" → ∀ c ∈ u.data.head?, c ∉ ['K', 'M', 'G', 'T']) ∧
        (p ∈ ["K", "M", "G", "T"] → ∀ c ∈ u.data.head?, c ≠ 'i'))) ∧
    (((p = "" → ∀ c ∈ u.data.head?, c ∉ ['K', 'M', 'G', 'T']) ∧
        (p ∈ ["K", "M", "G", "T"] → ∀ c ∈ u.data.head?, c ≠ 'i')) →
      filterUnit (n ++ " " ++ p ++ u) =
        (match parseFloat32 n.data with
         | some value => String.mk (fmtG (mulFloat64 value (specMultiplier p)))
         | none => "0") ∧
      ((∀ c ∈ n.data, c.isDigit = true) → digitsToNat n.data < 2 ^ 24 →
        filterUnit (n ++ " " ++ p ++ u) =
          numeral (digitsToNat n.data * specMultiplier p) 1)) ∧
    ((∀ c ∈ n.data, c.isDigit = true) → digitsToNat n.data < 2 ^ 24 →
      filterUnit (n ++ " " ++ p ++ u) =
        numeral (digitsToNat n.data * leadingMultiplier (p.data ++ u.data)) 1) := by
  have hs : n ++ " " ++ p ++ u = String.mk (n.data ++ ' ' :: (p.data ++ u.data)) := by
    apply String.ext
    simp [String.data_append]
  have hn' : n.data ≠ [] := fun h => hn (String.ext (by simpa using h))
  have hnum' : ∀ x ∈ n.data, isNumChar x = true := by
    intro x hx
    rcases hnum x hx with h | h
    · simp [isNumChar, isDigit, h]
    · simp [isNumChar, h]
  have hrun := filterUnit_leading n.data (p.data ++ u.data) hn' hnum'
  rw [← hs] at hrun
  have htab := leadingMultiplier_table p u.data hp
  have hint : (∀ c ∈ n.data, c.isDigit = true) → digitsToNat n.data < 2 ^ 24 →
      filterUnit (n ++ " " ++ p ++ u) =
        numeral (digitsToNat n.data * leadingMultiplier (p.data ++ u.data)) 1 := by
    intro hD hN
    rw [hrun, parseFloat32_small n.data hn' hD hN]
    simp only [mulFloat64_small _ _ hN, numeral]
  refine ⟨hrun, htab, fun hu => ?_, hint⟩
  rw [← htab.mpr hu]
  exact ⟨hrun, hint⟩

/-- C1 (amended) at "961 MHz", the clock of the repository's test, and at
"1005 MiB", where the multiplier read is the table's; and at
`"5" ++ " " ++ "K" ++ "iB"`, where the label starts with `i` and the multiplier
read is 1024, not the table's 1000 for `K`. -/
theorem filterUnit_prefix_and_label_witness :
    ("961" ≠ "" ∧ (∀ c ∈ "961".data, c.isDigit = true ∨ c = '.') ∧
      "M" ∈ ["", "K", "M", "G", "T", "Ki", "Mi", "Gi", "Ti"] ∧
      (∀ c ∈ "961".data, c.isDigit = true) ∧ digitsToNat "961".data < 2 ^ 24) ∧
    (filterUnit ("961" ++ " " ++ "M" ++ "Hz") =
        numeral (digitsToNat "961".data * leadingMultiplier ("M".data ++ "Hz".data)) 1 ∧
      leadingMultiplier ("M".data ++ "Hz".data) = specMultiplier "M" ∧
      numeral (961 * 10 ^ 6) 1 = "9.61e+08" ∧
      filterUnit ("961" ++ " " ++ "M" ++ "Hz") = "9.61e+08") ∧
    (filterUnit ("1005" ++ " " ++ "Mi" ++ "B") =
        numeral (digitsToNat "1005".data * leadingMultiplier ("Mi".data ++ "B".data)) 1 ∧
      leadingMultiplier ("Mi".data ++ "B".data) = specMultiplier "Mi" ∧
      numeral (1005 * 2 ^ 20) 1 = "1.05381888e+09" ∧
      filterUnit ("1005" ++ " " ++ "Mi" ++ "B") = "1.05381888e+09") ∧
    (filterUnit ("5" ++ " " ++ "K" ++ "iB") =
        numeral (digitsToNat "5".data * leadingMultiplier ("K".data ++ "iB".data)) 1 ∧
      leadingMultiplier ("K".data ++ "iB".data) = 2 ^ 10 ∧
      specMultiplier "K" = 10 ^ 3 ∧
      filterUnit ("5" ++ " " ++ "K" ++ "iB") = "5120") :=
  ⟨⟨by decide, by decide, by decide, by decide, by decide⟩,
    ⟨(filterUnit_prefix_and_label "961" "M" "Hz" (by decide) (by decide) (by decide)).2.2.2
        (by decide) (by decide),
      ((filterUnit_prefix_and_label "961" "M" "Hz" (by decide) (by decide) (by decide)).2.1).mpr
        (by decide),
      by decide, by decide⟩,
    ⟨(filterUnit_prefix_and_label "1005" "Mi" "B" (by decide) (by decide) (by decide)).2.2.2
        (by decide) (by decide),
      ((filterUnit_prefix_and_label "1005" "Mi" "B" (by decide) (by decide) (by decide)).2.1).mpr
        (by decide),
      by decide, by decide⟩,
    ⟨(filterUnit_prefix_and_label "5" "K" "iB" (by decide) (by decide) (by decide)).2.2.2
        (by decide) (by decide),
      by decide, by decide, by decide⟩⟩

end NvidiaSmi

namespace NvidiaSmi

/-! ## The leftmost match (C5, C6) -/

/-- The search skips a beginning at no position of which the expression matches. -/
theorem findSubmatch_skip (r : Regex) (T : List Char) :
    ∀ pre : List Char,
      (∀ p1 p2, pre = p1 ++ p2 → p2 ≠ [] →
        matchK r (p2 ++ T) [] (fun _ c => some c) = none) →
      findSubmatch r (pre ++ T) = findSubmatch r T := by
  intro pre
  induction pre with
  | nil =>
    intro _
    rfl
  | cons x xs ih =>
    intro h
    have h0 := h [] (x :: xs) rfl (by simp)
    have hstep : findSubmatch r (x :: xs ++ T) = findSubmatch r (xs ++ T) := by
      show findSubmatch r (x :: (xs ++ T)) = _
      rw [findSubmatch]
      rw [List.cons_append] at h0
      rw [h0]
    rw [hstep]
    apply ih
    intro p1 p2 hp hne
    exact h (x :: p1) p2 (by simp [hp]) hne

/-- A match of `versionRegex` starts with digits, a point and digits. -/
theorem matchK_versionRegex_shape (t : List Char) (a : Caps)
    (h : matchK versionRegex t [] (fun _ c => some c) = some a) :
    ∃ ds es rest, t = ds ++ '.' :: (es ++ rest) ∧ ds ≠ [] ∧ (∀ x ∈ ds, isDigit x = true) ∧
      es ≠ [] ∧ (∀ x ∈ es, isDigit x = true) := by
  simp only [versionRegex, matchK_seq, matchK_group, matchK_star, Regex.lit] at h
  obtain ⟨ds, rest, hne, ht, hall, hk⟩ := matchK_plus_cls_sound _ _ _ _ _ h
  cases rest with
  | nil => simp [matchK_cls_nil] at hk
  | cons x xs =>
    by_cases hx : (x == '.') = true
    · simp only [matchK_cls_cons, hx, if_true] at hk
      obtain ⟨es, rest', hne', hxs, hall', _⟩ := matchK_plus_cls_sound _ _ _ _ _ hk
      have hxeq : x = '.' := by simpa using hx
      exact ⟨ds, es, rest', by rw [ht, hxeq, hxs], hne, hall, hne', hall'⟩
    · simp [matchK_cls_cons, hx] at hk

/-- A match of `unitRegex` starts with digits or points and a space. -/
theorem matchK_unitRegex_shape (t : List Char) (a : Caps)
    (h : matchK unitRegex t [] (fun _ c => some c) = some a) :
    ∃ ds rest, t = ds ++ ' ' :: rest ∧ ds ≠ [] ∧ (∀ x ∈ ds, isNumChar x = true) := by
  rw [unitRegex, matchK_seq, matchK_group] at h
  obtain ⟨ds, rest, hne, ht, hall, hk⟩ := matchK_plus_cls_sound _ _ _ _ _ h
  cases rest with
  | nil => simp [matchK_seq, Regex.lit, matchK_cls_nil] at hk
  | cons x xs =>
    by_cases hx : (x == ' ') = true
    · have hxeq : x = ' ' := by simpa using hx
      exact ⟨ds, xs, by rw [ht, hxeq], hne, hall⟩
    · simp [matchK_seq, Regex.lit, matchK_cls_cons, hx] at hk

theorem exists_init_last (l : List Char) (h : l ≠ []) : ∃ init last, l = init ++ [last] := by
  rcases List.eq_nil_or_concat l with h0 | ⟨i, x, hil⟩
  · exact absurd h0 h
  · exact ⟨i, x, by simpa using hil⟩

/-- Before a dotted run that is not the continuation of a digit run and is not
preceded by another dotted run, `versionRegex` matches at no position. -/
theorem versionRegex_no_earlier_match (pre major tail : List Char)
    (hmajor : major ≠ []) (hmajorD : ∀ x ∈ major, isDigit x = true)
    (hlast : ∀ init x, pre = init ++ [x] → isDigit x = false)
    (hno : ∀ x c d y, pre ++ major = x ++ c :: '.' :: d :: y →
      ¬ (isDigit c = true ∧ isDigit d = true)) :
    ∀ p1 p2, pre = p1 ++ p2 → p2 ≠ [] →
      matchK versionRegex (p2 ++ (major ++ '.' :: tail)) [] (fun _ c => some c) = none := by
  intro p1 p2 hpre hp2
  cases hm : matchK versionRegex (p2 ++ (major ++ '.' :: tail)) [] (fun _ c => some c) with
  | none => rfl
  | some a =>
    exfalso
    obtain ⟨ds, es, rest, ht, hds, hdsD, hes, hesD⟩ := matchK_versionRegex_shape _ _ hm
    have hdot : isDigit '.' = false := by decide
    -- the digits of the match cannot be all of `p2 ++ major`
    have hall : ds ≠ p2 ++ major := by
      intro heq
      obtain ⟨pi, pl, hpl⟩ := exists_init_last p2 hp2
      have h1 : isDigit pl = true := hdsD pl (by rw [heq, hpl]; simp)
      have h2 := hlast (p1 ++ pi) pl (by rw [hpre, hpl, List.append_assoc])
      rw [h1] at h2
      exact Bool.noConfusion h2
    have ht' : (p2 ++ major) ++ ('.' :: tail) = ds ++ ('.' :: (es ++ rest)) := by
      rw [List.append_assoc]
      exact ht
    rcases List.append_eq_append_iff.mp ht' with ⟨a', h1, h2⟩ | ⟨c', h1, h2⟩
    · cases a' with
      | nil => exact hall (by simpa using h1)
      | cons y a'' =>
        have hy : y = '.' := by
          have := congrArg List.head? h2
          simpa using this.symm
        have : isDigit y = true := hdsD y (by rw [h1]; simp)
        rw [hy, hdot] at this
        exact Bool.noConfusion this
    · cases c' with
      | nil => exact hall (by simpa using h1.symm)
      | cons y c'' =>
        have hy : y = '.' := by
          have := congrArg List.head? h2
          simpa using this.symm
        have h2' : es ++ rest = c'' ++ '.' :: tail := by
          have := congrArg List.tail h2
          simpa using this
        obtain ⟨di, dl, hdl⟩ := exists_init_last ds hds
        cases c'' with
        | nil =>
          -- `major` would end with the point
          obtain ⟨mi, ml, hml⟩ := exists_init_last major hmajor
          have heq : (p2 ++ mi) ++ [ml] = ds ++ [y] := by
            rw [List.append_assoc, ← hml]
            exact h1
          have := (List.append_inj' heq rfl).2
          have hmly : ml = y := by simpa using this
          have : isDigit ml = true := hmajorD ml (by rw [hml]; simp)
          rw [hmly, hy, hdot] at this
          exact Bool.noConfusion this
        | cons z c''' =>
          cases es with
          | nil => exact hes rfl
          | cons e es' =>
            have hez : e = z := by
              have := congrArg List.head? h2'
              simpa using this
            have hz : isDigit z = true := hez ▸ hesD e (by simp)
            have hl : isDigit dl = true := hdsD dl (by rw [hdl]; simp)
            refine hno (p1 ++ di) dl z c''' ?_ ⟨hl, hz⟩
            rw [hpre, List.append_assoc p1 p2 major, h1, hdl, hy]
            simp

/-- Before a run of digits and points followed by a space that is not the
continuation of such a run and is not preceded by another one, `unitRegex`
matches at no position. -/
theorem unitRegex_no_earlier_match (pre n tail : List Char)
    (hnN : ∀ x ∈ n, isNumChar x = true)
    (hlast : ∀ init x, pre = init ++ [x] → isNumChar x = false)
    (hno : ∀ x c y, pre = x ++ c :: ' ' :: y → isNumChar c = false) :
    ∀ p1 p2, pre = p1 ++ p2 → p2 ≠ [] →
      matchK unitRegex (p2 ++ (n ++ ' ' :: tail)) [] (fun _ c => some c) = none := by
  intro p1 p2 hpre hp2
  cases hm : matchK unitRegex (p2 ++ (n ++ ' ' :: tail)) [] (fun _ c => some c) with
  | none => rfl
  | some a =>
    exfalso
    obtain ⟨ds, rest, ht, hds, hdsN⟩ := matchK_unitRegex_shape _ _ hm
    have hsp : isNumChar ' ' = false := by decide
    have hall : ds ≠ p2 ++ n := by
      intro heq
      obtain ⟨pi, pl, hpl⟩ := exists_init_last p2 hp2
      have h1 : isNumChar pl = true := hdsN pl (by rw [heq, hpl]; simp)
      have h2 := hlast (p1 ++ pi) pl (by rw [hpre, hpl, List.append_assoc])
      rw [h1] at h2
      exact Bool.noConfusion h2
    have ht' : (p2 ++ n) ++ (' ' :: tail) = ds ++ (' ' :: rest) := by
      rw [List.append_assoc]
      exact ht
    rcases List.append_eq_append_iff.mp ht' with ⟨a', h1, h2⟩ | ⟨c', h1, h2⟩
    · cases a' with
      | nil => exact hall (by simpa using h1)
      | cons y a'' =>
        have hy : y = ' ' := by
          have := congrArg List.head? h2
          simpa using this.symm
        have : isNumChar y = true := hdsN y (by rw [h1]; simp)
        rw [hy, hsp] at this
        exact Bool.noConfusion this
    · cases c' with
      | nil => exact hall (by simpa using h1.symm)
      | cons y c'' =>
        have hy : y = ' ' := by
          have := congrArg List.head? h2
          simpa using this.symm
        obtain ⟨di, dl, hdl⟩ := exists_init_last ds hds
        have hl : isNumChar dl = true := hdsN dl (by rw [hdl]; simp)
        -- the space is in `p2`, since `n` has none
        have h1' : p2 ++ n = (di ++ [dl, ' ']) ++ c'' := by
          rw [h1, hdl, hy]
          simp
        rcases List.append_eq_append_iff.mp h1' with ⟨b, hb1, hb2⟩ | ⟨b, hb1, hb2⟩
        · cases b with
          | nil =>
            have hp : p2 = di ++ [dl, ' '] := by simpa using hb1.symm
            have := hno (p1 ++ di) dl [] (by rw [hpre, hp]; simp)
            rw [hl] at this
            exact Bool.noConfusion this
          | cons b0 bs =>
            obtain ⟨bi, bl, hbl⟩ := exists_init_last (b0 :: bs) (by simp)
            have heq : (di ++ [dl]) ++ [' '] = (p2 ++ bi) ++ [bl] := by
              rw [List.append_assoc p2, ← hbl, ← hb1]
              simp
            have := (List.append_inj' heq rfl).2
            have hbsp : bl = ' ' := by simpa using this.symm
            have : isNumChar bl = true := hnN bl (by rw [hb2, hbl]; simp)
            rw [hbsp, hsp] at this
            exact Bool.noConfusion this
        · have := hno (p1 ++ di) dl b (by rw [hpre, hb1]; simp)
          rw [hl] at this
          exact Bool.noConfusion this

end NvidiaSmi

namespace NvidiaSmi

/-! ## The leftmost run exists -/

theorem exists_least {P : Nat → Prop} (h : ∃ k, P k) : ∃ k, P k ∧ ∀ j, j < k → ¬ P j := by
  classical
  exact ⟨Nat.find h, Nat.find_spec h, fun j hj => Nat.find_min h hj⟩

theorem dropWhile_head_false (p : Char → Bool) :
    ∀ (l : List Char) (y : Char) (t : List Char), l.dropWhile p = y :: t → p y = false := by
  intro l
  induction l with
  | nil =>
    intro y t h
    simp at h
  | cons x xs ih =>
    intro y t h
    by_cases hx : p x = true
    · rw [List.dropWhile_cons_of_pos hx] at h
      exact ih y t h
    · rw [List.dropWhile_cons_of_neg hx] at h
      have : x = y := (List.cons.inj h).1
      rw [← this]
      simpa using hx

/-- A text splits into a beginning that does not end in the class and a run
of the class up to its end. -/
theorem split_last_run (p : Char → Bool) (x : List Char) :
    ∃ pre m, x = pre ++ m ∧ (∀ c ∈ m, p c = true) ∧
      (∀ init y, pre = init ++ [y] → p y = false) := by
  refine ⟨(x.reverse.dropWhile p).reverse, (x.reverse.takeWhile p).reverse, ?_, ?_, ?_⟩
  · rw [← List.reverse_append, List.takeWhile_append_dropWhile, List.reverse_reverse]
  · intro c hc
    exact List.mem_takeWhile_imp (List.mem_reverse.mp hc)
  · intro init y h
    have h' : x.reverse.dropWhile p = y :: init.reverse := by
      have := congrArg List.reverse h
      simpa using this
    exact dropWhile_head_false p _ _ _ h'

/-- A text with a digit or point followed by a space has a leftmost one. -/
theorem exists_leftmost_number_space (l : List Char)
    (h : ∃ x c y, l = x ++ c :: ' ' :: y ∧ isNumChar c = true) :
    ∃ pre n t, l = pre ++ (n ++ ' ' :: t) ∧ n ≠ [] ∧ (∀ c ∈ n, isNumChar c = true) ∧
      (∀ init x, pre = init ++ [x] → isNumChar x = false) ∧
      (∀ x c y, pre = x ++ c :: ' ' :: y → isNumChar c = false) := by
  have hP : ∃ k, ∃ x c y, x.length = k ∧ l = x ++ c :: ' ' :: y ∧ isNumChar c = true := by
    obtain ⟨x, c, y, h1, h2⟩ := h
    exact ⟨x.length, x, c, y, rfl, h1, h2⟩
  obtain ⟨k, ⟨x, c, y, hk, hl, hc⟩, hmin⟩ := exists_least hP
  obtain ⟨pre, m, hx, hm, hlast⟩ := split_last_run isNumChar x
  refine ⟨pre, m ++ [c], y, ?_, by simp, ?_, hlast, ?_⟩
  · rw [hl, hx]
    simp
  · intro z hz
    rcases List.mem_append.mp hz with h1 | h1
    · exact hm z h1
    · rw [List.mem_singleton.mp h1]
      exact hc
  · intro x' c' y' hpre
    rcases Bool.eq_false_or_eq_true (isNumChar c') with h1 | h1
    · exfalso
      apply hmin x'.length _ ⟨x', c', y' ++ (m ++ c :: ' ' :: y), rfl, ?_, h1⟩
      · rw [← hk, hx, hpre]
        simp
      · rw [hl, hx, hpre]
        simp
    · exact h1

/-- A text with a digit, a point and a digit in a row has a leftmost dotted run. -/
theorem exists_leftmost_dotted_run (l : List Char)
    (h : ∃ x c d y, l = x ++ c :: '.' :: d :: y ∧ isDigit c = true ∧ isDigit d = true) :
    ∃ pre major minor rest, l = pre ++ (major ++ '.' :: (minor ++ rest)) ∧
      major ≠ [] ∧ (∀ c ∈ major, isDigit c = true) ∧
      minor ≠ [] ∧ (∀ c ∈ minor, isDigit c = true) ∧
      (∀ x xs, rest = x :: xs → isDigit x = false) ∧
      (∀ init x, pre = init ++ [x] → isDigit x = false) ∧
      (∀ x c d y, pre ++ major = x ++ c :: '.' :: d :: y →
        ¬ (isDigit c = true ∧ isDigit d = true)) := by
  have hP : ∃ k, ∃ x c d y, x.length = k ∧ l = x ++ c :: '.' :: d :: y ∧
      isDigit c = true ∧ isDigit d = true := by
    obtain ⟨x, c, d, y, h1, h2, h3⟩ := h
    exact ⟨x.length, x, c, d, y, rfl, h1, h2, h3⟩
  obtain ⟨k, ⟨x, c, d, y, hk, hl, hc, hd⟩, hmin⟩ := exists_least hP
  obtain ⟨pre, m, hx, hm, hlast⟩ := split_last_run isDigit x
  refine ⟨pre, m ++ [c], d :: y.takeWhile isDigit, y.dropWhile isDigit, ?_, by simp, ?_,
    by simp, ?_, ?_, hlast, ?_⟩
  · rw [hl, hx]
    simp [List.takeWhile_append_dropWhile]
  · intro z hz
    rcases List.mem_append.mp hz with h1 | h1
    · exact hm z h1
    · rw [List.mem_singleton.mp h1]
      exact hc
  · intro z hz
    rcases List.mem_cons.mp hz with h1 | h1
    · rw [h1]
      exact hd
    · exact List.mem_takeWhile_imp h1
  · intro z zs hz
    exact dropWhile_head_false isDigit _ _ _ hz
  · intro x' c' d' y' hpre hcd
    have hxc : x ++ [c] = x' ++ c' :: '.' :: d' :: y' := by
      rw [hx, List.append_assoc]
      exact hpre
    have hlen : x.length + 1 = x'.length + 3 + y'.length := by
      have := congrArg List.length hxc
      simp at this
      omega
    apply hmin x'.length (by omega) ⟨x', c', d', y' ++ '.' :: d :: y, rfl, ?_, hcd.1, hcd.2⟩
    have : l = (x ++ [c]) ++ '.' :: d :: y := by
      rw [hl]
      simp
    rw [this, hxc]
    simp

end NvidiaSmi

namespace NvidiaSmi

theorem isNumChar_iff (c : Char) : isNumChar c = true ↔ (c.isDigit = true ∨ c = '.') := by
  simp [isNumChar, isDigit]

theorem isNumChar_false_iff (c : Char) :
    isNumChar c = false ↔ ¬ (c.isDigit = true ∨ c = '.') := by
  rw [← isNumChar_iff]
  simp

theorem getLast?_of_append_singleton (l init : List Char) (x : Char) (h : l = init ++ [x]) :
    x ∈ l.getLast? := by
  rw [h]
  simp

/-- What `formatVersion` renders on a string whose leftmost dotted digit run
is `major.minor`. -/
theorem formatVersion_leftmost (key meta : String) (pre major minor rest : List Char)
    (hmajor : major ≠ []) (hmajorD : ∀ x ∈ major, isDigit x = true)
    (hminor : minor ≠ []) (hminorD : ∀ x ∈ minor, isDigit x = true)
    (hrest : ∀ x xs, rest = x :: xs → isDigit x = false)
    (hlast : ∀ init x, pre = init ++ [x] → isDigit x = false)
    (hno : ∀ x c d y, pre ++ major = x ++ c :: '.' :: d :: y →
      ¬ (isDigit c = true ∧ isDigit d = true)) :
    formatVersion key meta (String.mk (pre ++ (major ++ '.' :: (minor ++ rest)))) =
      formatValue key meta (String.mk (major ++ '.' :: minor)) := by
  obtain ⟨a, ha, h1⟩ := matchK_versionRegex_run major minor rest hmajor hmajorD hminor hminorD hrest
  have hfind := findSubmatch_of_matchK _ _ _ ha
  have hskip := findSubmatch_skip versionRegex (major ++ '.' :: (minor ++ rest)) pre
    (versionRegex_no_earlier_match pre major (minor ++ rest) hmajor hmajorD hlast hno)
  simp only [formatVersion, hskip, hfind, h1]

/-- What `filterUnit` computes on a string whose leftmost run of digits and
points followed by a space is `n`. -/
theorem filterUnit_leftmost (pre n t : List Char)
    (hn : n ≠ []) (hnN : ∀ x ∈ n, isNumChar x = true)
    (hlast : ∀ init x, pre = init ++ [x] → isNumChar x = false)
    (hno : ∀ x c y, pre = x ++ c :: ' ' :: y → isNumChar c = false) :
    filterUnit (String.mk (pre ++ (n ++ ' ' :: t))) =
      (match parseFloat32 n with
       | some value => String.mk (fmtG (mulFloat64 value (leadingMultiplier t)))
       | none => "0") := by
  obtain ⟨a, ha, h1, h2⟩ := matchK_unitRegex_leading n t hn hnN
  have hfind := findSubmatch_of_matchK _ _ _ ha
  have hskip := findSubmatch_skip unitRegex (n ++ ' ' :: t) pre
    (unitRegex_no_earlier_match pre n t hnN hlast hno)
  have hne : String.mk (pre ++ (n ++ ' ' :: t)) ≠ "N/A" := data_ne_of_mem_space _ (by simp)
  simp only [filterUnit, hne, if_false, hskip, hfind, h1, h2]

/-- A text without digits and points has none followed by a space. -/
theorem no_number_space_of_no_number (l : List Char)
    (h : ∀ c ∈ l, ¬ (c.isDigit = true ∨ c = '.')) :
    ∀ x c y, l = x ++ c :: ' ' :: y → ¬ (c.isDigit = true ∨ c = '.') := by
  intro x c y hl
  exact h c (by rw [hl]; simp)

/-- A text without point has no dotted run. -/
theorem no_dotted_run_of_not_mem (l : List Char) (h : '.' ∉ l) :
    ∀ x c d y, l = x ++ c :: '.' :: d :: y → ¬ (c.isDigit = true ∧ d.isDigit = true) := by
  intro x c d y hl
  exact absurd (by rw [hl]; simp) h

/-- C5 (amended): for a version string that nowhere has a digit, a point and a
digit in a row, `formatVersion` renders the value "0"; a dotted digit run is
found wherever it stands: when the string is `pre ++ major ++ "." ++ minor ++
rest`, with `major` and `minor` non-empty digit runs that cannot be extended
(no digit right before `major` or right after `minor`) and no digit, point and
digit in a row before the point of the run, `formatVersion` renders the value
`major ++ "." ++ minor`; and every string that has a digit, a point and a
digit in a row is of this form. -/
theorem formatVersion_leftmost_dotted_run (key meta value : String) :
    ((∀ pre c d post, value.data = pre ++ c :: '.' :: d :: post →
        ¬ (c.isDigit = true ∧ d.isDigit = true)) →
      formatVersion key meta value =
        (if meta ≠ "" then key ++ ("\x7b" ++ meta ++ "\x7d") else key) ++ " " ++ "0" ++ "\n") ∧
    (∀ pre major minor rest : String,
      value = pre ++ major ++ "." ++ minor ++ rest →
      major ≠ "" → (∀ c ∈ major.data, c.isDigit = true) →
      minor ≠ "" → (∀ c ∈ minor.data, c.isDigit = true) →
      (∀ c ∈ rest.data.head?, c.isDigit = false) →
      (∀ c ∈ pre.data.getLast?, c.isDigit = false) →
      (∀ x c d y, pre.data ++ major.data = x ++ c :: '.' :: d :: y →
        ¬ (c.isDigit = true ∧ d.isDigit = true)) →
      formatVersion key meta value =
        (if meta ≠ "" then key ++ ("\x7b" ++ meta ++ "\x7d") else key) ++ " " ++
          (major ++ "." ++ minor) ++ "\n") ∧
    ((∃ pre c d post, value.data = pre ++ c :: '.' :: d :: post ∧
        c.isDigit = true ∧ d.isDigit = true) →
      ∃ pre major minor rest : String,
        value = pre ++ major ++ "." ++ minor ++ rest ∧
        major ≠ "" ∧ (∀ c ∈ major.data, c.isDigit = true) ∧
        minor ≠ "" ∧ (∀ c ∈ minor.data, c.isDigit = true) ∧
        (∀ c ∈ rest.data.head?, c.isDigit = false) ∧
        (∀ c ∈ pre.data.getLast?, c.isDigit = false) ∧
        (∀ x c d y, pre.data ++ major.data = x ++ c :: '.' :: d :: y →
          ¬ (c.isDigit = true ∧ d.isDigit = true))) := by
  refine ⟨?_, ?_, ?_⟩
  · intro h
    rw [formatVersion_no_match key meta value h]
    rfl
  · intro pre major minor rest hv hmajor hmajorD hminor hminorD hrest hlast hno
    have hs : value =
        String.mk (pre.data ++ (major.data ++ '.' :: (minor.data ++ rest.data))) := by
      rw [hv]
      apply String.ext
      simp [String.data_append]
    have hm : major ++ "." ++ minor = String.mk (major.data ++ '.' :: minor.data) := by
      apply String.ext
      simp [String.data_append]
    rw [hs, hm, formatVersion_leftmost key meta pre.data major.data minor.data rest.data
      (fun h => hmajor (String.ext (by simpa using h))) hmajorD
      (fun h => hminor (String.ext (by simpa using h))) hminorD
      (fun x xs h => hrest x (by rw [h]; simp))
      (fun init x h => hlast x (getLast?_of_append_singleton _ init x h)) hno]
    rfl
  · intro h
    obtain ⟨pre, major, minor, rest, hl, h1, h2, h3, h4, h5, h6, h7⟩ :=
      exists_leftmost_dotted_run value.data h
    refine ⟨String.mk pre, String.mk major, String.mk minor, String.mk rest, ?_, ?_, h2, ?_, h4,
      ?_, ?_, h7⟩
    · apply String.ext
      simp [String.data_append, hl]
    · exact fun h => h1 (by simpa using congrArg String.data h)
    · exact fun h => h3 (by simpa using congrArg String.data h)
    · intro c hc
      cases rest with
      | nil => simp at hc
      | cons x xs =>
        have : x = c := by simpa using hc
        exact this ▸ h5 x xs rfl
    · intro c hc
      have hc' : pre.getLast? = some c := hc
      obtain ⟨init, hinit⟩ : ∃ init, pre = init ++ [c] := by
        rcases List.eq_nil_or_concat pre with h0 | ⟨i, x, hil⟩
        · rw [h0] at hc'
          simp at hc'
        · have hp : pre = i ++ [x] := by simpa using hil
          rw [hp] at hc'
          have : x = c := by simpa using hc'
          exact ⟨i, this ▸ hp⟩
      exact h6 init c hinit

/-- C5 (amended) at the sentinel "N/A", at "v1.2" and at a string with digits
before the version. -/
theorem formatVersion_leftmost_dotted_run_witness :
    ((∀ pre c d post, "N/A".data = pre ++ c :: '.' :: d :: post →
        ¬ (c.isDigit = true ∧ d.isDigit = true)) ∧
      formatVersion "nvidia_smi_cuda_version" "id=\"0\"" "N/A" =
        "nvidia_smi_cuda_version\x7bid=\"0\"\x7d 0\n") ∧
    ("v1.2" = "v" ++ "1" ++ "." ++ "2" ++ "" ∧
      formatVersion "nvidia_smi_cuda_version" "id=\"0\"" "v1.2" =
        "nvidia_smi_cuda_version\x7bid=\"0\"\x7d 1.2\n") ∧
    ("build 7 of 440.95.01" = "build 7 of " ++ "440" ++ "." ++ "95" ++ ".01" ∧
      formatVersion "nvidia_smi_driver_version" "" "build 7 of 440.95.01" =
        "nvidia_smi_driver_version 440.95\n") :=
  ⟨⟨no_dotted_run_of_not_mem "N/A".data (by decide),
      (formatVersion_leftmost_dotted_run "nvidia_smi_cuda_version" "id=\"0\"" "N/A").1
        (no_dotted_run_of_not_mem "N/A".data (by decide))⟩,
    ⟨by decide,
      (formatVersion_leftmost_dotted_run "nvidia_smi_cuda_version" "id=\"0\"" "v1.2").2.1
        "v" "1" "2" "" (by decide) (by decide) (by decide) (by decide) (by decide) (by decide)
        (by decide) (no_dotted_run_of_not_mem _ (by decide))⟩,
    ⟨by decide,
      (formatVersion_leftmost_dotted_run "nvidia_smi_driver_version" ""
          "build 7 of 440.95.01").2.1
        "build 7 of " "440" "95" ".01" (by decide) (by decide) (by decide) (by decide)
        (by decide) (by decide) (by decide) (no_dotted_run_of_not_mem _ (by decide))⟩⟩

/-- C6 (amended): for an input that nowhere has a digit or point immediately
followed by a space, `filterUnit` returns "0"; the expression is found
wherever it stands: when the input is `pre ++ n ++ " " ++ t`, with `n` a
non-empty run of digits and points, no digit or point right before `n` and no
digit or point followed by a space in `pre`, `filterUnit` converts `n` with
the multiplier read off the start of `t` (and returns "0" when `n` is no
decimal or exceeds the single-precision range); and every input that has a
digit or point followed by a space is of this form. -/
theorem filterUnit_leftmost_number_space (s : String) :
    ((∀ pre c post, s.data = pre ++ c :: ' ' :: post → ¬ (c.isDigit = true ∨ c = '.')) →
      filterUnit s = "0") ∧
    (∀ pre n t : String,
      s = pre ++ n ++ " " ++ t →
      n ≠ "" → (∀ c ∈ n.data, c.isDigit = true ∨ c = '.') →
      (∀ c ∈ pre.data.getLast?, ¬ (c.isDigit = true ∨ c = '.')) →
      (∀ x c y, pre.data = x ++ c :: ' ' :: y → ¬ (c.isDigit = true ∨ c = '.')) →
      filterUnit s =
        (match parseFloat32 n.data with
         | some value => String.mk (fmtG (mulFloat64 value (leadingMultiplier t.data)))
         | none => "0")) ∧
    ((∃ pre c post, s.data = pre ++ c :: ' ' :: post ∧ (c.isDigit = true ∨ c = '.')) →
      ∃ pre n t : String,
        s = pre ++ n ++ " " ++ t ∧
        n ≠ "" ∧ (∀ c ∈ n.data, c.isDigit = true ∨ c = '.') ∧
        (∀ c ∈ pre.data.getLast?, ¬ (c.isDigit = true ∨ c = '.')) ∧
        (∀ x c y, pre.data = x ++ c :: ' ' :: y → ¬ (c.isDigit = true ∨ c = '.'))) := by
  refine ⟨?_, ?_, ?_⟩
  · intro h
    apply filterUnit_no_match
    intro pre c post hs
    exact (isNumChar_false_iff c).mpr (h pre c post hs)
  · intro pre n t hs hn hnN hlast hno
    have hs' : s = String.mk (pre.data ++ (n.data ++ ' ' :: t.data)) := by
      rw [hs]
      apply String.ext
      simp [String.data_append]
    rw [hs']
    exact filterUnit_leftmost pre.data n.data t.data
      (fun h => hn (String.ext (by simpa using h)))
      (fun x hx => (isNumChar_iff x).mpr (hnN x hx))
      (fun init x h =>
        (isNumChar_false_iff x).mpr (hlast x (getLast?_of_append_singleton _ init x h)))
      (fun x c y h => (isNumChar_false_iff c).mpr (hno x c y h))
  · intro h
    have h' : ∃ x c y, s.data = x ++ c :: ' ' :: y ∧ isNumChar c = true := by
      obtain ⟨x, c, y, h1, h2⟩ := h
      exact ⟨x, c, y, h1, (isNumChar_iff c).mpr h2⟩
    obtain ⟨pre, n, t, hl, h1, h2, h3, h4⟩ := exists_leftmost_number_space s.data h'
    refine ⟨String.mk pre, String.mk n, String.mk t, ?_, ?_, ?_, ?_, ?_⟩
    · apply String.ext
      simp [String.data_append, hl]
    · exact fun h => h1 (by simpa using congrArg String.data h)
    · exact fun c hc => (isNumChar_iff c).mp (h2 c hc)
    · intro c hc
      have hc' : pre.getLast? = some c := hc
      obtain ⟨init, hinit⟩ : ∃ init, pre = init ++ [c] := by
        rcases List.eq_nil_or_concat pre with h0 | ⟨i, x, hil⟩
        · rw [h0] at hc'
          simp at hc'
        · have hp : pre = i ++ [x] := by simpa using hil
          rw [hp] at hc'
          have : x = c := by simpa using hc'
          exact ⟨i, this ▸ hp⟩
      exact (isNumChar_false_iff c).mp (h3 init c hinit)
    · exact fun x c y h => (isNumChar_false_iff c).mp (h4 x c y h)

/-- C6 (amended) at "961MHz", a magnitude written without a space, and at
"abc 12 MiB", where the numeral stands after other text. -/
theorem filterUnit_leftmost_number_space_witness :
    ((∀ pre c post, "961MHz".data = pre ++ c :: ' ' :: post → ¬ (c.isDigit = true ∨ c = '.')) ∧
      filterUnit "961MHz" = "0") ∧
    ("abc 12 MiB" = "abc " ++ "12" ++ " " ++ "MiB" ∧
      filterUnit "abc 12 MiB" =
        (match parseFloat32 "12".data with
         | some value => String.mk (fmtG (mulFloat64 value (leadingMultiplier "MiB".data)))
         | none => "0") ∧
      filterUnit "abc 12 MiB" = "1.2582912e+07") :=
  ⟨⟨no_number_space_of_no_space "961MHz" (by decide),
      (filterUnit_leftmost_number_space "961MHz").1
        (no_number_space_of_no_space "961MHz" (by decide))⟩,
    ⟨by decide,
      (filterUnit_leftmost_number_space "abc 12 MiB").2.1 "abc " "12" "MiB"
        (by decide) (by decide) (by decide) (by decide)
        (no_number_space_of_no_number _ (by decide)),
      by decide⟩⟩

end NvidiaSmi

namespace NvidiaSmi

/-! ## The text of the lines (C8, C12) -/

/-- C8: in a document with driver version "440.95.01", for a device with
graphics clock "961 MHz" and memory utilization "1 %" the response contains
the line `nvidia_smi_driver_version{<labels of the device>} 440.95`, the line
`nvidia_smi_clock_graphics_hertz{<labels>} 9.61e+08` and the line
`nvidia_smi_utilization_memory_percent{<labels>} 1`, each with its newline. -/
theorem sample_document_line_text (xmlData : NvidiaSmiLog) (GPU : GPU)
    (hversion : xmlData.DriverVersion = "440.95.01") (hGPU : GPU ∈ xmlData.GPU)
    (hclock : GPU.Clocks.GraphicsClock = "961 MHz")
    (hutil : GPU.Utilization.MemoryUtil = "1 %") :
    "nvidia_smi_driver_version" ++ "\x7b" ++
        ("id=\"" ++ GPU.Id ++ "\",uuid=\"" ++ GPU.UUID ++ "\",name=\"" ++ GPU.ProductName ++ "\"")
        ++ "\x7d" ++ " " ++ "440.95" ++ "\n"
      ∈ generateMetricsResponse xmlData ∧
    "nvidia_smi_clock_graphics_hertz" ++ "\x7b" ++
        ("id=\"" ++ GPU.Id ++ "\",uuid=\"" ++ GPU.UUID ++ "\",name=\"" ++ GPU.ProductName ++ "\"")
        ++ "\x7d" ++ " " ++ "9.61e+08" ++ "\n"
      ∈ generateMetricsResponse xmlData ∧
    "nvidia_smi_utilization_memory_percent" ++ "\x7b" ++
        ("id=\"" ++ GPU.Id ++ "\",uuid=\"" ++ GPU.UUID ++ "\",name=\"" ++ GPU.ProductName ++ "\"")
        ++ "\x7d" ++ " " ++ "1" ++ "\n"
      ∈ generateMetricsResponse xmlData := by
  have hv : formatVersion "nvidia_smi_driver_version" (idInfo GPU) xmlData.DriverVersion =
      formatValue "nvidia_smi_driver_version" (idInfo GPU) "440.95" := by
    have hfind : findSubmatch versionRegex "440.95.01".data = some [(1, "440.95".data)] := by
      decide
    rw [hversion]
    simp only [formatVersion, hfind, capture]
    rfl
  have hc : filterUnit GPU.Clocks.GraphicsClock = "9.61e+08" := by
    rw [hclock]
    decide
  have hu : filterUnit GPU.Utilization.MemoryUtil = "1" := by
    rw [hutil]
    decide
  have h1 : "nvidia_smi_driver_version" ++ "\x7b" ++
        ("id=\"" ++ GPU.Id ++ "\",uuid=\"" ++ GPU.UUID ++ "\",name=\"" ++ GPU.ProductName ++ "\"")
        ++ "\x7d" ++ " " ++ "440.95" ++ "\n" =
      formatValue "nvidia_smi_driver_version" (idInfo GPU) "440.95" :=
    (formatValue_with_labels _ _ _ (idInfo_ne_empty GPU)).symm
  have h2 : "nvidia_smi_clock_graphics_hertz" ++ "\x7b" ++
        ("id=\"" ++ GPU.Id ++ "\",uuid=\"" ++ GPU.UUID ++ "\",name=\"" ++ GPU.ProductName ++ "\"")
        ++ "\x7d" ++ " " ++ "9.61e+08" ++ "\n" =
      formatValue "nvidia_smi_clock_graphics_hertz" (idInfo GPU) "9.61e+08" :=
    (formatValue_with_labels _ _ _ (idInfo_ne_empty GPU)).symm
  have h3 : "nvidia_smi_utilization_memory_percent" ++ "\x7b" ++
        ("id=\"" ++ GPU.Id ++ "\",uuid=\"" ++ GPU.UUID ++ "\",name=\"" ++ GPU.ProductName ++ "\"")
        ++ "\x7d" ++ " " ++ "1" ++ "\n" =
      formatValue "nvidia_smi_utilization_memory_percent" (idInfo GPU) "1" :=
    (formatValue_with_labels _ _ _ (idInfo_ne_empty GPU)).symm
  rw [h1, h2, h3]
  refine ⟨?_, ?_, ?_⟩ <;>
    apply mem_generateMetricsResponse xmlData GPU _ hGPU <;>
    apply List.mem_append_left <;>
    simp only [deviceFixedLines, hv, hc, hu] <;>
    simp only [List.mem_cons, true_or, or_true]

/-- C8 at the sample document: the three lines as they are written. -/
theorem sample_document_line_text_witness :
    (sampleLog.DriverVersion = "440.95.01" ∧ sampleGPU ∈ sampleLog.GPU ∧
      sampleGPU.Clocks.GraphicsClock = "961 MHz" ∧ sampleGPU.Utilization.MemoryUtil = "1 %") ∧
    ("nvidia_smi_driver_version" ++ "\x7b" ++
        ("id=\"" ++ sampleGPU.Id ++ "\",uuid=\"" ++ sampleGPU.UUID ++ "\",name=\""
          ++ sampleGPU.ProductName ++ "\"")
        ++ "\x7d" ++ " " ++ "440.95" ++ "\n"
        ∈ generateMetricsResponse sampleLog ∧
      "nvidia_smi_clock_graphics_hertz" ++ "\x7b" ++
        ("id=\"" ++ sampleGPU.Id ++ "\",uuid=\"" ++ sampleGPU.UUID ++ "\",name=\""
          ++ sampleGPU.ProductName ++ "\"")
        ++ "\x7d" ++ " " ++ "9.61e+08" ++ "\n"
        ∈ generateMetricsResponse sampleLog ∧
      "nvidia_smi_utilization_memory_percent" ++ "\x7b" ++
        ("id=\"" ++ sampleGPU.Id ++ "\",uuid=\"" ++ sampleGPU.UUID ++ "\",name=\""
          ++ sampleGPU.ProductName ++ "\"")
        ++ "\x7d" ++ " " ++ "1" ++ "\n"
        ∈ generateMetricsResponse sampleLog) :=
  ⟨⟨rfl, List.mem_singleton.2 rfl, rfl, rfl⟩,
    sample_document_line_text sampleLog sampleGPU rfl (List.mem_singleton.2 rfl) rfl rfl⟩

/-- C12: under the same top-level fields the response for `ds1 ++ ds2` is the
response for `ds1` followed by the response for `ds2`; the response is the
concatenation, in device order, of one block per device; a block is, for each
entry of the table in table order, the line made of the metric name of the
entry, the labels of the device in braces, a space, the value and a newline,
followed by the process lines of the device in process order; and the metric
names of the table are the same fifty-two names for every device, starting
with the driver-version, CUDA-version and attached-GPU lines. -/
theorem response_is_blocks_of_named_lines (dv cv ag : String) (ds1 ds2 : List GPU) :
    generateMetricsResponse ⟨dv, cv, ag, ds1 ++ ds2⟩ =
      generateMetricsResponse ⟨dv, cv, ag, ds1⟩ ++ generateMetricsResponse ⟨dv, cv, ag, ds2⟩ ∧
    (∀ xmlData : NvidiaSmiLog, generateMetricsResponse xmlData =
      (xmlData.GPU.map (fun d =>
        fixedLineTable.map (fun l =>
          l.name ++ "\x7b" ++
            ("id=\"" ++ d.Id ++ "\",uuid=\"" ++ d.UUID ++ "\",name=\"" ++ d.ProductName ++ "\"")
            ++ "\x7d" ++ " " ++ l.conv.apply (l.field xmlData d) ++ "\n") ++
        d.Processes.ProcessInfo.map (fun p =>
          "nvidia_smi_process_used_memory_bytes" ++ "\x7b" ++
            ("id=\"" ++ d.Id ++ "\",uuid=\"" ++ d.UUID ++ "\",name=\"" ++ d.ProductName ++ "\""
              ++ ",process_pid=\"" ++ p.Pid ++ "\",process_type=\"" ++ p.«Type» ++ "\"")
            ++ "\x7d" ++ " " ++ filterUnit p.UsedMemory ++ "\n"))).flatten) ∧
    fixedLineTable.map (fun l => l.name) =
      [
        "nvidia_smi_driver_version",
        "nvidia_smi_cuda_version",
        "nvidia_smi_attached_gpus",
        "nvidia_smi_pci_pcie_gen_max",
        "nvidia_smi_pci_pcie_gen_current",
        "nvidia_smi_pci_link_width_max_multiplicator",
        "nvidia_smi_pci_link_width_current_multiplicator",
        "nvidia_smi_pci_replay_counter",
        "nvidia_smi_pci_replay_rollover_counter",
        "nvidia_smi_pci_tx_util_bytes_per_second",
        "nvidia_smi_pci_rx_util_bytes_per_second",
        "nvidia_smi_fan_speed_percent",
        "nvidia_smi_performance_state_int",
        "nvidia_smi_fb_memory_usage_total_bytes",
        "nvidia_smi_fb_memory_usage_used_bytes",
        "nvidia_smi_fb_memory_usage_free_bytes",
        "nvidia_smi_bar1_memory_usage_total_bytes",
        "nvidia_smi_bar1_memory_usage_used_bytes",
        "nvidia_smi_bar1_memory_usage_free_bytes",
        "nvidia_smi_utilization_gpu_percent",
        "nvidia_smi_utilization_memory_percent",
        "nvidia_smi_utilization_encoder_percent",
        "nvidia_smi_utilization_decoder_percent",
        "nvidia_smi_encoder_session_count",
        "nvidia_smi_encoder_average_fps",
        "nvidia_smi_encoder_average_latency",
        "nvidia_smi_fbc_session_count",
        "nvidia_smi_fbc_average_fps",
        "nvidia_smi_fbc_average_latency",
        "nvidia_smi_gpu_temp_celsius",
        "nvidia_smi_gpu_temp_max_threshold_celsius",
        "nvidia_smi_gpu_temp_slow_threshold_celsius",
        "nvidia_smi_gpu_temp_max_gpu_threshold_celsius",
        "nvidia_smi_memory_temp_celsius",
        "nvidia_smi_gpu_temp_max_mem_threshold_celsius",
        "nvidia_smi_power_state_int",
        "nvidia_smi_power_draw_watts",
        "nvidia_smi_power_limit_watts",
        "nvidia_smi_default_power_limit_watts",
        "nvidia_smi_enforced_power_limit_watts",
        "nvidia_smi_min_power_limit_watts",
        "nvidia_smi_max_power_limit_watts",
        "nvidia_smi_clock_graphics_hertz",
        "nvidia_smi_clock_graphics_max_hertz",
        "nvidia_smi_clock_sm_hertz",
        "nvidia_smi_clock_sm_max_hertz",
        "nvidia_smi_clock_mem_hertz",
        "nvidia_smi_clock_mem_max_hertz",
        "nvidia_smi_clock_video_hertz",
        "nvidia_smi_clock_video_max_hertz",
        "nvidia_smi_clock_policy_auto_boost",
        "nvidia_smi_clock_policy_auto_boost_default" ] := by
  refine ⟨?_, fun xmlData => ?_, by decide⟩
  · simp only [generateMetricsResponse, List.map_append, List.flatten_append]
    rfl
  · unfold generateMetricsResponse
    congr 1

end NvidiaSmi

namespace NvidiaSmi

/-! ## The significant figures of the string printed (C17) -/

theorem isDigit_ne_point (c : Char) (h : isDigit c = true) : (c != '.') = true := by
  rcases Bool.eq_false_or_eq_true (c != '.') with h1 | h1
  · exact h1
  · have : c = '.' := by simpa using h1
    rw [this] at h
    exact absurd h (by decide)

theorem filter_point_digits (x : List Char) (hD : ∀ c ∈ x, isDigit c = true) :
    x.filter (fun c => c != '.') = x :=
  List.filter_eq_self.mpr (fun c hc => isDigit_ne_point c (hD c hc))

theorem contains_point_digits (x : List Char) (hD : ∀ c ∈ x, isDigit c = true) :
    x.contains '.' = false := by
  rcases Bool.eq_false_or_eq_true (x.contains '.') with h | h
  · have hm : '.' ∈ x := by simpa using h
    exact absurd (hD '.' hm) (by decide)
  · exact h

theorem dropZeros_of_head (d : List Char) (h : ∀ c ∈ d.head?, c ≠ '0') :
    d.dropWhile (fun c => c == '0') = d := by
  cases d with
  | nil => rfl
  | cons x xs =>
    have hx : x ≠ '0' := h x (by simp)
    rw [List.dropWhile_cons_of_neg (by simpa using hx)]

theorem dropZeros_replicate (k : Nat) (d : List Char) (h : ∀ c ∈ d.head?, c ≠ '0') :
    (List.replicate k '0' ++ d).dropWhile (fun c => c == '0') = d := by
  rw [List.dropWhile_append_of_pos (fun c hc => by simp [(List.mem_replicate.mp hc).2])]
  exact dropZeros_of_head d h

theorem trimZeros_append_zeros (d : List Char) (z : Nat) :
    trimZeros (d ++ List.replicate z '0') = trimZeros d := by
  unfold trimZeros
  rw [List.reverse_append, List.reverse_replicate,
    List.dropWhile_append_of_pos (fun c hc => by simp [(List.mem_replicate.mp hc).2])]

theorem trimZeros_idem (ds : List Char) : trimZeros (trimZeros ds) = trimZeros ds := by
  unfold trimZeros
  rw [List.reverse_reverse, List.dropWhile_idempotent]

/-- The significant figures of a numeral without exponent. -/
theorem significantFigures_plain (s : List Char) (hs : ∀ c ∈ s, isNumChar c = true) :
    significantFigures s =
      if s.contains '.' then (s.filter (fun c => c != '.')).dropWhile (fun c => c == '0')
      else trimZeros ((s.filter (fun c => c != '.')).dropWhile (fun c => c == '0')) := by
  have h1 : s.takeWhile (fun c => c != 'e') = s :=
    List.takeWhile_eq_self_iff.2 (fun c hc => isNumChar_ne_e c (hs c hc))
  unfold significantFigures
  rw [h1]

/-- The significant figures of a numeral with exponent are those of its mantissa. -/
theorem significantFigures_exp (s t : List Char) (hs : ∀ c ∈ s, isNumChar c = true) :
    significantFigures (s ++ 'e' :: t) =
      if s.contains '.' then (s.filter (fun c => c != '.')).dropWhile (fun c => c == '0')
      else trimZeros ((s.filter (fun c => c != '.')).dropWhile (fun c => c == '0')) := by
  unfold significantFigures
  rw [(split_at_e s t hs).1]

/-- Digits around a point: the point is left out. -/
theorem filter_point_around (a b : List Char) (ha : ∀ c ∈ a, isDigit c = true)
    (hb : ∀ c ∈ b, isDigit c = true) :
    (a ++ '.' :: b).filter (fun c => c != '.') = a ++ b := by
  rw [List.filter_append, List.filter_cons_of_neg (by simp), filter_point_digits a ha,
    filter_point_digits b hb]

theorem contains_point_around (a b : List Char) : (a ++ '.' :: b).contains '.' = true := by
  simp

end NvidiaSmi

namespace NvidiaSmi

/-- The `%e` layout shows the digits it is given. -/
theorem significantFigures_fmtE (d : List Char) (dp : Int) (hd : d ≠ [])
    (hD : ∀ c ∈ d, isDigit c = true) (hhead : ∀ c ∈ d.head?, c ≠ '0')
    (htrim : trimZeros d = d) :
    significantFigures (fmtE d dp (d.length - 1)) = d := by
  obtain ⟨h, t, rfl⟩ : ∃ h t, d = h :: t := by
    cases d with
    | nil => exact absurd rfl hd
    | cons h t => exact ⟨h, t, rfl⟩
  rw [fmtE_eq, significantFigures_exp _ _ (mantissa_isNumChar h t hD)]
  by_cases ht : t = []
  · subst ht
    rw [if_pos rfl, contains_point_digits [h] hD, filter_point_digits [h] hD,
      dropZeros_of_head [h] hhead]
    simpa using htrim
  · rw [if_neg ht]
    have h1 : ∀ c ∈ [h], isDigit c = true := fun c hc => hD c (by simp at hc; simp [hc])
    have h2 : ∀ c ∈ t, isDigit c = true := fun c hc => hD c (List.mem_cons_of_mem _ hc)
    have hform : h :: '.' :: t = [h] ++ '.' :: t := rfl
    rw [hform, contains_point_around, filter_point_around [h] t h1 h2, if_pos rfl]
    exact dropZeros_of_head (h :: t) hhead

/-- The `%f` layout shows the digits it is given. -/
theorem significantFigures_fmtF (d : List Char) (dp : Int) (hd : d ≠ [])
    (hD : ∀ c ∈ d, isDigit c = true) (hhead : ∀ c ∈ d.head?, c ≠ '0')
    (htrim : trimZeros d = d) :
    significantFigures (fmtF d dp ((d.length : Int) - dp).toNat) = d := by
  have hn : 0 < d.length := List.length_pos.mpr hd
  have hz : isDigit '0' = true := by decide
  rw [fmtF_eq]
  by_cases hpos : 0 < dp
  · obtain ⟨k, rfl⟩ := Int.eq_ofNat_of_zero_le hpos.le
    have hk : 0 < k := by omega
    rw [if_pos hpos, Int.toNat_natCast]
    by_cases hge : d.length ≤ k
    · have hp : ((d.length : Int) - (k : Int)).toNat = 0 := by omega
      rw [hp, if_neg (lt_irrefl 0), List.append_nil, min_eq_left hge, List.take_length]
      have hall : ∀ c ∈ d ++ List.replicate (k - d.length) '0', isDigit c = true := by
        intro c hc
        rcases List.mem_append.mp hc with h | h
        · exact hD c h
        · rw [(List.mem_replicate.mp h).2]
          exact hz
      have hhead' : ∀ c ∈ (d ++ List.replicate (k - d.length) '0').head?, c ≠ '0' := by
        intro c hc
        apply hhead c
        cases d with
        | nil => exact absurd rfl hd
        | cons x xs => simpa using hc
      rw [significantFigures_plain _ (fun c hc => isNumChar_of_isDigit c (hall c hc)),
        contains_point_digits _ hall, filter_point_digits _ hall, dropZeros_of_head _ hhead',
        trimZeros_append_zeros, htrim]
      simp
    · have hlt : k < d.length := Nat.lt_of_not_le hge
      have hp : ((d.length : Int) - (k : Int)).toNat = d.length - k := by omega
      rw [hp, if_pos (by omega : 0 < d.length - k), min_eq_right hlt.le, Nat.sub_self,
        List.replicate_zero, List.append_nil, fmtF_fraction_drop d k hlt.le]
      have h1 : ∀ c ∈ d.take k, isDigit c = true := fun c hc => hD c (List.mem_of_mem_take hc)
      have h2 : ∀ c ∈ d.drop k, isDigit c = true := fun c hc => hD c (List.mem_of_mem_drop hc)
      have hall : ∀ c ∈ d.take k ++ '.' :: d.drop k, isNumChar c = true := by
        intro c hc
        rcases List.mem_append.mp hc with h | h
        · exact isNumChar_of_isDigit c (h1 c h)
        · rcases List.mem_cons.mp h with rfl | h
          · decide
          · exact isNumChar_of_isDigit c (h2 c h)
      rw [significantFigures_plain _ hall, contains_point_around,
        filter_point_around _ _ h1 h2, List.take_append_drop, if_pos rfl]
      exact dropZeros_of_head d hhead
  · obtain ⟨z, rfl⟩ : ∃ z : Nat, dp = -(z : Int) := ⟨(-dp).toNat, by omega⟩
    have hp : ((d.length : Int) - -(z : Int)).toNat = d.length + z := by omega
    rw [if_neg hpos, hp, if_pos (by omega : 0 < d.length + z), fmtF_fraction_zeros d z]
    have h1 : ∀ c ∈ ['0'], isDigit c = true := by
      intro c hc
      rw [List.mem_singleton.mp hc]
      exact hz
    have h2 : ∀ c ∈ List.replicate z '0' ++ d, isDigit c = true := by
      intro c hc
      rcases List.mem_append.mp hc with h | h
      · rw [(List.mem_replicate.mp h).2]
        exact hz
      · exact hD c h
    have hall : ∀ c ∈ ['0'] ++ '.' :: (List.replicate z '0' ++ d), isNumChar c = true := by
      intro c hc
      rcases List.mem_append.mp hc with h | h
      · exact isNumChar_of_isDigit c (h1 c h)
      · rcases List.mem_cons.mp h with rfl | h
        · decide
        · exact isNumChar_of_isDigit c (h2 c h)
    have hjoin : ['0'] ++ (List.replicate z '0' ++ d) = List.replicate (z + 1) '0' ++ d := by
      rw [List.replicate_succ]
      rfl
    rw [significantFigures_plain _ hall, contains_point_around,
      filter_point_around _ _ h1 h2, if_pos rfl, hjoin]
    exact dropZeros_replicate (z + 1) d hhead

theorem isDigit_toNat (c : Char) (h : isDigit c = true) : c.toNat - 48 ≤ 9 := by
  simp only [isDigit, Char.isDigit, Bool.and_eq_true, decide_eq_true_eq] at h
  have h2 : c.val.toNat ≤ 57 := h.2
  have : c.toNat = c.val.toNat := rfl
  omega

theorem digitsToNat_lt (x : List Char) (hD : ∀ c ∈ x, isDigit c = true) :
    digitsToNat x < 10 ^ x.length := by
  induction x using List.reverseRecOn with
  | nil => simp [digitsToNat]
  | append_singleton init c ih =>
    have h1 := ih (fun y hy => hD y (List.mem_append_left _ hy))
    have h2 := isDigit_toNat c (hD c (by simp))
    rw [digitsToNat_append_singleton, List.length_append, List.length_singleton, pow_succ]
    omega

/-- The digits of a positive number do not start with a zero. -/
theorem natDigits_head (c : Nat) (hc0 : c ≠ 0) (h40 : c < 10 ^ 40) :
    ∀ x ∈ (natDigits 40 c []).head?, x ≠ '0' := by
  have hdig := natDigits_isDigit 40 c [] (by simp)
  obtain ⟨ds, h1, h2, _, h4, _⟩ := natDigits_spec 40 c [] h40 (by norm_num)
  rw [List.append_nil] at h1
  rw [h1] at hdig ⊢
  intro x hx hx0
  cases ds with
  | nil => simp at hx
  | cons y rest =>
    have hy : y = '0' := by
      have : y = x := by simpa using hx
      rw [this, hx0]
    have hval : digitsToNat (y :: rest) = digitsToNat rest := by
      rw [hy]
      exact digitsToNat_zeros_append 1 rest
    have hlt := digitsToNat_lt rest (fun z hz => hdig z (List.mem_cons_of_mem _ hz))
    have hle := h4 hc0
    rw [← h2, hval] at hle
    simp only [List.length_cons, Nat.add_sub_cancel] at hle
    omega

end NvidiaSmi

namespace NvidiaSmi

/-- The digits of `shortestDigits` for a float64 in normal form do not start
with a zero and do not end with one. -/
theorem shortestDigits_ends (v : FloatVal) (hv : IsFloat64 v) :
    (∀ x ∈ (shortestDigits v).1.head?, x ≠ '0') ∧
      trimZeros (shortestDigits v).1 = (shortestDigits v).1 := by
  obtain ⟨hm0, hm1⟩ := isFloat64_mant v hv
  have hne : v.mant ≠ 0 := by omega
  rw [shortestDigits_eq v hne]
  have hden := scaleDen_pos v
  have hX : 0 < scaleMid v := by
    unfold scaleMid
    positivity
  obtain ⟨hd1, hd2⟩ := floorLog10Ratio_spec (scaleMid v) (scaleDen v) hX hden
  obtain ⟨hstrict, hlow, hgL, hgH⟩ := interval_gaps v hv
  have hLr := scaleLow_rat v hm0
  have hHr := scaleHigh_rat v
  have hXr := scaleMid_rat v
  set X := scaleMid v with hXdef
  set L := scaleLow v with hLdef
  set H := scaleHigh v with hHdef
  set den := scaleDen v with hdendef
  set dexp := floorLog10Ratio X den with hdexp
  refine ⟨?_, trimZeros_idem _⟩
  rcases shortestAux_spec X L H den (v.mant % 2 == 0) dexp 17 1 with
    ⟨j, hj, hk, hc, hin, hprev⟩ | hall
  · set r := shortestAux X L H den (v.mant % 2 == 0) dexp 17 1 with hr
    have hR : RoundsTo v ((r.1 : ℚ) * (10 : ℚ) ^ r.2) := by
      rw [hk]
      exact (rounds_iff v hm0 _).mp ((inInterval_iff L H den hden _ _ _).mp hin)
    have hr0 : r.1 ≠ 0 := by
      intro h0
      unfold RoundsTo at hR
      rw [h0] at hR
      simp only [Nat.cast_zero, zero_mul] at hR
      split at hR
      · linarith [hR.1]
      · linarith [hR.1]
    have hfl := floorCand_lt X den hden dexp (1 + j) hd2
    have hrle : r.1 ≤ 10 ^ (1 + j) := by
      rcases hc with h | h
      · rw [h]
        exact hfl.le
      · rw [h]
        exact hfl
    have hpow : 10 ^ (1 + j) ≤ 10 ^ 17 := Nat.pow_le_pow_right (by norm_num) (by omega)
    have hr40 : r.1 < 10 ^ 40 := lt_of_le_of_lt (le_trans hrle hpow) (by norm_num)
    have hhead := natDigits_head r.1 hr0 hr40
    obtain ⟨ds, hds1, hds2, _, _, _⟩ := natDigits_spec 40 r.1 [] hr40 (by norm_num)
    rw [List.append_nil] at hds1
    rw [hds1] at hhead
    show ∀ x ∈ (trimZeros (natDigits 40 r.1 [])).head?, x ≠ '0'
    rw [hds1]
    obtain ⟨z, hz⟩ := trimZeros_spec ds
    intro x hx
    apply hhead x
    rw [hz]
    cases htz : trimZeros ds with
    | nil =>
      rw [htz] at hx
      simp at hx
    | cons y ys =>
      rw [htz] at hx
      simpa using hx
  · exfalso
    obtain ⟨hlo, hhi⟩ := hall 16 (by norm_num)
    have hs := seventeen_digits_suffice X L H den hden (v.mant % 2 == 0) dexp
      (by rw [hLr, hXr]; exact hgL) (by rw [hHr, hXr]; exact hgH) hd1
      (dexp - ((1 + 16 : Nat) : Int) + 1) (by push_cast; ring)
    rcases hs with h | h
    · rw [h] at hlo
      exact Bool.noConfusion hlo
    · rw [h] at hhi
      exact Bool.noConfusion hhi

/-- The significant figures of the string printed for a finite float64 are
the digits of `shortestDigits`. -/
theorem significantFigures_fmtG (v : FloatVal) (hv : IsFloat64 v) (hexp : v.exp ≤ 971) :
    significantFigures (fmtG v) = (shortestDigits v).1 := by
  obtain ⟨h1, h2, _, _⟩ := shortestDigits_shape v hv hexp
  obtain ⟨h3, h4⟩ := shortestDigits_ends v hv
  rw [fmtG_eq]
  split
  · exact significantFigures_fmtE _ _ h1 h2 h3 h4
  · exact significantFigures_fmtF _ _ h1 h2 h3 h4

theorem rat_natAbs_div (q : ℚ) (hq : 0 ≤ q) : ((q.num.natAbs : Nat) : ℚ) / (q.den : ℚ) = q := by
  have hn : 0 ≤ q.num := Rat.num_nonneg.mpr hq
  have hcast : ((q.num.natAbs : Nat) : ℚ) = (q.num : ℚ) := by
    have : ((q.num.natAbs : Nat) : Int) = q.num := Int.natAbs_of_nonneg hn
    rw [← Int.cast_natCast, this]
  rw [hcast]
  exact Rat.num_div_den q

/-- C17 (amended): for an input that `filterUnit` accepts (not the sentinel,
matched by the expression, with a numeral that `ParseFloat(_, 32)` reads), let
`v` be the double-precision product of the single-precision number read with
the multiplier of the prefix. The string returned is the `%g` layout of `v`;
the number it denotes is read back as the double-precision float `v`; and it
has no more significant figures than any decimal numeral `c * 10 ^ k` that is
read back as `v` has digits. -/
theorem filterUnit_fewest_significant_figures (s : String) (m : Caps) (value v : FloatVal)
    (hs : s ≠ "N/A") (hm : findSubmatch unitRegex s.data = some m)
    (hval : parseFloat32 (capture m 1) = some value)
    (hv : v = mulFloat64 value (powerMultiplier (capture m 2))) :
    filterUnit s = String.mk (fmtG v) ∧
    (∃ q : ℚ, numeralValue (filterUnit s).data = some q ∧
      roundFloat 53 (-1022) q.num.natAbs q.den = v) ∧
    ∀ (c : Nat) (k : Int), c ≠ 0 →
      roundFloat 53 (-1022) (c * 10 ^ k.toNat) (10 ^ (-k).toNat) = v →
      (significantFigures (filterUnit s).data).length ≤ (Nat.digits 10 c).length := by
  have hrun : filterUnit s = String.mk (fmtG v) := by
    rw [hv]
    simp only [filterUnit, hs, if_false, hm, hval]
  refine ⟨hrun, ?_⟩
  rw [hrun]
  show (∃ q : ℚ, numeralValue (fmtG v) = some q ∧ _) ∧
    ∀ (c : Nat) (k : Int), c ≠ 0 → _ → (significantFigures (fmtG v)).length ≤ _
  by_cases h0 : v.mant = 0
  · have hz : v = ⟨0, -1074⟩ := by
      rw [hv] at h0 ⊢
      exact roundFloat_zero _ _ (by positivity) h0
    rw [hz]
    have hg : fmtG ⟨0, -1074⟩ = ['0'] := rfl
    rw [hg]
    refine ⟨⟨0, ?_, ?_⟩, fun _ _ _ _ => ?_⟩
    · rw [numeralValue_plain ['0'] (by decide) 0 0 rfl]
      simp
    · rfl
    · have : significantFigures ['0'] = [] := by decide
      rw [this]
      exact Nat.zero_le _
  · have hfin : IsFloat64 v ∧ v.exp ≤ 971 := by
      rw [hv] at h0 ⊢
      exact mulFloat64_finite _ _ value hval h0
    obtain ⟨h1, h2⟩ := shortestDigits_correct v hfin.1
    refine ⟨⟨_, fmtG_value v hfin.1 hfin.2, ?_⟩, ?_⟩
    · have hnum : 0 < decimalNum (shortestDigits v).1 (shortestDigits v).2 := by
        rcases Nat.eq_zero_or_pos (decimalNum (shortestDigits v).1 (shortestDigits v).2) with
          hz | hp
        · rw [hz] at h1
          have : (roundFloat 53 (-1022) 0
              (decimalDen (shortestDigits v).1 (shortestDigits v).2)).mant = 0 := rfl
          rw [h1] at this
          exact absurd this h0
        · exact hp
      have hden := decimalDen_pos (shortestDigits v).1 (shortestDigits v).2
      have hmant : (roundFloat 53 (-1022) (decimalNum (shortestDigits v).1 (shortestDigits v).2)
          (decimalDen (shortestDigits v).1 (shortestDigits v).2)).mant ≠ 0 := by
        rw [h1]
        exact h0
      obtain ⟨_, hR⟩ := roundFloat_roundsTo _ _ hnum hden hmant
      rw [h1] at hR
      apply roundFloat_of_roundsTo v hfin.1 _ _ (Rat.den_pos _)
      rw [rat_natAbs_div _ (by positivity)]
      exact hR
    · intro c k hc hr
      rw [significantFigures_fmtG v hfin.1 hfin.2]
      exact h2 c k hc hr

/-- C17 (amended) at "0.1 W": the single-precision number nearest to 0.1 is
`13421773 / 2 ^ 27`, and the seventeen significant figures of its
double-precision value are printed. -/
theorem filterUnit_fewest_significant_figures_witness :
    ("0.1 W" ≠ "N/A" ∧
      findSubmatch unitRegex "0.1 W".data = some [(3, ['W']), (2, []), (1, ['0', '.', '1'])] ∧
      parseFloat32 (capture [(3, ['W']), (2, []), (1, ['0', '.', '1'])] 1) =
        some ⟨13421773, -27⟩ ∧
      (⟨7205759511166976, -56⟩ : FloatVal) =
        mulFloat64 ⟨13421773, -27⟩
          (powerMultiplier (capture [(3, ['W']), (2, []), (1, ['0', '.', '1'])] 2))) ∧
    (filterUnit "0.1 W" = String.mk (fmtG ⟨7205759511166976, -56⟩) ∧
      (∃ q : ℚ, numeralValue (filterUnit "0.1 W").data = some q ∧
        roundFloat 53 (-1022) q.num.natAbs q.den = ⟨7205759511166976, -56⟩) ∧
      ∀ (c : Nat) (k : Int), c ≠ 0 →
        roundFloat 53 (-1022) (c * 10 ^ k.toNat) (10 ^ (-k).toNat) =
          ⟨7205759511166976, -56⟩ →
        (significantFigures (filterUnit "0.1 W").data).length ≤ (Nat.digits 10 c).length) ∧
    filterUnit "0.1 W" = "0.10000000149011612" ∧
    significantFigures (filterUnit "0.1 W").data = "10000000149011612".data ∧
    (significantFigures (filterUnit "0.1 W").data).length = 17 :=
  ⟨⟨by decide, by decide, by decide, by decide⟩,
    filterUnit_fewest_significant_figures "0.1 W" [(3, ['W']), (2, []), (1, ['0', '.', '1'])]
      ⟨13421773, -27⟩ ⟨7205759511166976, -56⟩ (by decide) (by decide) (by decide) (by decide),
    by decide, by decide, by decide⟩

end NvidiaSmi
